import Mathlib

/-!
Verification of the core of the `nearest-neighbour` 2D spatial-indexing
library: a region quadtree, a Z-order grid and a Guttman R-tree, all
sharing a best-first ("distance browsing") k-nearest-neighbour query.

The embedding is shallow: every C++ function of the core is translated
into an executable Lean definition over exact rational arithmetic.
`double` coordinates are modelled as `ℚ`.  The C++ `distance` functions
return `sqrt` of a rational expression; here `dist2` / `dist2Rect`
compute the *radicand* (the squared distance), and every comparison the
algorithms perform on distances is performed on the squared values — a
faithful translation because `Real.sqrt` is monotone on nonnegative
arguments, so both orders agree (the bridge lemmas `sqrt_le_sqrt_of_le`
and `sqrt_lt_sqrt_of_lt` below make this precise, and the final claim
statements are phrased in terms of `Real.sqrt` of the squared values).

`std::priority_queue` is an unstable binary heap: the element popped is
a maximal one with respect to the comparator, ties broken unspecified.
It is modelled by a list together with `extractMax` / `extractMin`,
which remove one maximal (resp. minimal) element; `drain` pops until
empty.
-/

namespace Spatial

/-- `spatial::Point`: a pair of (exact-rational models of) coordinates. -/
structure Point where
  x : ℚ
  y : ℚ
deriving DecidableEq, Repr

/-- `spatial::Rectangle`: an axis-aligned rectangle. -/
structure Rectangle where
  xmin : ℚ
  xmax : ℚ
  ymin : ℚ
  ymax : ℚ
deriving DecidableEq, Repr

/-- `spatial::Range`: an inclusive index pair over the leaf array
(the C++ field `end` is a Lean keyword, so it is called `stop`). -/
structure Range where
  start : ℕ
  stop : ℕ
deriving DecidableEq, Repr

/-- `spatial::Datum<T>`: a record together with its projected 2D point. -/
structure Datum (T : Type) where
  data : T
  point : Point
deriving DecidableEq, Repr

/-- `spatial::midpoint`. -/
def midpoint (rect : Rectangle) : Point :=
  ⟨(rect.xmin + rect.xmax) / 2, (rect.ymin + rect.ymax) / 2⟩

/-- Square of `spatial::distance(Point, Point)` (the C++ returns
`sqrt(dx*dx + dy*dy)`; this is the radicand). -/
def dist2 (p q : Point) : ℚ :=
  (p.x - q.x) * (p.x - q.x) + (p.y - q.y) * (p.y - q.y)

/-- Square of `spatial::distance(Point, Rectangle)` (the C++ returns
`sqrt(dx*dx + dy*dy)` for the clamped component gaps; this is the
radicand). -/
def dist2Rect (p : Point) (rect : Rectangle) : ℚ :=
  let dx := max (max (rect.xmin - p.x) (p.x - rect.xmax)) 0
  let dy := max (max (rect.ymin - p.y) (p.y - rect.ymax)) 0
  dx * dx + dy * dy

/-- `spatial::area`. -/
def area (rect : Rectangle) : ℚ :=
  (rect.xmax - rect.xmin) * (rect.ymax - rect.ymin)

/-- `spatial::min_bounding_box(Rectangle, Point)`. -/
def min_bounding_box (rect : Rectangle) (p : Point) : Rectangle :=
  ⟨min rect.xmin p.x, max rect.xmax p.x, min rect.ymin p.y, max rect.ymax p.y⟩

/-- `spatial::min_bounding_box(Rectangle, Rectangle)`. -/
def min_bounding_box2 (r1 r2 : Rectangle) : Rectangle :=
  ⟨min r1.xmin r2.xmin, max r1.xmax r2.xmax, min r1.ymin r2.ymin, max r1.ymax r2.ymax⟩

/-- `spatial::contains(Rectangle, Rectangle)`. -/
def containsR (outer inner : Rectangle) : Prop :=
  outer.xmin ≤ inner.xmin ∧ outer.xmax ≥ inner.xmax ∧
  outer.ymin ≤ inner.ymin ∧ outer.ymax ≥ inner.ymax

instance (outer inner : Rectangle) : Decidable (containsR outer inner) := by
  unfold containsR; infer_instance

/-- `spatial::contains(Rectangle, Point)`. -/
def contains (rect : Rectangle) (p : Point) : Prop :=
  rect.xmin ≤ p.x ∧ rect.xmax ≥ p.x ∧ rect.ymin ≤ p.y ∧ rect.ymax ≥ p.y

instance (rect : Rectangle) (p : Point) : Decidable (contains rect p) := by
  unfold contains; infer_instance

/-- `spatial::datumize<T>`: project each record to a `Datum`.  The C++
reads coordinates by `raw_datum[0]` / `raw_datum[1]`; the projection is
abstracted as a function `f : T → Point`. -/
def datumize {T : Type} (f : T → Point) (raw : List T) : List (Datum T) :=
  raw.map (fun r => ⟨r, f r⟩)

/-! ## Priority-queue model

`std::priority_queue` with the `Closer` / `Farther` comparators of the
C++ is a binary max-heap on `dist` (resp. min-heap).  `top`/`pop`
return a maximal (resp. minimal) element; the order among equal keys is
unspecified in C++, and the model fixes one linearization (take the
earliest maximal element).  Elements are `(payload, dist)` pairs, the
distance having been computed at `push` time exactly as in the C++
wrappers. -/
/-- Remove one element with maximal second component (the earliest one). -/
def extractMax {α : Type} : List (α × ℚ) → Option ((α × ℚ) × List (α × ℚ))
  | [] => none
  | x :: xs =>
    match extractMax xs with
    | none => some (x, [])
    | some (m, rest) => if m.2 > x.2 then some (m, x :: rest) else some (x, xs)

/-- Remove one element with minimal second component (the earliest one). -/
def extractMin {α : Type} : List (α × ℚ) → Option ((α × ℚ) × List (α × ℚ))
  | [] => none
  | x :: xs =>
    match extractMin xs with
    | none => some (x, [])
    | some (m, rest) => if m.2 < x.2 then some (m, x :: rest) else some (x, xs)

/-- `pop` until empty (the drain loop at the end of every `query_knn`),
with an explicit structural bound: each pop removes exactly one
element, so `l.length` steps drain the queue completely. -/
def drainGo {α : Type} : ℕ → List (α × ℚ) → List (α × ℚ)
  | 0, _ => []
  | n + 1, l =>
    match extractMax l with
    | none => []
    | some (m, rest) => m :: drainGo n rest

/-- `pop` until empty: the drain loop at the end of every `query_knn`. -/
def drain {α : Type} (l : List (α × ℚ)) : List (α × ℚ) :=
  drainGo l.length l

/-! ## Quadtree (src/quadtree.cpp, src/quadtree.hpp) -/
/-- `LEAF_CAPACITY` in quadtree.cpp. -/
def LEAF_CAPACITY : ℕ := 16

/-- `Quadtree::Node`: depth, Z-order code, bounds, cached center,
`leaf_range`, and either four owned children or none (the four
`unique_ptr`s are all set together by `create_children`, so childless
and four-children nodes are the two constructors). -/
inductive QNode : Type where
  | leaf (depth : ℕ) (code : ℕ) (bounds : Rectangle) (center : Point)
         (leaf_range : Range)
  | node (depth : ℕ) (code : ℕ) (bounds : Rectangle) (center : Point)
         (leaf_range : Range) (c0 c1 c2 c3 : QNode)
deriving Repr

def QNode.depth : QNode → ℕ
  | .leaf d _ _ _ _ => d
  | .node d _ _ _ _ _ _ _ _ => d

def QNode.code : QNode → ℕ
  | .leaf _ c _ _ _ => c
  | .node _ c _ _ _ _ _ _ _ => c

def QNode.bounds : QNode → Rectangle
  | .leaf _ _ b _ _ => b
  | .node _ _ b _ _ _ _ _ _ => b

def QNode.center : QNode → Point
  | .leaf _ _ _ ctr _ => ctr
  | .node _ _ _ ctr _ _ _ _ _ => ctr

def QNode.leaf_range : QNode → Range
  | .leaf _ _ _ _ r => r
  | .node _ _ _ _ r _ _ _ _ => r

/-- The four children, when present (the null test of the C++). -/
def QNode.children : QNode → Option (QNode × QNode × QNode × QNode)
  | .leaf _ _ _ _ _ => none
  | .node _ _ _ _ _ c0 c1 c2 c3 => some (c0, c1, c2, c3)

/-- `Quadtree::Node::is_leaf`: detected by `leaf_range` degeneracy. -/
def QNode.is_leaf (n : QNode) : Bool :=
  n.leaf_range.start == n.leaf_range.stop

/-- Number of nodes of the subtree (a termination measure; not in C++). -/
def QNode.size : QNode → ℕ
  | .leaf _ _ _ _ _ => 1
  | .node _ _ _ _ _ c0 c1 c2 c3 => 1 + c0.size + c1.size + c2.size + c3.size

/-- All nodes of a subtree, the root included (for quantifying over
"every node in the tree"). -/
def QNode.descendants : QNode → List QNode
  | .leaf d c b ctr r => [.leaf d c b ctr r]
  | .node d c b ctr r c0 c1 c2 c3 =>
    .node d c b ctr r c0 c1 c2 c3 ::
      (c0.descendants ++ c1.descendants ++ c2.descendants ++ c3.descendants)

/-- `Quadtree::Node::get_quadrant`: child index of a point relative to
a node's center (`(p.x > center.x) + ((p.y > center.y) << 1)`). -/
def get_quadrant (center p : Point) : ℕ :=
  (if p.x > center.x then 1 else 0) + 2 * (if p.y > center.y then 1 else 0)

/-- The bounds `Quadtree::Node::create_children` gives child `i`
(0 = SW, 1 = SE, 2 = NW, 3 = NE). -/
def childBounds (bounds : Rectangle) (center : Point) : ℕ → Rectangle
  | 0 => ⟨bounds.xmin, center.x, bounds.ymin, center.y⟩
  | 1 => ⟨center.x, bounds.xmax, bounds.ymin, center.y⟩
  | 2 => ⟨bounds.xmin, center.x, center.y, bounds.ymax⟩
  | _ => ⟨center.x, bounds.xmax, center.y, bounds.ymax⟩

/-- `Quadtree::Node::insert`: recursively partition `data`, threading
the tree's growing leaf array.  Buckets of at most `LEAF_CAPACITY`
become leaves appended to the leaf array; larger buckets are split by
`get_quadrant` into four children built in index order, after which the
node's `leaf_range` spans from the first child's `start` to the last
child's `stop`.  The C++ recursion has no termination guard; `fuel`
makes the model total, `none` meaning the recursion has not terminated
within `fuel` levels. -/
def insert {T : Type} :
    (fuel : ℕ) → (depth : ℕ) → (code : ℕ) → (bounds : Rectangle) →
    (leaves : List (List (Datum T))) → (data : List (Datum T)) →
    Option (QNode × List (List (Datum T)))
  | 0, _, _, _, _, _ => none
  | fuel + 1, depth, code, bounds, leaves, data =>
    if data.length ≤ LEAF_CAPACITY then
      let leaf_idx := leaves.length
      some (QNode.leaf depth code bounds (midpoint bounds) ⟨leaf_idx, leaf_idx⟩,
            leaves ++ [data])
    else
      match insert fuel (depth+1) (4*code+0) (childBounds bounds (midpoint bounds) 0) leaves
        (data.filter (fun d => get_quadrant (midpoint bounds) d.point == 0)) with
      | none => none
      | some (c0, lv0) =>
        match insert fuel (depth+1) (4*code+1) (childBounds bounds (midpoint bounds) 1) lv0
          (data.filter (fun d => get_quadrant (midpoint bounds) d.point == 1)) with
        | none => none
        | some (c1, lv1) =>
          match insert fuel (depth+1) (4*code+2) (childBounds bounds (midpoint bounds) 2) lv1
            (data.filter (fun d => get_quadrant (midpoint bounds) d.point == 2)) with
          | none => none
          | some (c2, lv2) =>
            match insert fuel (depth+1) (4*code+3) (childBounds bounds (midpoint bounds) 3) lv2
              (data.filter (fun d => get_quadrant (midpoint bounds) d.point == 3)) with
            | none => none
            | some (c3, lv3) =>
              some (QNode.node depth code bounds (midpoint bounds)
                      ⟨c0.leaf_range.start, c3.leaf_range.stop⟩ c0 c1 c2 c3, lv3)

/-- The quadtree: the root node plus the owned leaf array. -/
structure Quadtree (T : Type) where
  root : QNode
  leaves : List (List (Datum T))

/-- The root bounds stored by the `Quadtree` (and `Zgrid`) constructor:
the upper bounds are nudged by `0.01` ("to fix a rare edge case in
`zorder_hash()` where a point is right on the boundary").  The
constructor performs no validation whatsoever on its arguments. -/
def ctorBounds (x0 x1 y0 y1 : ℚ) : Rectangle :=
  ⟨x0, x1 + 1/100, y0, y1 + 1/100⟩

/-- `Quadtree::Quadtree` followed by `Quadtree::build`: datumize the
records and recursively insert them from the root. -/
def Quadtree.build {T : Type} (x0 x1 y0 y1 : ℚ) (f : T → Point)
    (raw : List T) (fuel : ℕ) : Option (Quadtree T) :=
  (insert fuel 0 0 (ctorBounds x0 x1 y0 y1) [] (datumize f raw)).map
    (fun r => ⟨r.1, r.2⟩)

/-- `Quadtree::num_leaves`. -/
def Quadtree.num_leaves {T : Type} (t : Quadtree T) : ℕ := t.leaves.length

/-- Executable checker for the leaf-range invariant: at every internal
node the range starts at child 0's start, ends at child 3's stop, and
consecutive children cover contiguous index ranges. -/
def ranges_ok : QNode → Bool
  | .leaf _ _ _ _ _ => true
  | .node _ _ _ _ r c0 c1 c2 c3 =>
    (r.start == c0.leaf_range.start) &&
    (c0.leaf_range.stop + 1 == c1.leaf_range.start) &&
    (c1.leaf_range.stop + 1 == c2.leaf_range.start) &&
    (c2.leaf_range.stop + 1 == c3.leaf_range.start) &&
    (r.stop == c3.leaf_range.stop) &&
    ranges_ok c0 && ranges_ok c1 && ranges_ok c2 && ranges_ok c3

/-- Structural well-formedness of a built node relative to a leaf-array
length `L`: leaves hold a single in-range index and have no children;
internal nodes have four children covering contiguous ranges. -/
def WF (L : ℕ) : QNode → Prop
  | .leaf _ _ _ _ r => r.start = r.stop ∧ r.stop < L
  | .node _ _ _ _ r c0 c1 c2 c3 =>
    r.start = c0.leaf_range.start ∧
    c0.leaf_range.stop + 1 = c1.leaf_range.start ∧
    c1.leaf_range.stop + 1 = c2.leaf_range.start ∧
    c2.leaf_range.stop + 1 = c3.leaf_range.start ∧
    r.stop = c3.leaf_range.stop ∧
    WF L c0 ∧ WF L c1 ∧ WF L c2 ∧ WF L c3

/-- The data stored in a node's subtree: its bucket at a leaf, the
concatenation of the children's data otherwise. -/
def QNode.subData {T : Type} (lv : List (List (Datum T))) : QNode → List (Datum T)
  | .leaf _ _ _ _ r => (lv[r.start]?).getD []
  | .node _ _ _ _ _ c0 c1 c2 c3 =>
    c0.subData lv ++ c1.subData lv ++ c2.subData lv ++ c3.subData lv

/-- Geometric well-formedness: every child's bounds sit inside its
parent's, and every leaf bucket's points sit inside the leaf bounds. -/
def Covers {T : Type} (lv : List (List (Datum T))) : QNode → Prop
  | .leaf _ _ b _ r => ∀ d ∈ (lv[r.start]?).getD ([] : List (Datum T)), contains b d.point
  | .node _ _ b _ _ c0 c1 c2 c3 =>
    containsR b c0.bounds ∧ containsR b c1.bounds ∧
    containsR b c2.bounds ∧ containsR b c3.bounds ∧
    Covers lv c0 ∧ Covers lv c1 ∧ Covers lv c2 ∧ Covers lv c3

/-! ## The shared k-NN distance-browsing loop

`Quadtree::query_knn` and `Zgrid::query_knn` are textually identical up
to how a popped element is recognized as a leaf and how its bucket is
found; the loop is therefore modelled once, over an abstract hierarchy
interface, and instantiated per index.  `Except` failures model the C++
undefined behaviour (peeking an empty `std::priority_queue`, indexing
the leaf array out of range, dereferencing a null child). -/
/-- Abstract interface of a hierarchy traversed by the shared
distance-browsing loop. -/
structure Hier (E T : Type) where
  isLeaf : E → Bool
  bucket : E → Option (List (Datum T))
  children : E → Option (E × E × E × E)
  bnds : E → Rectangle
  sz : E → ℕ
  sz_pos : ∀ e, 0 < sz e
  sz_children : ∀ e c0 c1 c2 c3, children e = some (c0, c1, c2, c3) →
    sz c0 + sz c1 + sz c2 + sz c3 < sz e

/-- `DatumPQ::choose`: replace the current worst candidate if the new
datum is strictly closer (peeking an empty queue is an error). -/
def chooseD {T : Type} (q : Point) (dpq : List (Datum T × ℚ)) (d : Datum T) :
    Except String (List (Datum T × ℚ)) :=
  match extractMax dpq with
  | none => .error "DatumPQ::choose: peek on empty queue"
  | some ((_, dd0), rest) =>
    if dd0 > dist2 q d.point then .ok ((d, dist2 q d.point) :: rest) else .ok dpq

/-- The datum loop of the leaf branch of `query_knn`: `push` while the
queue holds fewer than `k`, `choose` afterwards. -/
def processBucket {T : Type} (q : Point) (k : ℕ) :
    List (Datum T) → List (Datum T × ℚ) → Except String (List (Datum T × ℚ))
  | [], dpq => .ok dpq
  | d :: ds, dpq =>
    if dpq.length < k then processBucket q k ds ((d, dist2 q d.point) :: dpq)
    else
      match chooseD q dpq d with
      | .error msg => .error msg
      | .ok dpq2 => processBucket q k ds dpq2

/-- The while-loop of `query_knn`: loop while `node_pq` is non-empty
and (`|datum_pq| < k` or the current worst candidate is farther than
the closest unexplored element); pop the closest element; consume its
bucket if it is a leaf, push its four children otherwise. -/
def knnLoop {E T : Type} (H : Hier E T) (q : Point) (k : ℕ) :
    (fuel : ℕ) → (npq : List (E × ℚ)) → (dpq : List (Datum T × ℚ)) →
    Except String (List (Datum T × ℚ))
  | 0, _, _ => .error "loop fuel exhausted"
  | fuel + 1, npq, dpq =>
    match extractMin npq with
    | none => .ok dpq
    | some ((e, nd), rest) =>
      if dpq.length < k then
        if H.isLeaf e then
          match H.bucket e with
          | none => .error "query_knn: leaf bucket out of range"
          | some ds =>
            match processBucket q k ds dpq with
            | .error msg => .error msg
            | .ok dpq2 => knnLoop H q k fuel rest dpq2
        else
          match H.children e with
          | none => .error "NodePQ::expand on element without children"
          | some (c0, c1, c2, c3) =>
            knnLoop H q k fuel
              ((c3, dist2Rect q (H.bnds c3)) :: (c2, dist2Rect q (H.bnds c2)) ::
               (c1, dist2Rect q (H.bnds c1)) :: (c0, dist2Rect q (H.bnds c0)) :: rest)
              dpq
      else
        match extractMax dpq with
        | none => .error "DatumPQ::peek on empty queue"
        | some ((_, dd), _) =>
          if dd > nd then
            if H.isLeaf e then
              match H.bucket e with
              | none => .error "query_knn: leaf bucket out of range"
              | some ds =>
                match processBucket q k ds dpq with
                | .error msg => .error msg
                | .ok dpq2 => knnLoop H q k fuel rest dpq2
            else
              match H.children e with
              | none => .error "NodePQ::expand on element without children"
              | some (c0, c1, c2, c3) =>
                knnLoop H q k fuel
                  ((c3, dist2Rect q (H.bnds c3)) :: (c2, dist2Rect q (H.bnds c2)) ::
                   (c1, dist2Rect q (H.bnds c1)) :: (c0, dist2Rect q (H.bnds c0)) :: rest)
                  dpq
          else .ok dpq

/-- `Quadtree`'s instantiation of the browse interface: leaves are
recognized by `leaf_range` degeneracy, buckets live at
`leaves[leaf_range.start]`. -/
def Quadtree.hier {T : Type} (t : Quadtree T) : Hier QNode T where
  isLeaf := QNode.is_leaf
  bucket := fun n => t.leaves[n.leaf_range.start]?
  children := QNode.children
  bnds := QNode.bounds
  sz := QNode.size
  sz_pos := by
    intro e
    cases e <;> simp [QNode.size]
  sz_children := by
    intro e c0 c1 c2 c3 h
    cases e with
    | leaf d c b ctr r => simp [QNode.children] at h
    | node d c b ctr r d0 d1 d2 d3 =>
      simp only [QNode.children, Option.some.injEq, Prod.mk.injEq] at h
      obtain ⟨h0, h1, h2, h3⟩ := h
      subst h0; subst h1; subst h2; subst h3
      simp only [QNode.size]
      omega

/-- `Quadtree::query_knn`: run the distance-browsing loop from the
root, then drain the datum queue (farthest first). -/
def Quadtree.query_knn {T : Type} (t : Quadtree T) (k : ℕ) (x y : ℚ) :
    Except String (List T) :=
  (knnLoop t.hier ⟨x, y⟩ k (t.root.size + 1)
      [(t.root, dist2Rect ⟨x, y⟩ t.root.bounds)] []).map
    (fun final => (drain final).map (fun p => p.1.data))

/-- The data held under the elements of a node queue, paired with their
push-time distances. -/
def npqData {E T : Type} (dataOf : E → List (Datum T)) (q : Point)
    (npq : List (E × ℚ)) : Multiset (Datum T × ℚ) :=
  (npq.map (fun p =>
    ((dataOf p.1).map (fun d => (d, dist2 q d.point)) : Multiset (Datum T × ℚ)))).sum

/-- The well-formedness bundle carried through quadtree queries. -/
def QGood {T : Type} (t : Quadtree T) (n : QNode) : Prop :=
  WF t.leaves.length n ∧ Covers t.leaves n

/-! ## The Z-order grid

`Zgrid` bins the data into a flat array of `4^r` buckets indexed by the
Z-order (Morton) code of each point's grid cell, and lays an implicit
uniform quadtree (`populate`) over the buckets for the shared
distance-browsing query. -/
/-- `Zgrid::Node`: a node of the uniform implicit quadtree; a node
either has four children or none. -/
inductive ZNode : Type where
  | leaf (code : ℕ) (depth : ℕ) (bounds : Rectangle) (center : Point)
  | node (code : ℕ) (depth : ℕ) (bounds : Rectangle) (center : Point)
      (c0 c1 c2 c3 : ZNode)
deriving Repr

def ZNode.code : ZNode → ℕ
  | .leaf c _ _ _ => c
  | .node c _ _ _ _ _ _ _ => c

def ZNode.bounds : ZNode → Rectangle
  | .leaf _ _ b _ => b
  | .node _ _ b _ _ _ _ _ => b

/-- `Zgrid::Node::is_leaf`: whether the node has no children. -/
def ZNode.is_leaf : ZNode → Bool
  | .leaf _ _ _ _ => true
  | .node _ _ _ _ _ _ _ _ => false

def ZNode.children : ZNode → Option (ZNode × ZNode × ZNode × ZNode)
  | .leaf _ _ _ _ => none
  | .node _ _ _ _ c0 c1 c2 c3 => some (c0, c1, c2, c3)

def ZNode.size : ZNode → ℕ
  | .leaf _ _ _ _ => 1
  | .node _ _ _ _ c0 c1 c2 c3 => 1 + c0.size + c1.size + c2.size + c3.size

/-- `Zgrid::Node::populate` with `create_children`: subdivide `r`
times; child `i` of a node with code `c` has code `4*c + i`
(`(code << 2) + i`) and the same quadrant bounds as the quadtree's
children. -/
def populate (r : ℕ) (code depth : ℕ) (b : Rectangle) : ZNode :=
  match r with
  | 0 => .leaf code depth b (midpoint b)
  | r + 1 =>
    .node code depth b (midpoint b)
      (populate r (4 * code) (depth + 1) (childBounds b (midpoint b) 0))
      (populate r (4 * code + 1) (depth + 1) (childBounds b (midpoint b) 1))
      (populate r (4 * code + 2) (depth + 1) (childBounds b (midpoint b) 2))
      (populate r (4 * code + 3) (depth + 1) (childBounds b (midpoint b) 3))

/-- One step of `spatial::space_bits`: `(i | (i << _shifts[j])) & _masks[j]`. -/
def sb_stage (s m i : ℕ) : ℕ :=
  (i ||| (i <<< s)) &&& m

/-- `spatial::space_bits`: spread the 16 low bits of the argument over
the even bit positions of a 32-bit word by the four
`(i | (i << _shifts[j])) & _masks[j]` steps, `j = 3, 2, 1, 0` (the
`uint16_t` parameter truncates the argument mod `2^16`; no stage
overflows 32 bits). -/
def space_bits (i0 : ℕ) : ℕ :=
  sb_stage 1 0x55555555 (sb_stage 2 0x33333333
    (sb_stage 4 0x0F0F0F0F (sb_stage 8 0x00FF00FF (i0 % 65536))))

/-- `spatial::interleave`. -/
def interleave (a b : ℕ) : ℕ :=
  space_bits a ||| (space_bits b <<< 1)

/-- C-style truncation of a rational toward zero: the implicit
`double → int` conversion of `grid_index`'s result. -/
def truncQ (q : ℚ) : ℤ :=
  if 0 ≤ q then ⌊q⌋ else -⌊-q⌋

/-- `spatial::grid_index`. -/
def grid_index (coord mn mx : ℚ) (dim : ℤ) : ℤ :=
  truncQ ((coord - mn) * dim / (mx - mn))

/-- `Zgrid::zorder_hash`: the point's cell indexes at resolution `2^r`
per axis, interleaved; the `int` cell indexes pass through `uint16_t`
(reduction mod `2^16`). -/
def zorder_hash (b : Rectangle) (p : Point) (r : ℕ) : ℕ :=
  interleave ((grid_index p.x b.xmin b.xmax (2 ^ r) % 65536).toNat)
    ((grid_index p.y b.ymin b.ymax (2 ^ r) % 65536).toNat)

/-- The binning loop of `Zgrid::zgrid_bin`: push each datum onto the
bucket of its Z-order code.  An out-of-range code indexes the grid
vector out of bounds — undefined behaviour, modelled as an error. -/
def zgrid_bin_go {T : Type} (b : Rectangle) (r : ℕ) :
    List (Datum T) → List (List (Datum T)) →
    Except String (List (List (Datum T)))
  | [], grid => .ok grid
  | d :: rest, grid =>
    if zorder_hash b d.point r < grid.length then
      zgrid_bin_go b r rest
        (grid.set (zorder_hash b d.point r)
          (grid.getD (zorder_hash b d.point r) [] ++ [d]))
    else .error "zgrid_bin: z-order code out of range"

/-- The Z-order grid: nudged bounds, the bucket array, the implicit
node tree, and the resolution. -/
structure Zgrid (T : Type) where
  bounds : Rectangle
  res : ℕ
  grid : List (List (Datum T))
  root : ZNode

/-- `Zgrid::Zgrid` followed by `Zgrid::build`: `4^r` empty buckets
filled by `zgrid_bin`, plus the populated node tree. -/
def Zgrid.build {T : Type} (x0 x1 y0 y1 : ℚ) (f : T → Point)
    (raw : List T) (r : ℕ) : Except String (Zgrid T) :=
  (zgrid_bin_go (ctorBounds x0 x1 y0 y1) r (datumize f raw)
      (List.replicate (4 ^ r) [])).map
    (fun grid => ⟨ctorBounds x0 x1 y0 y1, r, grid,
      populate r 0 0 (ctorBounds x0 x1 y0 y1)⟩)

/-- The `Zgrid` as a hierarchy for the shared query loop: a popped
leaf's bucket is the grid entry at the node's code. -/
def Zgrid.hier {T : Type} (z : Zgrid T) : Hier ZNode T where
  isLeaf := ZNode.is_leaf
  bucket := fun n => z.grid[n.code]?
  children := ZNode.children
  bnds := ZNode.bounds
  sz := ZNode.size
  sz_pos := by
    intro e
    cases e <;> simp [ZNode.size]
  sz_children := by
    intro e c0 c1 c2 c3 h
    cases e with
    | leaf c d b ctr => simp [ZNode.children] at h
    | node c d b ctr d0 d1 d2 d3 =>
      simp only [ZNode.children, Option.some.injEq, Prod.mk.injEq] at h
      obtain ⟨h0, h1, h2, h3⟩ := h
      subst h0
      subst h1
      subst h2
      subst h3
      simp only [ZNode.size]
      omega

/-- `Zgrid::query_knn`: the same distance-browsing loop as the
quadtree, reading buckets from the grid by node code. -/
def Zgrid.query_knn {T : Type} (z : Zgrid T) (k : ℕ) (x y : ℚ) :
    Except String (List T) :=
  (knnLoop z.hier ⟨x, y⟩ k (z.root.size + 1)
      [(z.root, dist2Rect ⟨x, y⟩ z.root.bounds)] []).map
    (fun final => (drain final).map (fun p => p.1.data))

/-- The grid data reachable from a `ZNode`'s subtree. -/
def ZNode.subData {T : Type} (grid : List (List (Datum T))) :
    ZNode → List (Datum T)
  | .leaf c _ _ _ => grid.getD c []
  | .node _ _ _ _ c0 c1 c2 c3 =>
    c0.subData grid ++ c1.subData grid ++ c2.subData grid ++ c3.subData grid

/-- All leaf codes of the subtree lie below `L`. -/
def ZOk (L : ℕ) : ZNode → Prop
  | .leaf c _ _ _ => c < L
  | .node _ _ _ _ c0 c1 c2 c3 => ZOk L c0 ∧ ZOk L c1 ∧ ZOk L c2 ∧ ZOk L c3

/-! ## Arithmetic characterisation of `space_bits` and `interleave`

`spreadN f x` is the arithmetic bit-spreading of the `f` low bits of
`x` (each bit of `x` moved to twice its position); the mask-and-shift
`space_bits` agrees with it on 16-bit inputs. -/
def spreadN : ℕ → ℕ → ℕ
  | 0, _ => 0
  | f + 1, x => x % 2 + 4 * spreadN f (x / 2)

/-! ## Grid cells as rectangles -/
/-- Cell `(a, c)` of the `2^d × 2^d` uniform subdivision of `B`. -/
def cellRect (B : Rectangle) (d : ℕ) (a c : ℕ) : Rectangle :=
  ⟨B.xmin + a * (B.xmax - B.xmin) / 2 ^ d,
   B.xmin + (a + 1) * (B.xmax - B.xmin) / 2 ^ d,
   B.ymin + c * (B.ymax - B.ymin) / 2 ^ d,
   B.ymin + (c + 1) * (B.ymax - B.ymin) / 2 ^ d⟩

/-- Geometric well-formedness of the implicit grid tree: every child's
bounds sit inside its parent's, and every leaf's bucket holds only
points inside the leaf bounds. -/
def ZCovers {T : Type} (grid : List (List (Datum T))) : ZNode → Prop
  | .leaf c _ b _ => ∀ d ∈ grid.getD c [], contains b d.point
  | .node _ _ b _ c0 c1 c2 c3 =>
    containsR b c0.bounds ∧ containsR b c1.bounds ∧
    containsR b c2.bounds ∧ containsR b c3.bounds ∧
    ZCovers grid c0 ∧ ZCovers grid c1 ∧ ZCovers grid c2 ∧ ZCovers grid c3

/-- The well-formedness bundle carried through grid queries. -/
def ZGood {T : Type} (z : Zgrid T) (n : ZNode) : Prop :=
  ZOk z.grid.length n ∧ ZCovers z.grid n

/-! ## The Guttman R-tree

`Rtree` builds by point-by-point insertion with quadratic split.  All
state mutation is modelled by value-passing.  Two places mirror the C++
verbatim even though they look wrong — the verification targets them:

* `Node::insert` copies the branch entry (`Entry child_entry =
  entries[branch_idx]`) before expanding its box, so the expansion is
  applied to the copy and lost; only the shared child node is mutated.
  The model keeps the stored entry's box unchanged on descent.
* `Node::distribute` increments the receiving group's `load` by one per
  redistributed entry, even when the entry is an internal subtree whose
  own `load` exceeds one.
-/
def M : ℕ := 8

mutual
/-- `Rtree::Entry`: a bounding box plus either a datum or a child
node. -/
inductive REntry (T : Type) : Type where
  | datumE (mbb : Rectangle) (d : Datum T)
  | nodeE (mbb : Rectangle) (n : RNode T)

/-- `Rtree::Node`: a cached `load` and up to `M+1` entries. -/
inductive RNode (T : Type) : Type where
  | mk (load : ℕ) (entries : List (REntry T))
end

def REntry.mbb {T : Type} : REntry T → Rectangle
  | .datumE b _ => b
  | .nodeE b _ => b

def RNode.load {T : Type} : RNode T → ℕ
  | .mk l _ => l

def RNode.entries {T : Type} : RNode T → List (REntry T)
  | .mk _ es => es

/-- `Rtree::Node::is_leaf`: entry count equals cached load. -/
def RNode.is_leaf {T : Type} (n : RNode T) : Bool :=
  n.entries.length == n.load

/-- Bounding box of `entries[i]` (reads out of range never happen on
the executed paths; a zero rectangle stands in for the C++ garbage). -/
def mbbAt {T : Type} (entries : List (REntry T)) (i : ℕ) : Rectangle :=
  match entries[i]? with
  | some e => e.mbb
  | none => ⟨0, 0, 0, 0⟩

/-- `Rtree::Node::choose_branch`: entry whose box needs the least area
expansion, ties broken by the smaller area; `-1` until the first
iteration. -/
def choose_branch {T : Type} (entries : List (REntry T)) (p : Point) : ℤ :=
  ((entries.foldl (fun (acc : ℤ × ℤ × ℚ) e =>
    match acc with
    | (pos, best, minExp) =>
      let expanded := min_bounding_box e.mbb p
      let cur := area expanded - area e.mbb
      if best == -1 || cur < minExp then (pos + 1, pos, cur)
      else if cur == minExp then
        if area e.mbb < area (mbbAt entries best.toNat) then
          (pos + 1, pos, cur)
        else (pos + 1, best, minExp)
      else (pos + 1, best, minExp)) ((0 : ℤ), (-1 : ℤ), (-1 : ℚ)))).2.1

/-- The index pair chosen by `Rtree::Node::pick_seeds` (quadratic
heuristic; `-1` sentinels model the `unsigned` overflow start
values). -/
def pick_seeds_best {T : Type} (choices : List (REntry T)) : ℚ × ℤ × ℤ :=
  (List.range choices.length).foldl (fun acc i =>
    (List.range' (i + 1) (choices.length - (i + 1))).foldl
      (fun (acc2 : ℚ × ℤ × ℤ) j =>
        match acc2 with
        | (maxD, b1, b2) =>
          let r := min_bounding_box2 (mbbAt choices i) (mbbAt choices j)
          let d := area r - area (mbbAt choices i) - area (mbbAt choices j)
          if d > maxD then (d, (i : ℤ), (j : ℤ)) else (maxD, b1, b2))
      acc) ((-1 : ℚ), (-1 : ℤ), (-1 : ℤ))

/-- `Rtree::Node::pick_next`: leftover entry with the greatest
expansion difference between the two groups (`g1` is the later-pushed
seed entry). -/
def pick_next {T : Type} (g1 g2 : Rectangle)
    (leftovers : List (REntry T)) : ℕ :=
  ((leftovers.foldl (fun (acc : ℕ × ℕ × ℚ) e =>
    match acc with
    | (pos, best, maxDiff) =>
      let d1 := area (min_bounding_box2 g1 e.mbb) - area g1
      let d2 := area (min_bounding_box2 g2 e.mbb) - area g2
      if |d1 - d2| > maxDiff then (pos + 1, pos, |d1 - d2|)
      else (pos + 1, best, maxDiff)) (0, 0, (0 : ℚ)))).2.1

/-- The loop of `Rtree::Node::distribute` over the two groups (`g1` is
`entries[size-1]`, `g2` is `entries[size-2]`).  Each step pops the
pick-next entry, grows the cheaper group's box, appends the entry to
that group's node — and increments that group's `load` by one, whatever
the entry holds. -/
def distribute {T : Type} :
    (fuel : ℕ) → List (REntry T) → (Rectangle × RNode T) →
    (Rectangle × RNode T) →
    Option ((Rectangle × RNode T) × (Rectangle × RNode T))
  | 0, _, _, _ => none
  | _ + 1, [], g2, g1 => some (g2, g1)
  | fuel + 1, leftovers, g2, g1 =>
    let nextIdx := pick_next g1.1 g2.1 leftovers
    match leftovers[nextIdx]? with
    | none => none
    | some next =>
      let rest := leftovers.eraseIdx nextIdx
      let g1exp := min_bounding_box2 g1.1 next.mbb
      let g2exp := min_bounding_box2 g2.1 next.mbb
      let e1 := area g1exp - area g1.1
      let e2 := area g2exp - area g2.1
      if e1 < e2 then
        distribute fuel rest g2
          (g1exp, .mk (g1.2.load + 1) (g1.2.entries ++ [next]))
      else if e1 == e2 then
        if area g1.1 < area g2.1 then
          distribute fuel rest g2
            (g1exp, .mk (g1.2.load + 1) (g1.2.entries ++ [next]))
        else
          distribute fuel rest
            (g2exp, .mk (g2.2.load + 1) (g2.2.entries ++ [next])) g1
      else
        distribute fuel rest
          (g2exp, .mk (g2.2.load + 1) (g2.2.entries ++ [next])) g1

/-- `Rtree::Node::split`: pop the overflowing branch, seed two fresh
group entries from its children, and redistribute all of its children
(the seeds are not removed from the pool). -/
def rsplit {T : Type} (entries : List (REntry T)) (bi : ℕ) :
    Option (List (REntry T)) :=
  match entries[bi]? with
  | some (.nodeE _ ov) =>
    let rest := entries.eraseIdx bi
    match pick_seeds_best ov.entries with
    | (_, b1, b2) =>
      if 0 ≤ b1 ∧ b1.toNat < ov.entries.length ∧
          0 ≤ b2 ∧ b2.toNat < ov.entries.length then
        let g2init : Rectangle × RNode T :=
          (mbbAt ov.entries b1.toNat, .mk 0 [])
        let g1init : Rectangle × RNode T :=
          (mbbAt ov.entries b2.toNat, .mk 0 [])
        match distribute (ov.entries.length + 1) ov.entries g2init g1init with
        | some (g2, g1) =>
          some (rest ++ [.nodeE g2.1 g2.2, .nodeE g1.1 g1.2])
        | none => none
      else none
  | _ => none

/-- `Rtree::Node::insert`: push a datum entry at a leaf; otherwise
descend into the chosen branch.  The C++ expands a *copy* of the branch
entry's box, so the stored box stays as it was; the child node itself
is shared and does get the new datum.  Returns the node and the
overflow flag `entries.size() > M`. -/
def RNode.insert {T : Type} :
    (fuel : ℕ) → RNode T → Datum T → Option (RNode T × Bool)
  | 0, _, _ => none
  | fuel + 1, n, datum =>
    let p := datum.point
    if n.is_leaf then
      let entries2 := n.entries ++
        [.datumE ⟨p.x, p.x, p.y, p.y⟩ datum]
      some (.mk (n.load + 1) entries2, entries2.length > M)
    else
      let bi := choose_branch n.entries p
      if hbi : 0 ≤ bi ∧ bi.toNat < n.entries.length then
        match n.entries[bi.toNat]? with
        | some (.nodeE mbb child) =>
          match RNode.insert fuel child datum with
          | some (child2, ovf) =>
            let entries1 := n.entries.set bi.toNat (.nodeE mbb child2)
            if ovf then
              match rsplit entries1 bi.toNat with
              | some entries2 =>
                some (.mk (n.load + 1) entries2, entries2.length > M)
              | none => none
            else some (.mk (n.load + 1) entries1, entries1.length > M)
          | none => none
        | _ => none
      else none

/-- The whole R-tree: the root entry's box and node. -/
structure Rtree (T : Type) where
  root_mbb : Rectangle
  root : RNode T

/-- `Rtree::split_root`. -/
def split_root {T : Type} (mbb : Rectangle) (old : RNode T) :
    Option (RNode T) :=
  match rsplit [REntry.nodeE mbb old] 0 with
  | some entries2 => some (.mk old.load entries2)
  | none => none

/-- `Rtree::insert`: grow the root box, recurse from the root node,
split the root on overflow. -/
def Rtree.insert {T : Type} (fuel : ℕ) (t : Rtree T) (datum : Datum T) :
    Option (Rtree T) :=
  let mbb2 := min_bounding_box t.root_mbb datum.point
  match RNode.insert fuel t.root datum with
  | some (root2, ovf) =>
    if ovf then
      match split_root mbb2 root2 with
      | some root3 => some ⟨mbb2, root3⟩
      | none => none
    else some ⟨mbb2, root2⟩
  | none => none

def Rtree.build_go {T : Type} (fuel : ℕ) (t : Rtree T) :
    List (Datum T) → Option (Rtree T)
  | [] => some t
  | d :: rest =>
    match Rtree.insert fuel t d with
    | some t2 => Rtree.build_go fuel t2 rest
    | none => none

/-- `Rtree::build`: seed the root box from the first record, then
insert every record. -/
def Rtree.build {T : Type} (fuel : ℕ) (f : T → Point) (raw : List T) :
    Option (Rtree T) :=
  match raw with
  | [] => none
  | r0 :: _ =>
    Rtree.build_go fuel
      ⟨⟨(f r0).x, (f r0).x, (f r0).y, (f r0).y⟩, .mk 0 []⟩
      (datumize f raw)

/-- Number of data reachable in a subtree. -/
def countData {T : Type} : (fuel : ℕ) → RNode T → ℕ
  | 0, _ => 0
  | fuel + 1, n =>
    (n.entries.map (fun e =>
      match e with
      | .datumE _ _ => 1
      | .nodeE _ c => countData fuel c)).sum

/-- The load invariant checked by the test suite's
`rtree.check_load()` (spec-modelled: the member is absent from the
library source): every node's cached `load` equals the number of data
in its subtree. -/
def check_load {T : Type} : (fuel : ℕ) → RNode T → Bool
  | 0, _ => false
  | fuel + 1, n =>
    (n.load == countData (fuel + 1) n) &&
    n.entries.all (fun e =>
      match e with
      | .datumE _ _ => true
      | .nodeE _ c => check_load fuel c)

/-- The box invariant checked by the test suite's `rtree.check_mbbs()`
(spec-modelled: the member is absent from the library source): every
entry's stored box contains the boxes of all entries of its child
node. -/
def check_mbbs {T : Type} : (fuel : ℕ) → REntry T → Bool
  | 0, _ => false
  | _ + 1, .datumE _ _ => true
  | fuel + 1, .nodeE mbb n =>
    n.entries.all (fun e =>
      decide (containsR mbb e.mbb) && check_mbbs fuel e)

/-- The thirty-point input exhibiting the `load` bug: the 3 x 10
integer grid, row by row. -/
def load_pts : List Point :=
  [Point.mk 0 0,
  Point.mk 1 0,
  Point.mk 2 0,
  Point.mk 0 1,
  Point.mk 1 1,
  Point.mk 2 1,
  Point.mk 0 2,
  Point.mk 1 2,
  Point.mk 2 2,
  Point.mk 0 3,
  Point.mk 1 3,
  Point.mk 2 3,
  Point.mk 0 4,
  Point.mk 1 4,
  Point.mk 2 4,
  Point.mk 0 5,
  Point.mk 1 5,
  Point.mk 2 5,
  Point.mk 0 6,
  Point.mk 1 6,
  Point.mk 2 6,
  Point.mk 0 7,
  Point.mk 1 7,
  Point.mk 2 7,
  Point.mk 0 8,
  Point.mk 1 8,
  Point.mk 2 8,
  Point.mk 0 9,
  Point.mk 1 9,
  Point.mk 2 9]

/-- The R-tree after inserting the first 10 points of `load_pts`. -/
def rt_T10 : Rtree Point :=
  (Rtree.mk (Rectangle.mk 0 2 0 3)
  (RNode.mk 10 [(REntry.nodeE (Rectangle.mk 0 1 0 2) (RNode.mk 7 [(REntry.datumE (Rectangle.mk 0 0 0 0) (Datum.mk (Point.mk 0 0) (Point.mk 0 0))),
  (REntry.datumE (Rectangle.mk 1 1 0 0) (Datum.mk (Point.mk 1 0) (Point.mk 1 0))),
  (REntry.datumE (Rectangle.mk 0 0 1 1) (Datum.mk (Point.mk 0 1) (Point.mk 0 1))),
  (REntry.datumE (Rectangle.mk 0 0 2 2) (Datum.mk (Point.mk 0 2) (Point.mk 0 2))),
  (REntry.datumE (Rectangle.mk 1 1 1 1) (Datum.mk (Point.mk 1 1) (Point.mk 1 1))),
  (REntry.datumE (Rectangle.mk 1 1 2 2) (Datum.mk (Point.mk 1 2) (Point.mk 1 2))),
  (REntry.datumE (Rectangle.mk 0 0 3 3) (Datum.mk (Point.mk 0 3) (Point.mk 0 3)))])),
  (REntry.nodeE (Rectangle.mk 2 2 0 2) (RNode.mk 3 [(REntry.datumE (Rectangle.mk 2 2 2 2) (Datum.mk (Point.mk 2 2) (Point.mk 2 2))),
  (REntry.datumE (Rectangle.mk 2 2 1 1) (Datum.mk (Point.mk 2 1) (Point.mk 2 1))),
  (REntry.datumE (Rectangle.mk 2 2 0 0) (Datum.mk (Point.mk 2 0) (Point.mk 2 0)))]))]))

/-- The R-tree after inserting the first 20 points of `load_pts`. -/
def rt_T20 : Rtree Point :=
  (Rtree.mk (Rectangle.mk 0 2 0 6)
  (RNode.mk 20 [(REntry.nodeE (Rectangle.mk 2 2 0 2) (RNode.mk 6 [(REntry.datumE (Rectangle.mk 2 2 2 2) (Datum.mk (Point.mk 2 2) (Point.mk 2 2))),
  (REntry.datumE (Rectangle.mk 2 2 1 1) (Datum.mk (Point.mk 2 1) (Point.mk 2 1))),
  (REntry.datumE (Rectangle.mk 2 2 0 0) (Datum.mk (Point.mk 2 0) (Point.mk 2 0))),
  (REntry.datumE (Rectangle.mk 2 2 3 3) (Datum.mk (Point.mk 2 3) (Point.mk 2 3))),
  (REntry.datumE (Rectangle.mk 2 2 4 4) (Datum.mk (Point.mk 2 4) (Point.mk 2 4))),
  (REntry.datumE (Rectangle.mk 2 2 5 5) (Datum.mk (Point.mk 2 5) (Point.mk 2 5)))])),
  (REntry.nodeE (Rectangle.mk 1 1 0 3) (RNode.mk 7 [(REntry.datumE (Rectangle.mk 1 1 0 0) (Datum.mk (Point.mk 1 0) (Point.mk 1 0))),
  (REntry.datumE (Rectangle.mk 1 1 1 1) (Datum.mk (Point.mk 1 1) (Point.mk 1 1))),
  (REntry.datumE (Rectangle.mk 1 1 2 2) (Datum.mk (Point.mk 1 2) (Point.mk 1 2))),
  (REntry.datumE (Rectangle.mk 1 1 3 3) (Datum.mk (Point.mk 1 3) (Point.mk 1 3))),
  (REntry.datumE (Rectangle.mk 1 1 4 4) (Datum.mk (Point.mk 1 4) (Point.mk 1 4))),
  (REntry.datumE (Rectangle.mk 1 1 5 5) (Datum.mk (Point.mk 1 5) (Point.mk 1 5))),
  (REntry.datumE (Rectangle.mk 1 1 6 6) (Datum.mk (Point.mk 1 6) (Point.mk 1 6)))])),
  (REntry.nodeE (Rectangle.mk 0 0 0 4) (RNode.mk 7 [(REntry.datumE (Rectangle.mk 0 0 4 4) (Datum.mk (Point.mk 0 4) (Point.mk 0 4))),
  (REntry.datumE (Rectangle.mk 0 0 3 3) (Datum.mk (Point.mk 0 3) (Point.mk 0 3))),
  (REntry.datumE (Rectangle.mk 0 0 2 2) (Datum.mk (Point.mk 0 2) (Point.mk 0 2))),
  (REntry.datumE (Rectangle.mk 0 0 0 0) (Datum.mk (Point.mk 0 0) (Point.mk 0 0))),
  (REntry.datumE (Rectangle.mk 0 0 1 1) (Datum.mk (Point.mk 0 1) (Point.mk 0 1))),
  (REntry.datumE (Rectangle.mk 0 0 5 5) (Datum.mk (Point.mk 0 5) (Point.mk 0 5))),
  (REntry.datumE (Rectangle.mk 0 0 6 6) (Datum.mk (Point.mk 0 6) (Point.mk 0 6)))]))]))

/-- The R-tree after inserting the first 25 points of `load_pts`. -/
def rt_T25 : Rtree Point :=
  (Rtree.mk (Rectangle.mk 0 2 0 8)
  (RNode.mk 25 [(REntry.nodeE (Rectangle.mk 2 2 0 2) (RNode.mk 8 [(REntry.datumE (Rectangle.mk 2 2 2 2) (Datum.mk (Point.mk 2 2) (Point.mk 2 2))),
  (REntry.datumE (Rectangle.mk 2 2 1 1) (Datum.mk (Point.mk 2 1) (Point.mk 2 1))),
  (REntry.datumE (Rectangle.mk 2 2 0 0) (Datum.mk (Point.mk 2 0) (Point.mk 2 0))),
  (REntry.datumE (Rectangle.mk 2 2 3 3) (Datum.mk (Point.mk 2 3) (Point.mk 2 3))),
  (REntry.datumE (Rectangle.mk 2 2 4 4) (Datum.mk (Point.mk 2 4) (Point.mk 2 4))),
  (REntry.datumE (Rectangle.mk 2 2 5 5) (Datum.mk (Point.mk 2 5) (Point.mk 2 5))),
  (REntry.datumE (Rectangle.mk 2 2 6 6) (Datum.mk (Point.mk 2 6) (Point.mk 2 6))),
  (REntry.datumE (Rectangle.mk 2 2 7 7) (Datum.mk (Point.mk 2 7) (Point.mk 2 7)))])),
  (REntry.nodeE (Rectangle.mk 1 1 0 3) (RNode.mk 8 [(REntry.datumE (Rectangle.mk 1 1 0 0) (Datum.mk (Point.mk 1 0) (Point.mk 1 0))),
  (REntry.datumE (Rectangle.mk 1 1 1 1) (Datum.mk (Point.mk 1 1) (Point.mk 1 1))),
  (REntry.datumE (Rectangle.mk 1 1 2 2) (Datum.mk (Point.mk 1 2) (Point.mk 1 2))),
  (REntry.datumE (Rectangle.mk 1 1 3 3) (Datum.mk (Point.mk 1 3) (Point.mk 1 3))),
  (REntry.datumE (Rectangle.mk 1 1 4 4) (Datum.mk (Point.mk 1 4) (Point.mk 1 4))),
  (REntry.datumE (Rectangle.mk 1 1 5 5) (Datum.mk (Point.mk 1 5) (Point.mk 1 5))),
  (REntry.datumE (Rectangle.mk 1 1 6 6) (Datum.mk (Point.mk 1 6) (Point.mk 1 6))),
  (REntry.datumE (Rectangle.mk 1 1 7 7) (Datum.mk (Point.mk 1 7) (Point.mk 1 7)))])),
  (REntry.nodeE (Rectangle.mk 0 0 0 8) (RNode.mk 9 [(REntry.datumE (Rectangle.mk 0 0 4 4) (Datum.mk (Point.mk 0 4) (Point.mk 0 4))),
  (REntry.datumE (Rectangle.mk 0 0 3 3) (Datum.mk (Point.mk 0 3) (Point.mk 0 3))),
  (REntry.datumE (Rectangle.mk 0 0 2 2) (Datum.mk (Point.mk 0 2) (Point.mk 0 2))),
  (REntry.datumE (Rectangle.mk 0 0 0 0) (Datum.mk (Point.mk 0 0) (Point.mk 0 0))),
  (REntry.datumE (Rectangle.mk 0 0 1 1) (Datum.mk (Point.mk 0 1) (Point.mk 0 1))),
  (REntry.datumE (Rectangle.mk 0 0 5 5) (Datum.mk (Point.mk 0 5) (Point.mk 0 5))),
  (REntry.datumE (Rectangle.mk 0 0 6 6) (Datum.mk (Point.mk 0 6) (Point.mk 0 6))),
  (REntry.datumE (Rectangle.mk 0 0 7 7) (Datum.mk (Point.mk 0 7) (Point.mk 0 7))),
  (REntry.datumE (Rectangle.mk 0 0 8 8) (Datum.mk (Point.mk 0 8) (Point.mk 0 8)))])),
  (REntry.nodeE (Rectangle.mk 0 0 3 3) (RNode.mk 0 []))]))

/-- The R-tree after inserting the first 29 points of `load_pts`. -/
def rt_T29 : Rtree Point :=
  (Rtree.mk (Rectangle.mk 0 2 0 9)
  (RNode.mk 29 [(REntry.nodeE (Rectangle.mk 0 0 3 3) (RNode.mk 0 [])),
  (REntry.nodeE (Rectangle.mk 1 1 1 1) (RNode.mk 0 [])),
  (REntry.nodeE (Rectangle.mk 2 2 0 8) (RNode.mk 9 [(REntry.datumE (Rectangle.mk 2 2 2 2) (Datum.mk (Point.mk 2 2) (Point.mk 2 2))),
  (REntry.datumE (Rectangle.mk 2 2 1 1) (Datum.mk (Point.mk 2 1) (Point.mk 2 1))),
  (REntry.datumE (Rectangle.mk 2 2 0 0) (Datum.mk (Point.mk 2 0) (Point.mk 2 0))),
  (REntry.datumE (Rectangle.mk 2 2 3 3) (Datum.mk (Point.mk 2 3) (Point.mk 2 3))),
  (REntry.datumE (Rectangle.mk 2 2 4 4) (Datum.mk (Point.mk 2 4) (Point.mk 2 4))),
  (REntry.datumE (Rectangle.mk 2 2 5 5) (Datum.mk (Point.mk 2 5) (Point.mk 2 5))),
  (REntry.datumE (Rectangle.mk 2 2 6 6) (Datum.mk (Point.mk 2 6) (Point.mk 2 6))),
  (REntry.datumE (Rectangle.mk 2 2 7 7) (Datum.mk (Point.mk 2 7) (Point.mk 2 7))),
  (REntry.datumE (Rectangle.mk 2 2 8 8) (Datum.mk (Point.mk 2 8) (Point.mk 2 8)))])),
  (REntry.nodeE (Rectangle.mk 2 2 1 1) (RNode.mk 0 [])),
  (REntry.nodeE (Rectangle.mk 0 0 0 9) (RNode.mk 10 [(REntry.datumE (Rectangle.mk 0 0 4 4) (Datum.mk (Point.mk 0 4) (Point.mk 0 4))),
  (REntry.datumE (Rectangle.mk 0 0 3 3) (Datum.mk (Point.mk 0 3) (Point.mk 0 3))),
  (REntry.datumE (Rectangle.mk 0 0 2 2) (Datum.mk (Point.mk 0 2) (Point.mk 0 2))),
  (REntry.datumE (Rectangle.mk 0 0 0 0) (Datum.mk (Point.mk 0 0) (Point.mk 0 0))),
  (REntry.datumE (Rectangle.mk 0 0 1 1) (Datum.mk (Point.mk 0 1) (Point.mk 0 1))),
  (REntry.datumE (Rectangle.mk 0 0 5 5) (Datum.mk (Point.mk 0 5) (Point.mk 0 5))),
  (REntry.datumE (Rectangle.mk 0 0 6 6) (Datum.mk (Point.mk 0 6) (Point.mk 0 6))),
  (REntry.datumE (Rectangle.mk 0 0 7 7) (Datum.mk (Point.mk 0 7) (Point.mk 0 7))),
  (REntry.datumE (Rectangle.mk 0 0 8 8) (Datum.mk (Point.mk 0 8) (Point.mk 0 8))),
  (REntry.datumE (Rectangle.mk 0 0 9 9) (Datum.mk (Point.mk 0 9) (Point.mk 0 9)))])),
  (REntry.nodeE (Rectangle.mk 0 0 3 3) (RNode.mk 0 [])),
  (REntry.nodeE (Rectangle.mk 1 1 0 9) (RNode.mk 10 [(REntry.datumE (Rectangle.mk 1 1 0 0) (Datum.mk (Point.mk 1 0) (Point.mk 1 0))),
  (REntry.datumE (Rectangle.mk 1 1 1 1) (Datum.mk (Point.mk 1 1) (Point.mk 1 1))),
  (REntry.datumE (Rectangle.mk 1 1 2 2) (Datum.mk (Point.mk 1 2) (Point.mk 1 2))),
  (REntry.datumE (Rectangle.mk 1 1 3 3) (Datum.mk (Point.mk 1 3) (Point.mk 1 3))),
  (REntry.datumE (Rectangle.mk 1 1 4 4) (Datum.mk (Point.mk 1 4) (Point.mk 1 4))),
  (REntry.datumE (Rectangle.mk 1 1 5 5) (Datum.mk (Point.mk 1 5) (Point.mk 1 5))),
  (REntry.datumE (Rectangle.mk 1 1 6 6) (Datum.mk (Point.mk 1 6) (Point.mk 1 6))),
  (REntry.datumE (Rectangle.mk 1 1 7 7) (Datum.mk (Point.mk 1 7) (Point.mk 1 7))),
  (REntry.datumE (Rectangle.mk 1 1 8 8) (Datum.mk (Point.mk 1 8) (Point.mk 1 8))),
  (REntry.datumE (Rectangle.mk 1 1 9 9) (Datum.mk (Point.mk 1 9) (Point.mk 1 9)))])),
  (REntry.nodeE (Rectangle.mk 1 1 1 1) (RNode.mk 0 []))]))

/-- Entry-level step of the Boolean tree comparison. -/
def rentry_beq {T : Type} [DecidableEq T] (f : RNode T → RNode T → Bool) :
    REntry T → REntry T → Bool
  | .datumE b d, .datumE b2 d2 => decide (b = b2) && decide (d = d2)
  | .nodeE b n, .nodeE b2 n2 => decide (b = b2) && f n n2
  | _, _ => false

/-- Fuel-bounded structural equality of R-tree nodes, kernel
evaluable. -/
def rtree_beq {T : Type} [DecidableEq T] : ℕ → RNode T → RNode T → Bool
  | 0, _, _ => false
  | fuel + 1, .mk l es, .mk l2 es2 =>
    (l == l2) && (es.length == es2.length) &&
    ((es.zip es2).all fun p => rentry_beq (rtree_beq fuel) p.1 p.2)

/-- The key comparison fact justifying the squared-distance embedding:
`sqrt` preserves `≤` on the radicands. -/
theorem sqrt_le_sqrt_of_le {a b : ℚ} (h : a ≤ b) :
    Real.sqrt (a : ℝ) ≤ Real.sqrt (b : ℝ) :=
  Real.sqrt_le_sqrt (by exact_mod_cast h)

/-- `sqrt` preserves `<` on nonnegative radicands. -/
theorem sqrt_lt_sqrt_of_lt {a b : ℚ} (ha : 0 ≤ a) (h : a < b) :
    Real.sqrt (a : ℝ) < Real.sqrt (b : ℝ) :=
  Real.sqrt_lt_sqrt (by exact_mod_cast ha) (by exact_mod_cast h)

theorem dist2_nonneg (p q : Point) : 0 ≤ dist2 p q := by
  unfold dist2; nlinarith [sq_nonneg (p.x - q.x), sq_nonneg (p.y - q.y)]

theorem dist2Rect_nonneg (p : Point) (r : Rectangle) : 0 ≤ dist2Rect p r := by
  unfold dist2Rect
  have hx : (0:ℚ) ≤ max (max (r.xmin - p.x) (p.x - r.xmax)) 0 := le_max_right _ _
  have hy : (0:ℚ) ≤ max (max (r.ymin - p.y) (p.y - r.ymax)) 0 := le_max_right _ _
  positivity

/-- The geometric lower-bound property of `distance(Point, Rectangle)`:
for a point inside the rectangle, the rectangle is at least as close to
the query as the point (on squared distances). -/
theorem dist2Rect_le_dist2 {p : Point} {rect : Rectangle}
    (h : contains rect p) (q : Point) : dist2Rect q rect ≤ dist2 q p := by
  obtain ⟨h1, h2, h3, h4⟩ := h
  unfold dist2Rect dist2
  simp only
  set dx := max (max (rect.xmin - q.x) (q.x - rect.xmax)) 0 with hdx
  set dy := max (max (rect.ymin - q.y) (q.y - rect.ymax)) 0 with hdy
  have hdx0 : 0 ≤ dx := le_max_right _ _
  have hdy0 : 0 ≤ dy := le_max_right _ _
  have hx : dx * dx ≤ (q.x - p.x) * (q.x - p.x) := by
    have h5 : rect.xmin - q.x ≤ p.x - q.x := by linarith
    have h6 : q.x - rect.xmax ≤ q.x - p.x := by linarith
    have : dx ≤ max (p.x - q.x) (q.x - p.x) := by
      apply max_le (max_le _ _) _
      · exact le_trans h5 (le_max_left _ _)
      · exact le_trans h6 (le_max_right _ _)
      · rcases le_total (p.x - q.x) 0 with h | h
        · exact le_trans (by linarith) (le_max_right _ _)
        · exact le_trans h (le_max_left _ _)
    rcases max_cases (p.x - q.x) (q.x - p.x) with ⟨he, _⟩ | ⟨he, _⟩ <;>
      rw [he] at this <;> nlinarith
  have hy : dy * dy ≤ (q.y - p.y) * (q.y - p.y) := by
    have h5 : rect.ymin - q.y ≤ p.y - q.y := by linarith
    have h6 : q.y - rect.ymax ≤ q.y - p.y := by linarith
    have : dy ≤ max (p.y - q.y) (q.y - p.y) := by
      apply max_le (max_le _ _) _
      · exact le_trans h5 (le_max_left _ _)
      · exact le_trans h6 (le_max_right _ _)
      · rcases le_total (p.y - q.y) 0 with h | h
        · exact le_trans (by linarith) (le_max_right _ _)
        · exact le_trans h (le_max_left _ _)
    rcases max_cases (p.y - q.y) (q.y - p.y) with ⟨he, _⟩ | ⟨he, _⟩ <;>
      rw [he] at this <;> nlinarith
  nlinarith

theorem extractMax_eq_none {α : Type} {l : List (α × ℚ)} :
    extractMax l = none ↔ l = [] := by
  cases l with
  | nil => simp [extractMax]
  | cons x xs =>
    simp only [extractMax]
    cases h : extractMax xs with
    | none => simp
    | some m => rcases m with ⟨m, rest⟩; by_cases hc : m.2 > x.2 <;> simp [hc]

theorem extractMin_eq_none {α : Type} {l : List (α × ℚ)} :
    extractMin l = none ↔ l = [] := by
  cases l with
  | nil => simp [extractMin]
  | cons x xs =>
    simp only [extractMin]
    cases h : extractMin xs with
    | none => simp
    | some m => rcases m with ⟨m, rest⟩; by_cases hc : m.2 < x.2 <;> simp [hc]

/-- The extracted element plus the remainder is a permutation of the input. -/
theorem extractMax_perm {α : Type} :
    ∀ {l : List (α × ℚ)} {m : α × ℚ} {rest : List (α × ℚ)},
    extractMax l = some (m, rest) → l.Perm (m :: rest)
  | [], _, _, h => by simp [extractMax] at h
  | x :: xs, m, rest, h => by
    simp only [extractMax] at h
    cases hx : extractMax xs with
    | none =>
      rw [hx] at h
      have hxs : xs = [] := extractMax_eq_none.mp hx
      simp only [Option.some.injEq, Prod.mk.injEq] at h
      subst hxs
      simp [← h.1, ← h.2]
    | some p =>
      rcases p with ⟨m', rest'⟩
      rw [hx] at h
      by_cases hc : m'.2 > x.2
      · simp only [hc, if_true, Option.some.injEq, Prod.mk.injEq] at h
        obtain ⟨h1, h2⟩ := h
        rw [← h1, ← h2]
        have ih : xs.Perm (m' :: rest') := extractMax_perm hx
        exact (ih.cons x).trans (List.Perm.swap m' x rest')
      · simp only [hc, if_false, Option.some.injEq, Prod.mk.injEq] at h
        rw [← h.1, ← h.2]

theorem extractMin_perm {α : Type} :
    ∀ {l : List (α × ℚ)} {m : α × ℚ} {rest : List (α × ℚ)},
    extractMin l = some (m, rest) → l.Perm (m :: rest)
  | [], _, _, h => by simp [extractMin] at h
  | x :: xs, m, rest, h => by
    simp only [extractMin] at h
    cases hx : extractMin xs with
    | none =>
      rw [hx] at h
      have hxs : xs = [] := extractMin_eq_none.mp hx
      simp only [Option.some.injEq, Prod.mk.injEq] at h
      subst hxs
      simp [← h.1, ← h.2]
    | some p =>
      rcases p with ⟨m', rest'⟩
      rw [hx] at h
      by_cases hc : m'.2 < x.2
      · simp only [hc, if_true, Option.some.injEq, Prod.mk.injEq] at h
        obtain ⟨h1, h2⟩ := h
        rw [← h1, ← h2]
        have ih : xs.Perm (m' :: rest') := extractMin_perm hx
        exact (ih.cons x).trans (List.Perm.swap m' x rest')
      · simp only [hc, if_false, Option.some.injEq, Prod.mk.injEq] at h
        rw [← h.1, ← h.2]

/-- The element extracted by `extractMax` dominates every input element. -/
theorem extractMax_isMax {α : Type} :
    ∀ {l : List (α × ℚ)} {m : α × ℚ} {rest : List (α × ℚ)},
    extractMax l = some (m, rest) → ∀ y ∈ l, y.2 ≤ m.2
  | [], _, _, h => by simp [extractMax] at h
  | x :: xs, m, rest, h => by
    simp only [extractMax] at h
    cases hx : extractMax xs with
    | none =>
      rw [hx] at h
      have hxs : xs = [] := extractMax_eq_none.mp hx
      simp only [Option.some.injEq, Prod.mk.injEq] at h
      subst hxs
      intro y hy
      simp only [List.mem_singleton] at hy
      simp [hy, ← h.1]
    | some p =>
      rcases p with ⟨m', rest'⟩
      rw [hx] at h
      have ih := extractMax_isMax hx
      by_cases hc : m'.2 > x.2
      · simp only [hc, if_true, Option.some.injEq, Prod.mk.injEq] at h
        intro y hy
        rw [← h.1]
        rcases List.mem_cons.mp hy with hm | hm
        · subst hm; linarith
        · exact ih y hm
      · simp only [hc, if_false, Option.some.injEq, Prod.mk.injEq] at h
        intro y hy
        rw [← h.1]
        rcases List.mem_cons.mp hy with hm | hm
        · subst hm; exact le_rfl
        · exact le_trans (ih y hm) (by linarith)

/-- The element extracted by `extractMin` is below every input element. -/
theorem extractMin_isMin {α : Type} :
    ∀ {l : List (α × ℚ)} {m : α × ℚ} {rest : List (α × ℚ)},
    extractMin l = some (m, rest) → ∀ y ∈ l, m.2 ≤ y.2
  | [], _, _, h => by simp [extractMin] at h
  | x :: xs, m, rest, h => by
    simp only [extractMin] at h
    cases hx : extractMin xs with
    | none =>
      rw [hx] at h
      have hxs : xs = [] := extractMin_eq_none.mp hx
      simp only [Option.some.injEq, Prod.mk.injEq] at h
      subst hxs
      intro y hy
      simp only [List.mem_singleton] at hy
      simp [hy, ← h.1]
    | some p =>
      rcases p with ⟨m', rest'⟩
      rw [hx] at h
      have ih := extractMin_isMin hx
      by_cases hc : m'.2 < x.2
      · simp only [hc, if_true, Option.some.injEq, Prod.mk.injEq] at h
        intro y hy
        rw [← h.1]
        rcases List.mem_cons.mp hy with hm | hm
        · subst hm; linarith
        · exact ih y hm
      · simp only [hc, if_false, Option.some.injEq, Prod.mk.injEq] at h
        intro y hy
        rw [← h.1]
        rcases List.mem_cons.mp hy with hm | hm
        · subst hm; exact le_rfl
        · exact le_trans (by linarith) (ih y hm)

theorem extractMax_length {α : Type} {l : List (α × ℚ)} {m : α × ℚ}
    {rest : List (α × ℚ)} (h : extractMax l = some (m, rest)) :
    rest.length + 1 = l.length := by
  have := (extractMax_perm h).length_eq
  simpa [Nat.add_comm] using this.symm

theorem drainGo_perm {α : Type} :
    ∀ (n : ℕ) (l : List (α × ℚ)), l.length ≤ n → (drainGo n l).Perm l
  | 0, l, h => by
    have : l = [] := List.length_eq_zero.mp (Nat.le_zero.mp h)
    simp [drainGo, this]
  | n + 1, l, h => by
    rw [drainGo]
    split
    · next he => rw [extractMax_eq_none.mp he]
    · next m rest he =>
      have hlen := extractMax_length he
      have ihr := drainGo_perm n rest (by omega)
      exact ((ihr.cons m).trans (extractMax_perm he).symm)

theorem drain_perm {α : Type} (l : List (α × ℚ)) : (drain l).Perm l :=
  drainGo_perm l.length l le_rfl

theorem drainGo_subset {α : Type} :
    ∀ (n : ℕ) (l : List (α × ℚ)), drainGo n l ⊆ l
  | 0, l => by simp [drainGo]
  | n + 1, l => by
    rw [drainGo]
    split
    · simp
    · next m rest he =>
      intro y hy
      rcases List.mem_cons.mp hy with h | h
      · exact h ▸ (extractMax_perm he).symm.subset (List.mem_cons_self m rest)
      · exact (extractMax_perm he).symm.subset
          (List.mem_cons_of_mem m (drainGo_subset n rest h))

theorem drainGo_sorted {α : Type} :
    ∀ (n : ℕ) (l : List (α × ℚ)),
    (drainGo n l).Pairwise (fun a b => b.2 ≤ a.2)
  | 0, l => by simp [drainGo]
  | n + 1, l => by
    rw [drainGo]
    split
    · exact List.Pairwise.nil
    · next m rest he =>
      refine List.Pairwise.cons ?_ (drainGo_sorted n rest)
      intro y hy
      have hy' : y ∈ rest := drainGo_subset n rest hy
      exact extractMax_isMax he y
        ((extractMax_perm he).symm.subset (List.mem_cons_of_mem m hy'))

/-- Drained output is sorted by non-increasing `dist`: each element
dominates all later ones. -/
theorem drain_sorted {α : Type} (l : List (α × ℚ)) :
    (drain l).Pairwise (fun a b => b.2 ≤ a.2) :=
  drainGo_sorted l.length l

/-- The head of the drained output dominates every input element. -/
theorem drain_head_max {α : Type} {l : List (α × ℚ)} {m : α × ℚ}
    {tl : List (α × ℚ)} (h : drain l = m :: tl) : ∀ y ∈ l, y.2 ≤ m.2 := by
  unfold drain at h
  cases hn : l.length with
  | zero => rw [hn] at h; simp [drainGo] at h
  | succ n =>
    rw [hn] at h
    rw [drainGo] at h
    split at h
    · exact absurd h (by simp)
    · next m2 rest he =>
      have h1 : m2 = m := (List.cons_eq_cons.mp h).1
      exact h1 ▸ extractMax_isMax he

/-! ## Quadtree build invariants -/
theorem WF_mono : ∀ {n : QNode} {L L' : ℕ}, L ≤ L' → WF L n → WF L' n
  | .leaf _ _ _ _ _, _, _, hLL, h => by
    simp only [WF] at h ⊢
    exact ⟨h.1, lt_of_lt_of_le h.2 hLL⟩
  | .node _ _ _ _ _ c0 c1 c2 c3, _, _, hLL, h => by
    simp only [WF] at h ⊢
    obtain ⟨h1, h2, h3, h4, h5, w0, w1, w2, w3⟩ := h
    exact ⟨h1, h2, h3, h4, h5, WF_mono hLL w0, WF_mono hLL w1,
           WF_mono hLL w2, WF_mono hLL w3⟩

theorem WF_start_le_stop :
    ∀ {n : QNode} {L : ℕ}, WF L n → n.leaf_range.start ≤ n.leaf_range.stop
  | .leaf _ _ _ _ _, _, h => by
    simp only [WF] at h
    simp [QNode.leaf_range, h.1]
  | .node _ _ _ _ _ c0 c1 c2 c3, _, h => by
    simp only [WF] at h
    obtain ⟨h1, h2, h3, h4, h5, w0, w1, w2, w3⟩ := h
    have i0 := WF_start_le_stop w0
    have i1 := WF_start_le_stop w1
    have i2 := WF_start_le_stop w2
    have i3 := WF_start_le_stop w3
    simp only [QNode.leaf_range]
    omega

theorem WF_stop_lt :
    ∀ {n : QNode} {L : ℕ}, WF L n → n.leaf_range.stop < L
  | .leaf _ _ _ _ _, _, h => by
    simp only [WF] at h
    exact h.2
  | .node _ _ _ _ _ c0 c1 c2 c3, _, h => by
    simp only [WF] at h
    obtain ⟨_, _, _, _, h5, _, _, _, w3⟩ := h
    have := WF_stop_lt w3
    simp only [QNode.leaf_range]
    omega

/-- Under well-formedness, an internal node's range is non-degenerate,
so the C++ `is_leaf()` test (range degeneracy) correctly recognizes
internal nodes. -/
theorem WF_node_is_leaf_false {d c : ℕ} {b : Rectangle} {ctr : Point}
    {r : Range} {c0 c1 c2 c3 : QNode} {L : ℕ}
    (h : WF L (.node d c b ctr r c0 c1 c2 c3)) :
    (QNode.node d c b ctr r c0 c1 c2 c3).is_leaf = false := by
  simp only [WF] at h
  obtain ⟨h1, h2, h3, h4, h5, w0, w1, w2, w3⟩ := h
  have i0 := WF_start_le_stop w0
  have i1 := WF_start_le_stop w1
  have i2 := WF_start_le_stop w2
  have i3 := WF_start_le_stop w3
  simp only [QNode.is_leaf, QNode.leaf_range]
  rw [beq_eq_false_iff_ne]
  omega

theorem subData_append {T : Type} (ext : List (List (Datum T))) :
    ∀ (n : QNode) (lv : List (List (Datum T))), WF lv.length n →
    QNode.subData (lv ++ ext) n = QNode.subData lv n
  | .leaf _ _ _ _ r, lv, h => by
    simp only [WF] at h
    simp only [QNode.subData]
    rw [List.getElem?_append_left]
    omega
  | .node _ _ _ _ r c0 c1 c2 c3, lv, h => by
    simp only [WF] at h
    obtain ⟨_, _, _, _, _, w0, w1, w2, w3⟩ := h
    simp only [QNode.subData]
    rw [subData_append ext c0 lv w0, subData_append ext c1 lv w1,
        subData_append ext c2 lv w2, subData_append ext c3 lv w3]

/-- Each element of a list falls in exactly one of the four quadrant
filters, so the four filters repartition the list (as a multiset). -/
theorem filter_four_partition {α : Type} (f : α → ℕ) :
    ∀ (l : List α), (∀ a ∈ l, f a < 4) →
    ((l.filter (fun a => f a == 0) : Multiset α) +
     (l.filter (fun a => f a == 1) : Multiset α) +
     (l.filter (fun a => f a == 2) : Multiset α) +
     (l.filter (fun a => f a == 3) : Multiset α)) = (l : Multiset α)
  | [], _ => by simp
  | a :: l, h => by
    have ha : f a < 4 := h a (List.mem_cons_self a l)
    have ih := filter_four_partition f l (fun x hx => h x (List.mem_cons_of_mem a hx))
    interval_cases hfa : f a <;>
      simp only [List.filter_cons, hfa, show ((0:ℕ) == 0) = true from rfl, beq_iff_eq,
        if_true, if_false, reduceCtorEq, Nat.succ_ne_zero, Multiset.cons_coe] <;>
      simp only [← Multiset.cons_coe, Multiset.add_cons, Multiset.cons_add] <;>
      rw [← ih] <;> simp <;> omega

/-- `get_quadrant` takes values in `{0,1,2,3}`. -/
theorem get_quadrant_lt (center p : Point) : get_quadrant center p < 4 := by
  unfold get_quadrant
  split <;> split <;> omega

/-- The main specification of `Quadtree::Node::insert`: on success it
appends at least one new leaf bucket, the node's `leaf_range` covers
exactly the appended slice, the node is well formed, keeps the bounds
it was given, and its subtree data is the inserted data. -/
theorem insert_spec {T : Type} :
    ∀ (fuel : ℕ) {depth code : ℕ} {b : Rectangle} {lv : List (List (Datum T))}
      {data : List (Datum T)} {n : QNode} {lv' : List (List (Datum T))},
    insert fuel depth code b lv data = some (n, lv') →
    (∃ ext, lv' = lv ++ ext) ∧ lv.length < lv'.length ∧
    n.leaf_range.start = lv.length ∧ n.leaf_range.stop + 1 = lv'.length ∧
    n.bounds = b ∧ WF lv'.length n ∧
    ((n.subData lv' : Multiset (Datum T)) = (data : Multiset (Datum T)))
  | 0, _, _, _, _, _, _, _, h => by simp [insert] at h
  | fuel + 1, depth, code, b, lv, data, n, lv', h => by
    rw [insert] at h
    by_cases hlen : data.length ≤ LEAF_CAPACITY
    · rw [if_pos hlen] at h
      simp only [Option.some.injEq, Prod.mk.injEq] at h
      obtain ⟨hn, hlv⟩ := h
      subst hn; subst hlv
      refine ⟨⟨[data], rfl⟩, by simp, rfl, by simp [QNode.leaf_range], rfl, ?_, ?_⟩
      · simp [WF, QNode.leaf_range]
      · simp only [QNode.subData, QNode.leaf_range]
        rw [List.getElem?_concat_length]
        rfl
    · rw [if_neg hlen] at h
      split at h
      · exact absurd h (by simp)
      · rename_i c0 lv0 h0
        split at h
        · exact absurd h (by simp)
        · rename_i c1 lv1 h1
          split at h
          · exact absurd h (by simp)
          · rename_i c2 lv2 h2
            split at h
            · exact absurd h (by simp)
            · rename_i c3 lv3 h3
              simp only [Option.some.injEq, Prod.mk.injEq] at h
              obtain ⟨hn, hlv⟩ := h
              subst hn; subst hlv
              obtain ⟨⟨e0, he0⟩, hl0, hs0, hp0, hb0, hw0, hd0⟩ := insert_spec fuel h0
              obtain ⟨⟨e1, he1⟩, hl1, hs1, hp1, hb1, hw1, hd1⟩ := insert_spec fuel h1
              obtain ⟨⟨e2, he2⟩, hl2, hs2, hp2, hb2, hw2, hd2⟩ := insert_spec fuel h2
              obtain ⟨⟨e3, he3⟩, hl3, hs3, hp3, hb3, hw3, hd3⟩ := insert_spec fuel h3
              have hlv01 : lv0.length ≤ lv3.length := by omega
              have hlv11 : lv1.length ≤ lv3.length := by omega
              have hlv21 : lv2.length ≤ lv3.length := by omega
              have hsub0 : QNode.subData lv3 c0 = QNode.subData lv0 c0 := by
                rw [he3, he2, he1, List.append_assoc, List.append_assoc]
                exact subData_append _ c0 lv0 hw0
              have hsub1 : QNode.subData lv3 c1 = QNode.subData lv1 c1 := by
                rw [he3, he2, List.append_assoc]
                exact subData_append _ c1 lv1 hw1
              have hsub2 : QNode.subData lv3 c2 = QNode.subData lv2 c2 := by
                rw [he3]
                exact subData_append _ c2 lv2 hw2
              refine ⟨⟨e0 ++ e1 ++ e2 ++ e3, by
                  rw [he3, he2, he1, he0]; simp [List.append_assoc]⟩,
                by omega, ?_, ?_, rfl, ?_, ?_⟩
              · simpa [QNode.leaf_range] using hs0
              · simpa [QNode.leaf_range] using hp3
              · simp only [WF]
                refine ⟨trivial, by omega, by omega, by omega, trivial,
                  WF_mono hlv01 hw0, WF_mono hlv11 hw1,
                  WF_mono hlv21 hw2, hw3⟩
              · simp only [QNode.subData]
                have : ((QNode.subData lv3 c0 ++ QNode.subData lv3 c1 ++
                    QNode.subData lv3 c2 ++ QNode.subData lv3 c3 :
                    List (Datum T)) : Multiset (Datum T)) =
                    ((QNode.subData lv3 c0 : List (Datum T)) : Multiset (Datum T)) +
                    (QNode.subData lv3 c1 : List (Datum T)) +
                    (QNode.subData lv3 c2 : List (Datum T)) +
                    (QNode.subData lv3 c3 : List (Datum T)) := by
                  simp [Multiset.coe_add]
                rw [this, hsub0, hsub1, hsub2, hd0, hd1, hd2, hd3]
                exact filter_four_partition _ data
                  (fun d _ => get_quadrant_lt (midpoint b) d.point)

/-- Each child rectangle of `create_children` sits inside its parent
(for proper parent bounds). -/
theorem childBounds_sub {b : Rectangle} (hbx : b.xmin ≤ b.xmax)
    (hby : b.ymin ≤ b.ymax) (i : ℕ) :
    containsR b (childBounds b (midpoint b) i) := by
  have hx1 : b.xmin ≤ (midpoint b).x := by simp only [midpoint]; linarith
  have hx2 : (midpoint b).x ≤ b.xmax := by simp only [midpoint]; linarith
  have hy1 : b.ymin ≤ (midpoint b).y := by simp only [midpoint]; linarith
  have hy2 : (midpoint b).y ≤ b.ymax := by simp only [midpoint]; linarith
  match i with
  | 0 => exact ⟨le_refl _, hx2, le_refl _, hy2⟩
  | 1 => exact ⟨hx1, le_refl _, le_refl _, hy2⟩
  | 2 => exact ⟨le_refl _, hx2, hy1, le_refl _⟩
  | (m+3) => exact ⟨hx1, le_refl _, hy1, le_refl _⟩

/-- Child rectangles of proper bounds are proper. -/
theorem childBounds_proper {b : Rectangle} (hbx : b.xmin ≤ b.xmax)
    (hby : b.ymin ≤ b.ymax) (i : ℕ) :
    (childBounds b (midpoint b) i).xmin ≤ (childBounds b (midpoint b) i).xmax ∧
    (childBounds b (midpoint b) i).ymin ≤ (childBounds b (midpoint b) i).ymax := by
  have hx1 : b.xmin ≤ (midpoint b).x := by simp only [midpoint]; linarith
  have hx2 : (midpoint b).x ≤ b.xmax := by simp only [midpoint]; linarith
  have hy1 : b.ymin ≤ (midpoint b).y := by simp only [midpoint]; linarith
  have hy2 : (midpoint b).y ≤ b.ymax := by simp only [midpoint]; linarith
  match i with
  | 0 => exact ⟨hx1, hy1⟩
  | 1 => exact ⟨hx2, hy1⟩
  | 2 => exact ⟨hx1, hy2⟩
  | (m+3) => exact ⟨hx2, hy2⟩

/-- A point of the parent rectangle lies in the child rectangle of its
quadrant. -/
theorem quadrant_contains {b : Rectangle} {p : Point}
    (hp : contains b p) {i : ℕ}
    (hq : get_quadrant (midpoint b) p = i) :
    contains (childBounds b (midpoint b) i) p := by
  obtain ⟨h1, h2, h3, h4⟩ := hp
  unfold get_quadrant at hq
  by_cases ha : p.x > (midpoint b).x <;> by_cases hb' : p.y > (midpoint b).y <;>
    simp only [ha, hb', if_true, if_false] at hq <;> subst hq
  · exact ⟨le_of_lt ha, h2, le_of_lt hb', h4⟩
  · exact ⟨le_of_lt ha, h2, h3, not_lt.mp hb'⟩
  · exact ⟨h1, not_lt.mp ha, le_of_lt hb', h4⟩
  · exact ⟨h1, not_lt.mp ha, h3, not_lt.mp hb'⟩

/-- On insertion of in-bounds data under proper bounds, the resulting
subtree is geometrically well formed (`Covers`). -/
theorem insert_covers {T : Type} :
    ∀ (fuel : ℕ) {depth code : ℕ} {b : Rectangle} {lv : List (List (Datum T))}
      {data : List (Datum T)} {n : QNode} {lv' : List (List (Datum T))},
    insert fuel depth code b lv data = some (n, lv') →
    b.xmin ≤ b.xmax → b.ymin ≤ b.ymax →
    (∀ d ∈ data, contains b d.point) →
    Covers lv' n
  | 0, _, _, _, _, _, _, _, h => by simp [insert] at h
  | fuel + 1, depth, code, b, lv, data, n, lv', h => by
    intro hbx hby hdata
    rw [insert] at h
    by_cases hlen : data.length ≤ LEAF_CAPACITY
    · rw [if_pos hlen] at h
      simp only [Option.some.injEq, Prod.mk.injEq] at h
      obtain ⟨hn, hlv⟩ := h
      subst hn; subst hlv
      simp only [Covers, QNode.leaf_range]
      rw [List.getElem?_concat_length]
      exact hdata
    · rw [if_neg hlen] at h
      split at h
      · exact absurd h (by simp)
      · rename_i c0 lv0 h0
        split at h
        · exact absurd h (by simp)
        · rename_i c1 lv1 h1
          split at h
          · exact absurd h (by simp)
          · rename_i c2 lv2 h2
            split at h
            · exact absurd h (by simp)
            · rename_i c3 lv3 h3
              simp only [Option.some.injEq, Prod.mk.injEq] at h
              obtain ⟨hn, hlv⟩ := h
              subst hn; subst hlv
              have hb0 := (insert_spec fuel h0).2.2.2.2.1
              have hb1 := (insert_spec fuel h1).2.2.2.2.1
              have hb2 := (insert_spec fuel h2).2.2.2.2.1
              have hb3 := (insert_spec fuel h3).2.2.2.2.1
              have hw0 := (insert_spec fuel h0).2.2.2.2.2.1
              have hw1 := (insert_spec fuel h1).2.2.2.2.2.1
              have hw2 := (insert_spec fuel h2).2.2.2.2.2.1
              have hw3 := (insert_spec fuel h3).2.2.2.2.2.1
              have hdq : ∀ (i : ℕ) (d : Datum T),
                  d ∈ data.filter (fun d => get_quadrant (midpoint b) d.point == i) →
                  contains (childBounds b (midpoint b) i) d.point := by
                intro i d hd
                rw [List.mem_filter] at hd
                exact quadrant_contains (hdata d hd.1) (beq_iff_eq.mp hd.2)
              -- `Covers` extends along leaf-array extension
              have hext : ∀ (m : QNode) (lvA ext2 : List (List (Datum T))),
                  WF lvA.length m → Covers lvA m → Covers (lvA ++ ext2) m := by
                intro m
                induction m with
                | leaf d c bb ctr r =>
                  intro lvA ext2 hwf hc
                  simp only [Covers] at hc ⊢
                  simp only [WF] at hwf
                  rw [List.getElem?_append_left (by omega)]
                  exact hc
                | node d c bb ctr r d0 d1 d2 d3 ih0 ih1 ih2 ih3 =>
                  intro lvA ext2 hwf hc
                  simp only [Covers] at hc ⊢
                  simp only [WF] at hwf
                  exact ⟨hc.1, hc.2.1, hc.2.2.1, hc.2.2.2.1,
                    ih0 _ _ hwf.2.2.2.2.2.1 hc.2.2.2.2.1,
                    ih1 _ _ hwf.2.2.2.2.2.2.1 hc.2.2.2.2.2.1,
                    ih2 _ _ hwf.2.2.2.2.2.2.2.1 hc.2.2.2.2.2.2.1,
                    ih3 _ _ hwf.2.2.2.2.2.2.2.2 hc.2.2.2.2.2.2.2⟩
              obtain ⟨e1, he1⟩ := (insert_spec fuel h1).1
              obtain ⟨e2, he2⟩ := (insert_spec fuel h2).1
              obtain ⟨e3, he3⟩ := (insert_spec fuel h3).1
              have hc0 : Covers lv3 c0 := by
                rw [he3, he2, he1, List.append_assoc, List.append_assoc]
                exact hext c0 lv0 _ hw0
                  (insert_covers fuel h0 (childBounds_proper hbx hby 0).1
                    (childBounds_proper hbx hby 0).2 (hdq 0))
              have hc1 : Covers lv3 c1 := by
                rw [he3, he2, List.append_assoc]
                exact hext c1 lv1 _ hw1
                  (insert_covers fuel h1 (childBounds_proper hbx hby 1).1
                    (childBounds_proper hbx hby 1).2 (hdq 1))
              have hc2 : Covers lv3 c2 := by
                rw [he3]
                exact hext c2 lv2 _ hw2
                  (insert_covers fuel h2 (childBounds_proper hbx hby 2).1
                    (childBounds_proper hbx hby 2).2 (hdq 2))
              have hc3 : Covers lv3 c3 :=
                insert_covers fuel h3 (childBounds_proper hbx hby 3).1
                  (childBounds_proper hbx hby 3).2 (hdq 3)
              simp only [Covers]
              exact ⟨hb0 ▸ childBounds_sub hbx hby 0, hb1 ▸ childBounds_sub hbx hby 1,
                hb2 ▸ childBounds_sub hbx hby 2, hb3 ▸ childBounds_sub hbx hby 3,
                hc0, hc1, hc2, hc3⟩

/-! ## Lemmas about the shared query loop -/
/-- `chooseD` on a non-empty queue: the length is preserved, the new
queue plus one discarded element re-partition the old queue plus the
offered datum, and the discarded element dominates the new queue. -/
theorem chooseD_spec {T : Type} {q : Point} {dpq dpq2 : List (Datum T × ℚ)}
    {d : Datum T} (h : chooseD q dpq d = .ok dpq2) :
    dpq2.length = dpq.length ∧
    ∃ x : Datum T × ℚ,
      (dpq2 : Multiset (Datum T × ℚ)) + {x} =
        (dpq : Multiset (Datum T × ℚ)) + {(d, dist2 q d.point)} ∧
      (∀ y ∈ dpq2, y.2 ≤ x.2) ∧
      (x = (d, dist2 q d.point) ∨ x ∈ dpq) := by
  unfold chooseD at h
  split at h
  · exact absurd h (by simp)
  · rename_i p d0 dd0 rest hm
    have hperm := extractMax_perm hm
    have hmax := extractMax_isMax hm
    split at h
    · rename_i hgt
      simp only [Except.ok.injEq] at h
      subst h
      refine ⟨?_, ⟨(d0, dd0), ?_, ?_, ?_⟩⟩
      · simpa using hperm.length_eq.symm
      · have hco : (dpq : Multiset (Datum T × ℚ)) = (d0, dd0) ::ₘ (rest : Multiset _) :=
          Multiset.coe_eq_coe.mpr hperm
        rw [hco]
        have hco2 : ((d, dist2 q d.point) :: rest : List (Datum T × ℚ)) =
            (d, dist2 q d.point) :: rest := rfl
        show ((d, dist2 q d.point) :: rest : List (Datum T × ℚ)) + ({(d0, dd0)} : Multiset _) = _
        have : (((d, dist2 q d.point) :: rest : List (Datum T × ℚ)) : Multiset (Datum T × ℚ)) =
            (d, dist2 q d.point) ::ₘ (rest : Multiset _) := rfl
        rw [this, add_comm _ ({(d0, dd0)} : Multiset (Datum T × ℚ)), add_comm _ ({(d, dist2 q d.point)} : Multiset (Datum T × ℚ)),
          Multiset.singleton_add, Multiset.singleton_add]
        exact Multiset.cons_swap _ _ _
      · intro y hy
        rcases List.mem_cons.mp hy with h | h
        · subst h; exact le_of_lt hgt
        · exact hmax y (hperm.symm.subset (List.mem_cons_of_mem _ h))
      · exact Or.inr (hperm.symm.subset (List.mem_cons_self _ _))
    · rename_i hgt
      simp only [Except.ok.injEq] at h
      subst h
      refine ⟨rfl, ⟨(d, dist2 q d.point), rfl, ?_, Or.inl rfl⟩⟩
      intro y hy
      exact le_trans (hmax y hy) (not_lt.mp hgt)

/-- `chooseD` cannot fail on a non-empty queue. -/
theorem chooseD_ok {T : Type} (q : Point) (dpq : List (Datum T × ℚ))
    (d : Datum T) (hne : dpq ≠ []) : ∃ dpq2, chooseD q dpq d = .ok dpq2 := by
  unfold chooseD
  split
  · next hm => exact absurd (extractMax_eq_none.mp hm) hne
  · next p d0 dd0 rest hm =>
    split
    · exact ⟨_, rfl⟩
    · exact ⟨_, rfl⟩

/-- `processBucket` cannot fail when `1 ≤ k`. -/
theorem processBucket_ok {T : Type} (q : Point) {k : ℕ} (hk : 1 ≤ k) :
    ∀ (ds : List (Datum T)) (dpq : List (Datum T × ℚ)),
    ∃ dpq2, processBucket q k ds dpq = .ok dpq2
  | [], dpq => ⟨dpq, rfl⟩
  | d :: ds, dpq => by
    rw [processBucket]
    by_cases hlt : dpq.length < k
    · rw [if_pos hlt]
      exact processBucket_ok q hk ds _
    · rw [if_neg hlt]
      have hne : dpq ≠ [] := by
        intro he
        subst he
        simp at hlt
        omega
      obtain ⟨dpqm, hm⟩ := chooseD_ok q dpq d hne
      rw [hm]
      exact processBucket_ok q hk ds _

/-- Once at or above capacity, `processBucket` only ever replaces
elements by closer ones: any upper bound on the queue persists. -/
theorem processBucket_mono {T : Type} {q : Point} {k : ℕ} :
    ∀ {ds : List (Datum T)} {dpq dpq2 : List (Datum T × ℚ)},
    processBucket q k ds dpq = .ok dpq2 → k ≤ dpq.length →
    ∀ bound : ℚ, (∀ y ∈ dpq, y.2 ≤ bound) → ∀ y ∈ dpq2, y.2 ≤ bound := by
  intro ds
  induction ds with
  | nil =>
    intro dpq dpq2 h hk bound hb
    rw [processBucket] at h
    simp only [Except.ok.injEq] at h
    subst h
    exact hb
  | cons d ds ih =>
    intro dpq dpq2 h hk bound hb
    rw [processBucket] at h
    rw [if_neg (by omega)] at h
    cases hc : chooseD q dpq d with
    | error msg => rw [hc] at h; exact absurd h (by simp)
    | ok dpqm =>
      rw [hc] at h
      obtain ⟨hlen, x, heq, hdom, hx⟩ := chooseD_spec hc
      have hbm : ∀ y ∈ dpqm, y.2 ≤ bound := by
        intro y hy
        rcases hx with h3 | h3
        · -- candidate rejected (or equal): the queue is unchanged as a multiset
          have hmm : (dpqm : Multiset (Datum T × ℚ)) = (dpq : Multiset _) := by
            rw [h3] at heq
            exact add_right_cancel heq
          have hym : y ∈ (dpq : Multiset (Datum T × ℚ)) := by
            rw [← hmm]; exact_mod_cast hy
          exact hb y (by exact_mod_cast hym)
        · -- candidate accepted: it displaced the maximum `x ∈ dpq`
          exact le_trans (hdom y hy) (hb x h3)
      exact ih h (by omega) bound hbm

/-- At or above capacity, `processBucket` preserves the queue length. -/
theorem processBucket_len_ge {T : Type} {q : Point} {k : ℕ} :
    ∀ {ds : List (Datum T)} {dpq dpq2 : List (Datum T × ℚ)},
    processBucket q k ds dpq = .ok dpq2 → k ≤ dpq.length →
    dpq2.length = dpq.length := by
  intro ds
  induction ds with
  | nil =>
    intro dpq dpq2 h _
    rw [processBucket] at h
    simp only [Except.ok.injEq] at h
    exact h ▸ rfl
  | cons d ds ih =>
    intro dpq dpq2 h hk
    rw [processBucket] at h
    rw [if_neg (by omega)] at h
    cases hc : chooseD q dpq d with
    | error msg => rw [hc] at h; exact absurd h (by simp)
    | ok dpqm =>
      rw [hc] at h
      have hlen := (chooseD_spec hc).1
      rw [ih h (by omega), hlen]

/-- An AC rearrangement used when composing queue-evolution equations. -/
theorem multiset_rearrange {α : Type} {A B X P Q M : Multiset α}
    (h1 : A + B = P + M) (h2 : P + X = Q) :
    A + (B + X) = Q + M := by
  rw [← add_assoc, h1, add_assoc, add_comm M X, ← add_assoc, h2]

/-- Main bookkeeping lemma for `processBucket`: the final queue has
`min k (|dpq| + |ds|)` elements, the final queue together with the
dropped elements re-partitions the initial queue plus the bucket (with
distances computed at push time), every dropped element dominates the
final queue, and dropping only happens at capacity. -/
theorem processBucket_spec {T : Type} {q : Point} {k : ℕ} :
    ∀ {ds : List (Datum T)} {dpq dpq2 : List (Datum T × ℚ)},
    processBucket q k ds dpq = .ok dpq2 → dpq.length ≤ k →
    dpq2.length = min k (dpq.length + ds.length) ∧
    ∃ dropped : Multiset (Datum T × ℚ),
      (dpq2 : Multiset (Datum T × ℚ)) + dropped =
        (dpq : Multiset (Datum T × ℚ)) +
          (ds.map (fun d => (d, dist2 q d.point)) : Multiset (Datum T × ℚ)) ∧
      (∀ x ∈ dropped, ∀ y ∈ dpq2, y.2 ≤ x.2) ∧
      (dropped = 0 ∨ dpq2.length = k) := by
  intro ds
  induction ds with
  | nil =>
    intro dpq dpq2 h hle
    rw [processBucket] at h
    simp only [Except.ok.injEq] at h
    subst h
    exact ⟨by simp; omega, 0, by simp, by simp, Or.inl rfl⟩
  | cons d ds ih =>
    intro dpq dpq2 h hle
    rw [processBucket] at h
    by_cases hlt : dpq.length < k
    · rw [if_pos hlt] at h
      obtain ⟨hlen, dropped, heq, hdom, hz⟩ := ih h (by simp; omega)
      refine ⟨by simp only [List.length_cons] at hlen ⊢; omega, dropped, ?_, hdom, hz⟩
      rw [heq]
      simp only [List.map_cons, ← Multiset.cons_coe, ← Multiset.singleton_add]
      rw [add_assoc, add_left_comm]
    · rw [if_neg hlt] at h
      cases hc : chooseD q dpq d with
      | error msg => rw [hc] at h; exact absurd h (by simp)
      | ok dpqm =>
        rw [hc] at h
        obtain ⟨hlenm, x, heqm, hdomm, _⟩ := chooseD_spec hc
        obtain ⟨hlen, dropped, heq, hdom, _⟩ := ih h (by omega)
        have hk : dpq.length = k := by omega
        refine ⟨by simp only [List.length_cons]; omega, dropped + {x}, ?_, ?_,
          Or.inr (by omega)⟩
        · simp only [List.map_cons, ← Multiset.cons_coe, ← Multiset.singleton_add]
          exact (multiset_rearrange heq heqm).trans (add_assoc _ _ _)
        · intro z hz y hy
          rcases Multiset.mem_add.mp hz with h2 | h2
          · exact hdom z h2 y hy
          · have hzx : z = x := by simpa using h2
            subst hzx
            exact processBucket_mono h (by omega) z.2 hdomm y hy

theorem npqData_nil {E T : Type} (dataOf : E → List (Datum T)) (q : Point) :
    npqData dataOf q [] = 0 := rfl

theorem npqData_cons {E T : Type} (dataOf : E → List (Datum T)) (q : Point)
    (p : E × ℚ) (l : List (E × ℚ)) :
    npqData dataOf q (p :: l) =
      ((dataOf p.1).map (fun d => (d, dist2 q d.point)) : Multiset (Datum T × ℚ)) +
      npqData dataOf q l := by
  simp [npqData]

theorem npqData_perm {E T : Type} (dataOf : E → List (Datum T)) (q : Point)
    {l1 l2 : List (E × ℚ)} (h : l1.Perm l2) :
    npqData dataOf q l1 = npqData dataOf q l2 :=
  (h.map _).sum_eq

theorem npqLen_perm {E T : Type} (dataOf : E → List (Datum T))
    {l1 l2 : List (E × ℚ)} (h : l1.Perm l2) :
    (l1.map (fun p => (dataOf p.1).length)).sum =
    (l2.map (fun p => (dataOf p.1).length)).sum :=
  (h.map _).sum_eq

/-- `processBucket` preserves any property `φ` of queue entries that
holds of pushed bucket entries. -/
theorem processBucket_pres {T : Type} {q : Point} {k : ℕ}
    (φ : Datum T × ℚ → Prop) :
    ∀ {ds : List (Datum T)} {dpq dpq2 : List (Datum T × ℚ)},
    processBucket q k ds dpq = .ok dpq2 →
    (∀ y ∈ dpq, φ y) → (∀ d ∈ ds, φ (d, dist2 q d.point)) →
    ∀ y ∈ dpq2, φ y := by
  intro ds
  induction ds with
  | nil =>
    intro dpq dpq2 h hq _
    rw [processBucket] at h
    simp only [Except.ok.injEq] at h
    exact h ▸ hq
  | cons d ds ih =>
    intro dpq dpq2 h hq hds
    rw [processBucket] at h
    by_cases hlt : dpq.length < k
    · rw [if_pos hlt] at h
      refine ih h ?_ (fun d2 h2 => hds d2 (List.mem_cons_of_mem d h2))
      intro y hy
      rcases List.mem_cons.mp hy with h2 | h2
      · exact h2 ▸ hds d (List.mem_cons_self d ds)
      · exact hq y h2
    · rw [if_neg hlt] at h
      cases hc : chooseD q dpq d with
      | error msg => rw [hc] at h; exact absurd h (by simp)
      | ok dpqm =>
        rw [hc] at h
        obtain ⟨_, x, heq, _, _⟩ := chooseD_spec hc
        refine ih h ?_ (fun d2 h2 => hds d2 (List.mem_cons_of_mem d h2))
        intro y hy
        have hym : y ∈ (dpqm : Multiset (Datum T × ℚ)) + {x} := by
          exact Multiset.mem_add.mpr (Or.inl (by exact_mod_cast hy))
        rw [heq] at hym
        rcases Multiset.mem_add.mp hym with h2 | h2
        · exact hq y (by exact_mod_cast h2)
        · have : y = (d, dist2 q d.point) := by simpa using h2
          exact this ▸ hds d (List.mem_cons_self d ds)

/-- `knnLoop` preserves any property `φ` of queue entries that holds of
every entry pushed from any bucket. -/
theorem knnLoop_pres {E T : Type} {H : Hier E T} {q : Point} {k : ℕ}
    (φ : Datum T × ℚ → Prop)
    (hbuck : ∀ e ds, H.bucket e = some ds → ∀ d ∈ ds, φ (d, dist2 q d.point)) :
    ∀ (fuel : ℕ) {npq : List (E × ℚ)} {dpq F : List (Datum T × ℚ)},
    knnLoop H q k fuel npq dpq = .ok F →
    (∀ y ∈ dpq, φ y) → ∀ y ∈ F, φ y
  | 0, npq, dpq, F, h => by simp [knnLoop] at h
  | fuel + 1, npq, dpq, F, h => by
    intro hq
    rw [knnLoop] at h
    split at h
    · simp only [Except.ok.injEq] at h
      exact h ▸ hq
    · rename_i p e nd rest hm
      split at h
      · -- |dpq| < k
        split at h
        · -- leaf
          split at h
          · exact absurd h (by simp)
          · rename_i ds hbk
            split at h
            · exact absurd h (by simp)
            · rename_i dpq2 hpb
              exact knnLoop_pres φ hbuck fuel h
                (processBucket_pres φ hpb hq (hbuck e ds hbk))
        · -- internal
          split at h
          · exact absurd h (by simp)
          · exact knnLoop_pres φ hbuck fuel h hq
      · -- |dpq| ≥ k
        split at h
        · exact absurd h (by simp)
        · rename_i p2 dm dd rest2 hmx
          split at h
          · -- dd > nd: proceed
            split at h
            · split at h
              · exact absurd h (by simp)
              · rename_i ds hbk
                split at h
                · exact absurd h (by simp)
                · rename_i dpq2 hpb
                  exact knnLoop_pres φ hbuck fuel h
                    (processBucket_pres φ hpb hq (hbuck e ds hbk))
            · split at h
              · exact absurd h (by simp)
              · exact knnLoop_pres φ hbuck fuel h hq
          · simp only [Except.ok.injEq] at h
            exact h ▸ hq

/-- The datum queue never exceeds `k` elements across the loop. -/
theorem knnLoop_le {E T : Type} {H : Hier E T} {q : Point} {k : ℕ} :
    ∀ (fuel : ℕ) {npq : List (E × ℚ)} {dpq F : List (Datum T × ℚ)},
    knnLoop H q k fuel npq dpq = .ok F →
    dpq.length ≤ k → F.length ≤ k
  | 0, npq, dpq, F, h => by simp [knnLoop] at h
  | fuel + 1, npq, dpq, F, h => by
    intro hle
    rw [knnLoop] at h
    split at h
    · simp only [Except.ok.injEq] at h
      exact h ▸ hle
    · rename_i p e nd rest hm
      split at h
      · split at h
        · split at h
          · exact absurd h (by simp)
          · rename_i ds hbk
            split at h
            · exact absurd h (by simp)
            · rename_i dpq2 hpb
              exact knnLoop_le fuel h (by have := (processBucket_spec hpb hle).1; omega)
        · split at h
          · exact absurd h (by simp)
          · exact knnLoop_le fuel h hle
      · split at h
        · exact absurd h (by simp)
        · rename_i p2 dm dd rest2 hmx
          split at h
          · split at h
            · split at h
              · exact absurd h (by simp)
              · rename_i ds hbk
                split at h
                · exact absurd h (by simp)
                · rename_i dpq2 hpb
                  exact knnLoop_le fuel h (by have := (processBucket_spec hpb hle).1; omega)
            · split at h
              · exact absurd h (by simp)
              · exact knnLoop_le fuel h hle
          · simp only [Except.ok.injEq] at h
            exact h ▸ hle

/-- Once the datum queue is at capacity, any upper bound on its
distances persists through the rest of the loop: candidates are only
ever replaced by closer ones. -/
theorem knnLoop_mono {E T : Type} {H : Hier E T} {q : Point} {k : ℕ} :
    ∀ (fuel : ℕ) {npq : List (E × ℚ)} {dpq F : List (Datum T × ℚ)},
    knnLoop H q k fuel npq dpq = .ok F →
    k ≤ dpq.length → ∀ bound : ℚ,
    (∀ y ∈ dpq, y.2 ≤ bound) → ∀ y ∈ F, y.2 ≤ bound
  | 0, npq, dpq, F, h => by simp [knnLoop] at h
  | fuel + 1, npq, dpq, F, h => by
    intro hge bound hb
    rw [knnLoop] at h
    split at h
    · simp only [Except.ok.injEq] at h
      exact h ▸ hb
    · rename_i p e nd rest hm
      split at h
      · rename_i hlt
        omega
      · split at h
        · exact absurd h (by simp)
        · rename_i p2 dm dd rest2 hmx
          split at h
          · split at h
            · split at h
              · exact absurd h (by simp)
              · rename_i ds hbk
                split at h
                · exact absurd h (by simp)
                · rename_i dpq2 hpb
                  exact knnLoop_mono fuel h
                    (by rw [processBucket_len_ge hpb hge]; exact hge) bound
                    (processBucket_mono hpb hge bound hb)
            · split at h
              · exact absurd h (by simp)
              · exact knnLoop_mono fuel h hge bound hb
          · simp only [Except.ok.injEq] at h
            exact h ▸ hb

/-- The loop cannot fail: with `k ≥ 1`, enough fuel for the total
subtree size on the queue, and a queue of well-formed elements (leaves
have buckets, internal elements have children), every peek/pop is
guarded and the loop terminates with a result. -/
theorem knnLoop_ok {E T : Type} {H : Hier E T} {q : Point} {k : ℕ}
    (G : E → Prop)
    (hleaf : ∀ e, G e → H.isLeaf e = true → (H.bucket e).isSome)
    (hnode : ∀ e, G e → H.isLeaf e = false →
      ∃ c0 c1 c2 c3, H.children e = some (c0, c1, c2, c3) ∧
        G c0 ∧ G c1 ∧ G c2 ∧ G c3)
    (hk : 1 ≤ k) :
    ∀ (fuel : ℕ) (npq : List (E × ℚ)) (dpq : List (Datum T × ℚ)),
    (npq.map (fun p => H.sz p.1)).sum < fuel →
    (∀ p ∈ npq, G p.1) →
    ∃ F, knnLoop H q k fuel npq dpq = .ok F
  | 0, npq, dpq => by
    intro hfuel _
    omega
  | fuel + 1, npq, dpq => by
    intro hfuel hG
    cases hres : knnLoop H q k (fuel + 1) npq dpq with
    | ok F => exact ⟨F, rfl⟩
    | error msg =>
      exfalso
      rw [knnLoop] at hres
      split at hres
      · exact absurd hres (by simp)
      · rename_i p e nd rest hm
        have hperm := extractMin_perm hm
        have hsum : (npq.map (fun p => H.sz p.1)).sum =
            H.sz e + (rest.map (fun p => H.sz p.1)).sum := by
          have := (hperm.map (fun p => H.sz p.1)).sum_eq
          simpa using this
        have hGe : G e := hG (e, nd) (hperm.symm.subset (List.mem_cons_self _ _))
        have hGrest : ∀ p ∈ rest, G p.1 := fun p hp =>
          hG p (hperm.symm.subset (List.mem_cons_of_mem _ hp))
        have hszpos := H.sz_pos e
        split at hres
        · -- |dpq| < k : proceed
          split at hres
          · -- leaf
            rename_i hlf
            split at hres
            · rename_i hbk
              have hs := hleaf e hGe hlf
              rw [Option.isSome_iff_exists] at hs
              obtain ⟨ds, hds⟩ := hs
              rw [hbk] at hds
              exact absurd hds (by simp)
            · rename_i ds hbk
              split at hres
              · rename_i hpb
                obtain ⟨dpq2, hok⟩ := processBucket_ok q hk ds dpq
                rw [hpb] at hok
                exact absurd hok (by simp)
              · rename_i dpq2 hpb
                obtain ⟨F, hF⟩ := knnLoop_ok G hleaf hnode hk fuel rest dpq2
                  (by omega) hGrest
                rw [hres] at hF
                exact absurd hF (by simp)
          · -- internal
            rename_i hlf
            split at hres
            · rename_i hcs
              obtain ⟨c0, c1, c2, c3, hcs2, _⟩ :=
                hnode e hGe (by simpa using hlf)
              rw [hcs] at hcs2
              exact absurd hcs2 (by simp)
            · rename_i c0 c1 c2 c3 hcs
              obtain ⟨c0', c1', c2', c3', hcs2, g0, g1, g2, g3⟩ :=
                hnode e hGe (by simpa using hlf)
              rw [hcs] at hcs2
              simp only [Option.some.injEq, Prod.mk.injEq] at hcs2
              obtain ⟨e0, e1, e2, e3⟩ := hcs2
              subst e0; subst e1; subst e2; subst e3
              have hlt := H.sz_children e _ _ _ _ hcs
              obtain ⟨F, hF⟩ := knnLoop_ok G hleaf hnode hk fuel
                ((c3, dist2Rect q (H.bnds c3)) :: (c2, dist2Rect q (H.bnds c2)) ::
                 (c1, dist2Rect q (H.bnds c1)) :: (c0, dist2Rect q (H.bnds c0)) :: rest)
                dpq
                (by simp only [List.map_cons, List.sum_cons]; omega)
                (by
                  intro p hp
                  rcases List.mem_cons.mp hp with h2 | h2
                  · exact h2 ▸ g3
                  rcases List.mem_cons.mp h2 with h2 | h2
                  · exact h2 ▸ g2
                  rcases List.mem_cons.mp h2 with h2 | h2
                  · exact h2 ▸ g1
                  rcases List.mem_cons.mp h2 with h2 | h2
                  · exact h2 ▸ g0
                  · exact hGrest p h2)
              rw [hres] at hF
              exact absurd hF (by simp)
        · -- |dpq| ≥ k : peek the datum queue first
          rename_i hge
          split at hres
          · rename_i hmx
            have hne : dpq ≠ [] := by
              intro he
              subst he
              simp at hge
              omega
            exact absurd (extractMax_eq_none.mp hmx) hne
          · rename_i p2 dm dd rest2 hmx
            split at hres
            · -- proceed branch (identical to the above)
              split at hres
              · rename_i hlf
                split at hres
                · rename_i hbk
                  have hs := hleaf e hGe hlf
                  rw [Option.isSome_iff_exists] at hs
                  obtain ⟨ds, hds⟩ := hs
                  rw [hbk] at hds
                  exact absurd hds (by simp)
                · rename_i ds hbk
                  split at hres
                  · rename_i hpb
                    obtain ⟨dpq2, hok⟩ := processBucket_ok q hk ds dpq
                    rw [hpb] at hok
                    exact absurd hok (by simp)
                  · rename_i dpq2 hpb
                    obtain ⟨F, hF⟩ := knnLoop_ok G hleaf hnode hk fuel rest dpq2
                      (by omega) hGrest
                    rw [hres] at hF
                    exact absurd hF (by simp)
              · rename_i hlf
                split at hres
                · rename_i hcs
                  obtain ⟨c0, c1, c2, c3, hcs2, _⟩ :=
                    hnode e hGe (by simpa using hlf)
                  rw [hcs] at hcs2
                  exact absurd hcs2 (by simp)
                · rename_i c0 c1 c2 c3 hcs
                  obtain ⟨c0', c1', c2', c3', hcs2, g0, g1, g2, g3⟩ :=
                    hnode e hGe (by simpa using hlf)
                  rw [hcs] at hcs2
                  simp only [Option.some.injEq, Prod.mk.injEq] at hcs2
                  obtain ⟨e0, e1, e2, e3⟩ := hcs2
                  subst e0; subst e1; subst e2; subst e3
                  have hlt := H.sz_children e _ _ _ _ hcs
                  obtain ⟨F, hF⟩ := knnLoop_ok G hleaf hnode hk fuel
                    ((c3, dist2Rect q (H.bnds c3)) :: (c2, dist2Rect q (H.bnds c2)) ::
                     (c1, dist2Rect q (H.bnds c1)) :: (c0, dist2Rect q (H.bnds c0)) :: rest)
                    dpq
                    (by simp only [List.map_cons, List.sum_cons]; omega)
                    (by
                      intro p hp
                      rcases List.mem_cons.mp hp with h2 | h2
                      · exact h2 ▸ g3
                      rcases List.mem_cons.mp h2 with h2 | h2
                      · exact h2 ▸ g2
                      rcases List.mem_cons.mp h2 with h2 | h2
                      · exact h2 ▸ g1
                      rcases List.mem_cons.mp h2 with h2 | h2
                      · exact h2 ▸ g0
                      · exact hGrest p h2)
                  rw [hres] at hF
                  exact absurd hF (by simp)
            · exact absurd hres (by simp)

/-- Main bookkeeping for the loop: on success the result holds
`min k (|dpq| + #data under npq)` entries, and result plus dropped
entries re-partition the initial queue plus all data under the node
queue (each datum paired with its true squared distance). -/
theorem knnLoop_data {E T : Type} {H : Hier E T} {q : Point} {k : ℕ}
    {G : E → Prop} {dataOf : E → List (Datum T)}
    (hleaf : ∀ e, G e → H.isLeaf e = true → H.bucket e = some (dataOf e))
    (hnode : ∀ e, G e → H.isLeaf e = false →
      ∃ c0 c1 c2 c3, H.children e = some (c0, c1, c2, c3) ∧
        G c0 ∧ G c1 ∧ G c2 ∧ G c3 ∧
        dataOf e = dataOf c0 ++ dataOf c1 ++ dataOf c2 ++ dataOf c3) :
    ∀ (fuel : ℕ) {npq : List (E × ℚ)} {dpq F : List (Datum T × ℚ)},
    knnLoop H q k fuel npq dpq = .ok F →
    (∀ p ∈ npq, G p.1) → dpq.length ≤ k →
    F.length = min k (dpq.length + (npq.map (fun p => (dataOf p.1).length)).sum) ∧
    ∃ dropped : Multiset (Datum T × ℚ),
      (F : Multiset (Datum T × ℚ)) + dropped =
        (dpq : Multiset (Datum T × ℚ)) + npqData dataOf q npq
  | 0, npq, dpq, F, h => by simp [knnLoop] at h
  | fuel + 1, npq, dpq, F, h => by
    intro hG hle
    rw [knnLoop] at h
    split at h
    · rename_i hm
      have hnil : npq = [] := extractMin_eq_none.mp hm
      subst hnil
      simp only [Except.ok.injEq] at h
      subst h
      refine ⟨by simp; omega, 0, by simp [npqData_nil]⟩
    · rename_i p e nd rest hm
      have hperm := extractMin_perm hm
      have hGe : G e := hG (e, nd) (hperm.symm.subset (List.mem_cons_self _ _))
      have hGrest : ∀ p2 ∈ rest, G p2.1 := fun p2 hp =>
        hG p2 (hperm.symm.subset (List.mem_cons_of_mem _ hp))
      have hsum : (npq.map (fun p => (dataOf p.1).length)).sum =
          (dataOf e).length + (rest.map (fun p => (dataOf p.1).length)).sum := by
        have := npqLen_perm dataOf hperm
        simpa using this
      have hdata : npqData dataOf q npq =
          ((dataOf e).map (fun d => (d, dist2 q d.point)) : Multiset (Datum T × ℚ)) +
            npqData dataOf q rest := by
        rw [npqData_perm dataOf q hperm, npqData_cons]
      split at h
      · -- |dpq| < k : proceed
        split at h
        · -- leaf branch
          rename_i hlf
          split at h
          · exact absurd h (by simp)
          · rename_i ds hbk
            have hds : ds = dataOf e := by
              have := hleaf e hGe hlf
              rw [hbk] at this
              exact (Option.some.injEq _ _ ▸ this : _)
            subst hds
            split at h
            · exact absurd h (by simp)
            · rename_i dpq2 hpb
              obtain ⟨hlen2, droppedB, heqB, _, _⟩ := processBucket_spec hpb hle
              obtain ⟨hlenF, dropped1, heq1⟩ :=
                knnLoop_data hleaf hnode fuel h hGrest (by omega)
              constructor
              · omega
              · refine ⟨dropped1 + droppedB, ?_⟩
                rw [hdata]
                have := multiset_rearrange heq1 heqB
                rw [this, add_assoc]
        · -- internal branch
          rename_i hlf
          split at h
          · exact absurd h (by simp)
          · rename_i c0 c1 c2 c3 hcs
            obtain ⟨c0', c1', c2', c3', hcs2, g0, g1, g2, g3, hcat⟩ :=
              hnode e hGe (by simpa using hlf)
            rw [hcs] at hcs2
            simp only [Option.some.injEq, Prod.mk.injEq] at hcs2
            obtain ⟨e0, e1, e2, e3⟩ := hcs2
            subst e0; subst e1; subst e2; subst e3
            obtain ⟨hlenF, dropped1, heq1⟩ :=
              knnLoop_data hleaf hnode fuel h
                (by
                  intro p2 hp
                  rcases List.mem_cons.mp hp with h2 | h2
                  · exact h2 ▸ g3
                  rcases List.mem_cons.mp h2 with h2 | h2
                  · exact h2 ▸ g2
                  rcases List.mem_cons.mp h2 with h2 | h2
                  · exact h2 ▸ g1
                  rcases List.mem_cons.mp h2 with h2 | h2
                  · exact h2 ▸ g0
                  · exact hGrest p2 h2)
                hle
            constructor
            · rw [hlenF]
              simp only [List.map_cons, List.sum_cons]
              have : (dataOf e).length =
                  (dataOf c0).length + (dataOf c1).length +
                  (dataOf c2).length + (dataOf c3).length := by
                rw [hcat]; simp only [List.length_append]
              omega
            · refine ⟨dropped1, ?_⟩
              rw [heq1, hdata]
              congr 1
              simp only [npqData_cons]
              have : ((dataOf e).map (fun d => (d, dist2 q d.point)) :
                  Multiset (Datum T × ℚ)) =
                  ((dataOf c0).map (fun d => (d, dist2 q d.point)) : Multiset _) +
                  ((dataOf c1).map (fun d => (d, dist2 q d.point)) : Multiset _) +
                  ((dataOf c2).map (fun d => (d, dist2 q d.point)) : Multiset _) +
                  ((dataOf c3).map (fun d => (d, dist2 q d.point)) : Multiset _) := by
                rw [hcat]
                simp only [List.map_append]
                rfl
              rw [this]
              abel
      · -- |dpq| ≥ k
        rename_i hge
        split at h
        · exact absurd h (by simp)
        · rename_i p2 dm dd rest2 hmx
          split at h
          · -- proceed (same as above)
            split at h
            · rename_i hlf
              split at h
              · exact absurd h (by simp)
              · rename_i ds hbk
                have hds : ds = dataOf e := by
                  have := hleaf e hGe hlf
                  rw [hbk] at this
                  exact (Option.some.injEq _ _ ▸ this : _)
                subst hds
                split at h
                · exact absurd h (by simp)
                · rename_i dpq2 hpb
                  obtain ⟨hlen2, droppedB, heqB, _, _⟩ := processBucket_spec hpb hle
                  obtain ⟨hlenF, dropped1, heq1⟩ :=
                    knnLoop_data hleaf hnode fuel h hGrest (by omega)
                  constructor
                  · omega
                  · refine ⟨dropped1 + droppedB, ?_⟩
                    rw [hdata]
                    have := multiset_rearrange heq1 heqB
                    rw [this, add_assoc]
            · rename_i hlf
              split at h
              · exact absurd h (by simp)
              · rename_i c0 c1 c2 c3 hcs
                obtain ⟨c0', c1', c2', c3', hcs2, g0, g1, g2, g3, hcat⟩ :=
                  hnode e hGe (by simpa using hlf)
                rw [hcs] at hcs2
                simp only [Option.some.injEq, Prod.mk.injEq] at hcs2
                obtain ⟨e0, e1, e2, e3⟩ := hcs2
                subst e0; subst e1; subst e2; subst e3
                obtain ⟨hlenF, dropped1, heq1⟩ :=
                  knnLoop_data hleaf hnode fuel h
                    (by
                      intro p3 hp
                      rcases List.mem_cons.mp hp with h2 | h2
                      · exact h2 ▸ g3
                      rcases List.mem_cons.mp h2 with h2 | h2
                      · exact h2 ▸ g2
                      rcases List.mem_cons.mp h2 with h2 | h2
                      · exact h2 ▸ g1
                      rcases List.mem_cons.mp h2 with h2 | h2
                      · exact h2 ▸ g0
                      · exact hGrest p3 h2)
                    hle
                constructor
                · rw [hlenF]
                  simp only [List.map_cons, List.sum_cons]
                  have : (dataOf e).length =
                      (dataOf c0).length + (dataOf c1).length +
                      (dataOf c2).length + (dataOf c3).length := by
                    rw [hcat]; simp only [List.length_append]
                  omega
                · refine ⟨dropped1, ?_⟩
                  rw [heq1, hdata]
                  congr 1
                  simp only [npqData_cons]
                  have : ((dataOf e).map (fun d => (d, dist2 q d.point)) :
                      Multiset (Datum T × ℚ)) =
                      ((dataOf c0).map (fun d => (d, dist2 q d.point)) : Multiset _) +
                      ((dataOf c1).map (fun d => (d, dist2 q d.point)) : Multiset _) +
                      ((dataOf c2).map (fun d => (d, dist2 q d.point)) : Multiset _) +
                      ((dataOf c3).map (fun d => (d, dist2 q d.point)) : Multiset _) := by
                    rw [hcat]
                    simp only [List.map_append]
                    rfl
                  rw [this]
                  abel
          · -- exit: worst candidate at most as far as closest node
            simp only [Except.ok.injEq] at h
            subst h
            refine ⟨by omega, npqData dataOf q npq, rfl⟩

theorem npqData_mem {E T : Type} {dataOf : E → List (Datum T)} {q : Point} :
    ∀ {npq : List (E × ℚ)} {x : Datum T × ℚ},
    x ∈ npqData dataOf q npq ↔
      ∃ p ∈ npq, ∃ d ∈ dataOf p.1, x = (d, dist2 q d.point) := by
  intro npq
  induction npq with
  | nil => simp [npqData_nil]
  | cons p l ih =>
    intro x
    rw [npqData_cons]
    rw [Multiset.mem_add]
    constructor
    · intro h
      rcases h with h | h
      · rw [Multiset.mem_coe, List.mem_map] at h
        obtain ⟨d, hd, hx⟩ := h
        exact ⟨p, List.mem_cons_self _ _, d, hd, hx.symm⟩
      · obtain ⟨p2, hp2, d, hd, hx⟩ := ih.mp h
        exact ⟨p2, List.mem_cons_of_mem _ hp2, d, hd, hx⟩
    · intro h
      obtain ⟨p2, hp2, d, hd, hx⟩ := h
      rcases List.mem_cons.mp hp2 with h2 | h2
      · subst h2
        exact Or.inl (by rw [Multiset.mem_coe, List.mem_map]; exact ⟨d, hd, hx.symm⟩)
      · exact Or.inr (ih.mpr ⟨p2, h2, d, hd, hx⟩)

/-- Exactness of the browse loop: every entry dropped along the way
(and every datum never examined) is at least as far from the query as
everything retained.  `dropped` is determined by the bookkeeping
equation of `knnLoop_data`. -/
theorem knnLoop_exact {E T : Type} {H : Hier E T} {q : Point} {k : ℕ}
    {G : E → Prop} {dataOf : E → List (Datum T)}
    (hleaf : ∀ e, G e → H.isLeaf e = true → H.bucket e = some (dataOf e))
    (hnode : ∀ e, G e → H.isLeaf e = false →
      ∃ c0 c1 c2 c3, H.children e = some (c0, c1, c2, c3) ∧
        G c0 ∧ G c1 ∧ G c2 ∧ G c3 ∧
        dataOf e = dataOf c0 ++ dataOf c1 ++ dataOf c2 ++ dataOf c3)
    (hlow : ∀ e, G e → ∀ d ∈ dataOf e, dist2Rect q (H.bnds e) ≤ dist2 q d.point) :
    ∀ (fuel : ℕ) {npq : List (E × ℚ)} {dpq F : List (Datum T × ℚ)},
    knnLoop H q k fuel npq dpq = .ok F →
    (∀ p ∈ npq, G p.1) →
    (∀ p ∈ npq, p.2 = dist2Rect q (H.bnds p.1)) →
    dpq.length ≤ k →
    ∀ dropped : Multiset (Datum T × ℚ),
      (F : Multiset (Datum T × ℚ)) + dropped =
        (dpq : Multiset (Datum T × ℚ)) + npqData dataOf q npq →
      ∀ x ∈ dropped, ∀ y ∈ F, y.2 ≤ x.2
  | 0, npq, dpq, F, h => by simp [knnLoop] at h
  | fuel + 1, npq, dpq, F, h => by
    intro hG hnd hle dropped heq x hx y hy
    rw [knnLoop] at h
    split at h
    · rename_i hm
      have hnil : npq = [] := extractMin_eq_none.mp hm
      subst hnil
      simp only [Except.ok.injEq] at h
      subst h
      rw [npqData_nil, add_zero] at heq
      have hzero : dropped = 0 := by
        have h0 : (dpq : Multiset (Datum T × ℚ)) + dropped =
            (dpq : Multiset (Datum T × ℚ)) + 0 := by rw [heq, add_zero]
        exact add_left_cancel h0
      rw [hzero] at hx
      exact absurd hx (by simp)
    · rename_i p e nd rest hm
      have hperm := extractMin_perm hm
      have hGe : G e := hG (e, nd) (hperm.symm.subset (List.mem_cons_self _ _))
      have hGrest : ∀ p2 ∈ rest, G p2.1 := fun p2 hp =>
        hG p2 (hperm.symm.subset (List.mem_cons_of_mem _ hp))
      have hndrest : ∀ p2 ∈ rest, p2.2 = dist2Rect q (H.bnds p2.1) := fun p2 hp =>
        hnd p2 (hperm.symm.subset (List.mem_cons_of_mem _ hp))
      have hdata : npqData dataOf q npq =
          ((dataOf e).map (fun d => (d, dist2 q d.point)) : Multiset (Datum T × ℚ)) +
            npqData dataOf q rest := by
        rw [npqData_perm dataOf q hperm, npqData_cons]
      split at h
      · -- |dpq| < k : proceed
        split at h
        · rename_i hlf
          split at h
          · exact absurd h (by simp)
          · rename_i ds hbk
            have hds : ds = dataOf e := by
              have := hleaf e hGe hlf
              rw [hbk] at this
              exact (Option.some.injEq _ _ ▸ this : _)
            subst hds
            split at h
            · exact absurd h (by simp)
            · rename_i dpq2 hpb
              obtain ⟨hlen2, droppedB, heqB, hdomB, hzB⟩ := processBucket_spec hpb hle
              obtain ⟨hlenF, dropped1, heq1⟩ :=
                knnLoop_data hleaf hnode fuel h hGrest (by omega)
              have hsplit : dropped = dropped1 + droppedB := by
                refine add_left_cancel (a := (F : Multiset (Datum T × ℚ))) ?_
                rw [heq, hdata, multiset_rearrange heq1 heqB, add_assoc]
              rw [hsplit] at hx
              rcases Multiset.mem_add.mp hx with h2 | h2
              · exact knnLoop_exact hleaf hnode hlow fuel h hGrest hndrest
                  (by omega) dropped1 heq1 x h2 y hy
              · rcases hzB with hz | hz
                · rw [hz] at h2
                  exact absurd h2 (by simp)
                · exact knnLoop_mono fuel h (by omega) x.2 (hdomB x h2) y hy
        · rename_i hlf
          split at h
          · exact absurd h (by simp)
          · rename_i c0 c1 c2 c3 hcs
            obtain ⟨c0', c1', c2', c3', hcs2, g0, g1, g2, g3, hcat⟩ :=
              hnode e hGe (by simpa using hlf)
            rw [hcs] at hcs2
            simp only [Option.some.injEq, Prod.mk.injEq] at hcs2
            obtain ⟨e0, e1, e2, e3⟩ := hcs2
            subst e0; subst e1; subst e2; subst e3
            have hGnew : ∀ p2 ∈ (c3, dist2Rect q (H.bnds c3)) ::
                (c2, dist2Rect q (H.bnds c2)) :: (c1, dist2Rect q (H.bnds c1)) ::
                (c0, dist2Rect q (H.bnds c0)) :: rest, G p2.1 := by
              intro p2 hp
              rcases List.mem_cons.mp hp with h2 | h2
              · exact h2 ▸ g3
              rcases List.mem_cons.mp h2 with h2 | h2
              · exact h2 ▸ g2
              rcases List.mem_cons.mp h2 with h2 | h2
              · exact h2 ▸ g1
              rcases List.mem_cons.mp h2 with h2 | h2
              · exact h2 ▸ g0
              · exact hGrest p2 h2
            have hndnew : ∀ p2 ∈ (c3, dist2Rect q (H.bnds c3)) ::
                (c2, dist2Rect q (H.bnds c2)) :: (c1, dist2Rect q (H.bnds c1)) ::
                (c0, dist2Rect q (H.bnds c0)) :: rest,
                p2.2 = dist2Rect q (H.bnds p2.1) := by
              intro p2 hp
              rcases List.mem_cons.mp hp with h2 | h2
              · exact h2 ▸ rfl
              rcases List.mem_cons.mp h2 with h2 | h2
              · exact h2 ▸ rfl
              rcases List.mem_cons.mp h2 with h2 | h2
              · exact h2 ▸ rfl
              rcases List.mem_cons.mp h2 with h2 | h2
              · exact h2 ▸ rfl
              · exact hndrest p2 h2
            have hdata2 : npqData dataOf q ((c3, dist2Rect q (H.bnds c3)) ::
                (c2, dist2Rect q (H.bnds c2)) :: (c1, dist2Rect q (H.bnds c1)) ::
                (c0, dist2Rect q (H.bnds c0)) :: rest) = npqData dataOf q npq := by
              rw [hdata]
              simp only [npqData_cons]
              have hmm : ((dataOf e).map (fun d => (d, dist2 q d.point)) :
                  Multiset (Datum T × ℚ)) =
                  ((dataOf c0).map (fun d => (d, dist2 q d.point)) : Multiset _) +
                  ((dataOf c1).map (fun d => (d, dist2 q d.point)) : Multiset _) +
                  ((dataOf c2).map (fun d => (d, dist2 q d.point)) : Multiset _) +
                  ((dataOf c3).map (fun d => (d, dist2 q d.point)) : Multiset _) := by
                rw [hcat]
                simp only [List.map_append]
                rfl
              rw [hmm]
              abel
            exact knnLoop_exact hleaf hnode hlow fuel h hGnew hndnew hle dropped
              (by rw [heq, hdata2]) x hx y hy
      · -- |dpq| ≥ k
        rename_i hge
        split at h
        · exact absurd h (by simp)
        · rename_i p2 dm dd rest2 hmx
          split at h
          · -- proceed
            rename_i hdd
            split at h
            · rename_i hlf
              split at h
              · exact absurd h (by simp)
              · rename_i ds hbk
                have hds : ds = dataOf e := by
                  have := hleaf e hGe hlf
                  rw [hbk] at this
                  exact (Option.some.injEq _ _ ▸ this : _)
                subst hds
                split at h
                · exact absurd h (by simp)
                · rename_i dpq2 hpb
                  obtain ⟨hlen2, droppedB, heqB, hdomB, hzB⟩ := processBucket_spec hpb hle
                  obtain ⟨hlenF, dropped1, heq1⟩ :=
                    knnLoop_data hleaf hnode fuel h hGrest (by omega)
                  have hsplit : dropped = dropped1 + droppedB := by
                    refine add_left_cancel (a := (F : Multiset (Datum T × ℚ))) ?_
                    rw [heq, hdata, multiset_rearrange heq1 heqB, add_assoc]
                  rw [hsplit] at hx
                  rcases Multiset.mem_add.mp hx with h2 | h2
                  · exact knnLoop_exact hleaf hnode hlow fuel h hGrest hndrest
                      (by omega) dropped1 heq1 x h2 y hy
                  · rcases hzB with hz | hz
                    · rw [hz] at h2
                      exact absurd h2 (by simp)
                    · exact knnLoop_mono fuel h (by omega) x.2 (hdomB x h2) y hy
            · rename_i hlf
              split at h
              · exact absurd h (by simp)
              · rename_i c0 c1 c2 c3 hcs
                obtain ⟨c0', c1', c2', c3', hcs2, g0, g1, g2, g3, hcat⟩ :=
                  hnode e hGe (by simpa using hlf)
                rw [hcs] at hcs2
                simp only [Option.some.injEq, Prod.mk.injEq] at hcs2
                obtain ⟨e0, e1, e2, e3⟩ := hcs2
                subst e0; subst e1; subst e2; subst e3
                have hGnew : ∀ p3 ∈ (c3, dist2Rect q (H.bnds c3)) ::
                    (c2, dist2Rect q (H.bnds c2)) :: (c1, dist2Rect q (H.bnds c1)) ::
                    (c0, dist2Rect q (H.bnds c0)) :: rest, G p3.1 := by
                  intro p3 hp
                  rcases List.mem_cons.mp hp with h2 | h2
                  · exact h2 ▸ g3
                  rcases List.mem_cons.mp h2 with h2 | h2
                  · exact h2 ▸ g2
                  rcases List.mem_cons.mp h2 with h2 | h2
                  · exact h2 ▸ g1
                  rcases List.mem_cons.mp h2 with h2 | h2
                  · exact h2 ▸ g0
                  · exact hGrest p3 h2
                have hndnew : ∀ p3 ∈ (c3, dist2Rect q (H.bnds c3)) ::
                    (c2, dist2Rect q (H.bnds c2)) :: (c1, dist2Rect q (H.bnds c1)) ::
                    (c0, dist2Rect q (H.bnds c0)) :: rest,
                    p3.2 = dist2Rect q (H.bnds p3.1) := by
                  intro p3 hp
                  rcases List.mem_cons.mp hp with h2 | h2
                  · exact h2 ▸ rfl
                  rcases List.mem_cons.mp h2 with h2 | h2
                  · exact h2 ▸ rfl
                  rcases List.mem_cons.mp h2 with h2 | h2
                  · exact h2 ▸ rfl
                  rcases List.mem_cons.mp h2 with h2 | h2
                  · exact h2 ▸ rfl
                  · exact hndrest p3 h2
                have hdata2 : npqData dataOf q ((c3, dist2Rect q (H.bnds c3)) ::
                    (c2, dist2Rect q (H.bnds c2)) :: (c1, dist2Rect q (H.bnds c1)) ::
                    (c0, dist2Rect q (H.bnds c0)) :: rest) = npqData dataOf q npq := by
                  rw [hdata]
                  simp only [npqData_cons]
                  have hmm : ((dataOf e).map (fun d => (d, dist2 q d.point)) :
                      Multiset (Datum T × ℚ)) =
                      ((dataOf c0).map (fun d => (d, dist2 q d.point)) : Multiset _) +
                      ((dataOf c1).map (fun d => (d, dist2 q d.point)) : Multiset _) +
                      ((dataOf c2).map (fun d => (d, dist2 q d.point)) : Multiset _) +
                      ((dataOf c3).map (fun d => (d, dist2 q d.point)) : Multiset _) := by
                    rw [hcat]
                    simp only [List.map_append]
                    rfl
                  rw [hmm]
                  abel
                exact knnLoop_exact hleaf hnode hlow fuel h hGnew hndnew hle dropped
                  (by rw [heq, hdata2]) x hx y hy
          · -- exit: `datum_pq.peek().dist ≤ node_pq.peek().dist`
            rename_i hdd
            simp only [Except.ok.injEq] at h
            subst h
            have hdrop : dropped = npqData dataOf q npq := by
              exact add_left_cancel heq
            rw [hdrop] at hx
            obtain ⟨pe, hpe, d, hd, hxval⟩ := npqData_mem.mp hx
            have hnd2 : pe.2 = dist2Rect q (H.bnds pe.1) := hnd pe hpe
            have hlow2 : dist2Rect q (H.bnds pe.1) ≤ dist2 q d.point :=
              hlow pe.1 (hG pe hpe) d hd
            have hmin : nd ≤ pe.2 := extractMin_isMin hm pe hpe
            have hymax : y.2 ≤ dd := extractMax_isMax hmx y hy
            have hddnd : dd ≤ nd := not_lt.mp hdd
            have hxv : x.2 = dist2 q d.point := by rw [hxval]
            rw [hxv]
            calc y.2 ≤ dd := hymax
              _ ≤ nd := hddnd
              _ ≤ pe.2 := hmin
              _ = dist2Rect q (H.bnds pe.1) := hnd2
              _ ≤ dist2 q d.point := hlow2

/-! ## Instantiating the loop for the quadtree -/
theorem contains_trans {outer inner : Rectangle} {p : Point}
    (h1 : containsR outer inner) (h2 : contains inner p) : contains outer p := by
  obtain ⟨a1, a2, a3, a4⟩ := h1
  obtain ⟨b1, b2, b3, b4⟩ := h2
  exact ⟨le_trans a1 b1, le_trans b2 a2, le_trans a3 b3, le_trans b4 a4⟩

theorem Covers_subData {T : Type} {lv : List (List (Datum T))} :
    ∀ {n : QNode}, Covers lv n →
    ∀ d ∈ n.subData lv, contains n.bounds d.point
  | .leaf _ _ b _ r, hc, d, hd => hc d hd
  | .node _ _ b _ r c0 c1 c2 c3, hc, d, hd => by
    obtain ⟨s0, s1, s2, s3, v0, v1, v2, v3⟩ := hc
    simp only [QNode.subData, List.mem_append] at hd
    rcases hd with ((h | h) | h) | h
    · exact contains_trans s0 (Covers_subData v0 d h)
    · exact contains_trans s1 (Covers_subData v1 d h)
    · exact contains_trans s2 (Covers_subData v2 d h)
    · exact contains_trans s3 (Covers_subData v3 d h)

/-- All leaf buckets built by `insert` satisfy any property that holds
of the old buckets and the inserted data. -/
theorem insert_leaves_prop {T : Type} (P : Datum T → Prop) :
    ∀ (fuel : ℕ) {depth code : ℕ} {b : Rectangle} {lv : List (List (Datum T))}
      {data : List (Datum T)} {n : QNode} {lv' : List (List (Datum T))},
    insert fuel depth code b lv data = some (n, lv') →
    (∀ bk ∈ lv, ∀ d ∈ bk, P d) → (∀ d ∈ data, P d) →
    ∀ bk ∈ lv', ∀ d ∈ bk, P d
  | 0, _, _, _, _, _, _, _, h => by simp [insert] at h
  | fuel + 1, depth, code, b, lv, data, n, lv', h => by
    intro hlv hdata
    rw [insert] at h
    by_cases hlen : data.length ≤ LEAF_CAPACITY
    · rw [if_pos hlen] at h
      simp only [Option.some.injEq, Prod.mk.injEq] at h
      obtain ⟨_, hl⟩ := h
      subst hl
      intro bk hbk
      rcases List.mem_append.mp hbk with h2 | h2
      · exact hlv bk h2
      · have : bk = data := by simpa using h2
        exact this ▸ hdata
    · rw [if_neg hlen] at h
      split at h
      · exact absurd h (by simp)
      · rename_i c0 lv0 h0
        split at h
        · exact absurd h (by simp)
        · rename_i c1 lv1 h1
          split at h
          · exact absurd h (by simp)
          · rename_i c2 lv2 h2
            split at h
            · exact absurd h (by simp)
            · rename_i c3 lv3 h3
              simp only [Option.some.injEq, Prod.mk.injEq] at h
              obtain ⟨_, hl⟩ := h
              subst hl
              have hf : ∀ (i : ℕ), ∀ d ∈ data.filter
                  (fun d => get_quadrant (midpoint b) d.point == i), P d :=
                fun i d hd => hdata d (List.mem_filter.mp hd).1
              exact insert_leaves_prop P fuel h3
                (insert_leaves_prop P fuel h2
                  (insert_leaves_prop P fuel h1
                    (insert_leaves_prop P fuel h0 hlv (hf 0)) (hf 1)) (hf 2)) (hf 3)

theorem qt_hleaf {T : Type} (t : Quadtree T) :
    ∀ n, QGood t n → t.hier.isLeaf n = true →
    t.hier.bucket n = some (n.subData t.leaves) := by
  intro n hg hl
  obtain ⟨hw, _⟩ := hg
  cases n with
  | leaf d c b ctr r =>
    simp only [WF] at hw
    show t.leaves[(QNode.leaf d c b ctr r).leaf_range.start]? = _
    simp only [QNode.leaf_range, QNode.subData]
    have hlt : r.start < t.leaves.length := by omega
    rw [List.getElem?_eq_getElem hlt]
    simp
  | node d c b ctr r c0 c1 c2 c3 =>
    have := WF_node_is_leaf_false hw
    rw [show t.hier.isLeaf = QNode.is_leaf from rfl] at hl
    rw [this] at hl
    exact absurd hl (by simp)

theorem qt_hnode {T : Type} (t : Quadtree T) :
    ∀ n, QGood t n → t.hier.isLeaf n = false →
    ∃ c0 c1 c2 c3, t.hier.children n = some (c0, c1, c2, c3) ∧
      QGood t c0 ∧ QGood t c1 ∧ QGood t c2 ∧ QGood t c3 ∧
      n.subData t.leaves =
        c0.subData t.leaves ++ c1.subData t.leaves ++
        c2.subData t.leaves ++ c3.subData t.leaves := by
  intro n hg hl
  obtain ⟨hw, hc⟩ := hg
  cases n with
  | leaf d c b ctr r =>
    simp only [WF] at hw
    rw [show t.hier.isLeaf = QNode.is_leaf from rfl] at hl
    simp only [QNode.is_leaf, QNode.leaf_range] at hl
    rw [hw.1] at hl
    simp at hl
  | node d c b ctr r c0 c1 c2 c3 =>
    simp only [WF] at hw
    simp only [Covers] at hc
    exact ⟨c0, c1, c2, c3, rfl,
      ⟨hw.2.2.2.2.2.1, hc.2.2.2.2.1⟩,
      ⟨hw.2.2.2.2.2.2.1, hc.2.2.2.2.2.1⟩,
      ⟨hw.2.2.2.2.2.2.2.1, hc.2.2.2.2.2.2.1⟩,
      ⟨hw.2.2.2.2.2.2.2.2, hc.2.2.2.2.2.2.2⟩, rfl⟩

theorem qt_hlow {T : Type} (t : Quadtree T) (q : Point) :
    ∀ n, QGood t n → ∀ d ∈ n.subData t.leaves,
    dist2Rect q (t.hier.bnds n) ≤ dist2 q d.point := by
  intro n hg d hd
  exact dist2Rect_le_dist2 (Covers_subData hg.2 d hd) q

/-! ## Build-level facts for the quadtree -/
theorem build_spec {T : Type} {x0 x1 y0 y1 : ℚ} {f : T → Point}
    {raw : List T} {fuel : ℕ} {t : Quadtree T}
    (hb : Quadtree.build x0 x1 y0 y1 f raw fuel = some t) :
    WF t.leaves.length t.root ∧
    ((t.root.subData t.leaves : Multiset (Datum T)) =
      (datumize f raw : Multiset (Datum T))) ∧
    t.root.bounds = ctorBounds x0 x1 y0 y1 := by
  unfold Quadtree.build at hb
  cases hi : insert fuel 0 0 (ctorBounds x0 x1 y0 y1) [] (datumize f raw) with
  | none => rw [hi] at hb; exact absurd hb (by simp)
  | some p =>
    obtain ⟨n, lv⟩ := p
    rw [hi] at hb
    simp only [Option.map_some', Option.some.injEq] at hb
    obtain ⟨hw, hd, hbnd⟩ := (insert_spec fuel hi).2.2.2.2
    subst hb
    exact ⟨hd, hbnd, hw⟩

theorem build_covers {T : Type} {x0 x1 y0 y1 : ℚ} {f : T → Point}
    {raw : List T} {fuel : ℕ} {t : Quadtree T}
    (hb : Quadtree.build x0 x1 y0 y1 f raw fuel = some t)
    (hx : x0 ≤ x1) (hy : y0 ≤ y1)
    (hin : ∀ r ∈ raw, contains ⟨x0, x1, y0, y1⟩ (f r)) :
    Covers t.leaves t.root := by
  unfold Quadtree.build at hb
  cases hi : insert fuel 0 0 (ctorBounds x0 x1 y0 y1) [] (datumize f raw) with
  | none => rw [hi] at hb; exact absurd hb (by simp)
  | some p =>
    obtain ⟨n, lv⟩ := p
    rw [hi] at hb
    simp only [Option.map_some', Option.some.injEq] at hb
    subst hb
    refine insert_covers fuel hi ?_ ?_ ?_
    · show x0 ≤ x1 + 1/100
      linarith
    · show y0 ≤ y1 + 1/100
      linarith
    · intro d hd
      unfold datumize at hd
      rw [List.mem_map] at hd
      obtain ⟨r, hr, hdr⟩ := hd
      obtain ⟨a1, a2, a3, a4⟩ := hin r hr
      subst hdr
      exact ⟨a1, by simp only [ctorBounds]; simp; linarith,
        a3, by simp only [ctorBounds]; simp; linarith⟩

/-- Every leaf bucket of a built quadtree consists of datumized
records: the stored point is the projection of the stored record. -/
theorem build_buckets {T : Type} {x0 x1 y0 y1 : ℚ} {f : T → Point}
    {raw : List T} {fuel : ℕ} {t : Quadtree T}
    (hb : Quadtree.build x0 x1 y0 y1 f raw fuel = some t) :
    ∀ bk ∈ t.leaves, ∀ d ∈ bk, d.point = f d.data := by
  unfold Quadtree.build at hb
  cases hi : insert fuel 0 0 (ctorBounds x0 x1 y0 y1) [] (datumize f raw) with
  | none => rw [hi] at hb; exact absurd hb (by simp)
  | some p =>
    obtain ⟨n, lv⟩ := p
    rw [hi] at hb
    simp only [Option.map_some', Option.some.injEq] at hb
    subst hb
    refine insert_leaves_prop (fun d => d.point = f d.data) fuel hi (by simp) ?_
    intro d hd
    unfold datumize at hd
    rw [List.mem_map] at hd
    obtain ⟨r, _, hdr⟩ := hd
    rw [← hdr]

/-- Bridge facts with the weaker per-element invariant `WF` only (no
geometry): enough for termination, counting and data bookkeeping. -/
theorem qtW_hleaf {T : Type} (t : Quadtree T) :
    ∀ n, WF t.leaves.length n → t.hier.isLeaf n = true →
    t.hier.bucket n = some (n.subData t.leaves) := by
  intro n hw hl
  cases n with
  | leaf d c b ctr r =>
    simp only [WF] at hw
    show t.leaves[(QNode.leaf d c b ctr r).leaf_range.start]? = _
    simp only [QNode.leaf_range, QNode.subData]
    have hlt : r.start < t.leaves.length := by omega
    rw [List.getElem?_eq_getElem hlt]
    simp
  | node d c b ctr r c0 c1 c2 c3 =>
    have := WF_node_is_leaf_false hw
    rw [show t.hier.isLeaf = QNode.is_leaf from rfl] at hl
    rw [this] at hl
    exact absurd hl (by simp)

theorem qtW_hnode {T : Type} (t : Quadtree T) :
    ∀ n, WF t.leaves.length n → t.hier.isLeaf n = false →
    ∃ c0 c1 c2 c3, t.hier.children n = some (c0, c1, c2, c3) ∧
      WF t.leaves.length c0 ∧ WF t.leaves.length c1 ∧
      WF t.leaves.length c2 ∧ WF t.leaves.length c3 ∧
      n.subData t.leaves =
        c0.subData t.leaves ++ c1.subData t.leaves ++
        c2.subData t.leaves ++ c3.subData t.leaves := by
  intro n hw hl
  cases n with
  | leaf d c b ctr r =>
    simp only [WF] at hw
    rw [show t.hier.isLeaf = QNode.is_leaf from rfl] at hl
    simp only [QNode.is_leaf, QNode.leaf_range] at hl
    rw [hw.1] at hl
    simp at hl
  | node d c b ctr r c0 c1 c2 c3 =>
    simp only [WF] at hw
    exact ⟨c0, c1, c2, c3, rfl, hw.2.2.2.2.2.1, hw.2.2.2.2.2.2.1,
      hw.2.2.2.2.2.2.2.1, hw.2.2.2.2.2.2.2.2, rfl⟩

theorem WF_ranges_ok :
    ∀ {n : QNode} {L : ℕ}, WF L n → ranges_ok n = true
  | .leaf _ _ _ _ _, _, _ => rfl
  | .node _ _ _ _ r c0 c1 c2 c3, L, h => by
    simp only [WF] at h
    obtain ⟨h1, h2, h3, h4, h5, w0, w1, w2, w3⟩ := h
    simp only [ranges_ok, Bool.and_eq_true, beq_iff_eq]
    exact ⟨⟨⟨⟨⟨⟨⟨⟨h1, h2⟩, h3⟩, h4⟩, h5⟩, WF_ranges_ok w0⟩, WF_ranges_ok w1⟩,
      WF_ranges_ok w2⟩, WF_ranges_ok w3⟩

theorem WF_descendants :
    ∀ {n : QNode} {L : ℕ}, WF L n → ∀ m ∈ n.descendants, WF L m
  | .leaf _ _ _ _ _, _, h => by
    intro m hm
    simp only [QNode.descendants, List.mem_singleton] at hm
    subst hm
    exact h
  | .node _ _ _ _ _ c0 c1 c2 c3, L, h => by
    intro m hm
    simp only [WF] at h
    obtain ⟨h1, h2, h3, h4, h5, w0, w1, w2, w3⟩ := h
    simp only [QNode.descendants, List.mem_cons, List.mem_append] at hm
    rcases hm with hm | (((hm | hm) | hm) | hm)
    · subst hm
      simp only [WF]
      exact ⟨h1, h2, h3, h4, h5, w0, w1, w2, w3⟩
    · exact WF_descendants w0 m hm
    · exact WF_descendants w1 m hm
    · exact WF_descendants w2 m hm
    · exact WF_descendants w3 m hm

/-- Contiguity of leaf ranges throughout a built quadtree: an internal
node starts at its first child's start, stops at its last child's stop,
and consecutive children cover adjacent ranges. -/
theorem quadtree_contiguity {T : Type} {x0 x1 y0 y1 : ℚ} {f : T → Point}
    {raw : List T} {fuel : ℕ} {t : Quadtree T}
    (hb : Quadtree.build x0 x1 y0 y1 f raw fuel = some t) :
    ∀ n ∈ t.root.descendants, ∀ c0 c1 c2 c3,
      n.children = some (c0, c1, c2, c3) →
      n.leaf_range.start = c0.leaf_range.start ∧
      c0.leaf_range.stop + 1 = c1.leaf_range.start ∧
      c1.leaf_range.stop + 1 = c2.leaf_range.start ∧
      c2.leaf_range.stop + 1 = c3.leaf_range.start ∧
      n.leaf_range.stop = c3.leaf_range.stop := by
  obtain ⟨hw, _, _⟩ := build_spec hb
  intro n hn c0 c1 c2 c3 hc
  have hwn := WF_descendants hw n hn
  cases n with
  | leaf d c b ctr r => simp [QNode.children] at hc
  | node d c b ctr r d0 d1 d2 d3 =>
    simp only [QNode.children, Option.some.injEq, Prod.mk.injEq] at hc
    obtain ⟨e0, e1, e2, e3⟩ := hc
    subst e0
    subst e1
    subst e2
    subst e3
    simp only [WF] at hwn
    obtain ⟨h1, h2, h3, h4, h5, _⟩ := hwn
    exact ⟨h1, h2, h3, h4, h5⟩

/-- Helper converting `Except.toOption` back. -/
theorem except_eq_ok_of_toOption {ε α : Type} {e : Except ε α} {v : α}
    (h : e.toOption = some v) : e = .ok v := by
  cases e with
  | ok a => simpa [Except.toOption] using h
  | error msg => simp [Except.toOption] at h

/-- `query_knn` succeeds on every built quadtree when `k ≥ 1`: every
peek and pop in the loop is guarded (the body of claim C10 for the
quadtree). -/
theorem quadtree_knn_ok {T : Type} {x0 x1 y0 y1 : ℚ} {f : T → Point}
    {raw : List T} {fuel : ℕ} {t : Quadtree T}
    (hb : Quadtree.build x0 x1 y0 y1 f raw fuel = some t)
    {k : ℕ} (hk : 1 ≤ k) (x y : ℚ) :
    ∃ res, t.query_knn k x y = .ok res := by
  obtain ⟨hw, _, _⟩ := build_spec hb
  obtain ⟨F, hF⟩ := knnLoop_ok (fun n => WF t.leaves.length n)
    (fun e hg hl => by rw [qtW_hleaf t e hg hl]; simp)
    (fun e hg hl => by
      obtain ⟨c0, c1, c2, c3, hcs, g0, g1, g2, g3, _⟩ := qtW_hnode t e hg hl
      exact ⟨c0, c1, c2, c3, hcs, g0, g1, g2, g3⟩)
    hk (t.root.size + 1)
    [(t.root, dist2Rect ⟨x, y⟩ t.root.bounds)] []
    (by simp [Quadtree.hier])
    (by intro p hp; rcases List.mem_singleton.mp hp with h; exact h ▸ hw)
  exact ⟨(drain F).map (fun p => p.1.data), by
    unfold Quadtree.query_knn
    rw [hF]
    rfl⟩

/-- The result of `query_knn` never exceeds `k` records. -/
theorem quadtree_knn_le {T : Type} {t : Quadtree T} {k : ℕ} {x y : ℚ}
    {res : List T} (hq : t.query_knn k x y = .ok res) : res.length ≤ k := by
  unfold Quadtree.query_knn at hq
  cases hF : knnLoop t.hier ⟨x, y⟩ k (t.root.size + 1)
      [(t.root, dist2Rect ⟨x, y⟩ t.root.bounds)] [] with
  | error msg => rw [hF] at hq; exact absurd hq (by simp [Except.map])
  | ok F =>
    rw [hF] at hq
    simp only [Except.map, Except.ok.injEq] at hq
    subst hq
    have hlen := knnLoop_le (t.root.size + 1) hF (by simp)
    rw [List.length_map]
    calc (drain F).length = F.length := (drain_perm F).length_eq
      _ ≤ k := hlen

/-- If the index holds fewer than `k` records, the query returns all of
them. -/
theorem quadtree_knn_all {T : Type} {x0 x1 y0 y1 : ℚ} {f : T → Point}
    {raw : List T} {fuel : ℕ} {t : Quadtree T}
    (hb : Quadtree.build x0 x1 y0 y1 f raw fuel = some t)
    {k : ℕ} {x y : ℚ} {res : List T}
    (hq : t.query_knn k x y = .ok res) (hn : raw.length < k) :
    (res : Multiset T) = (raw : Multiset T) := by
  obtain ⟨hw, hdat, _⟩ := build_spec hb
  unfold Quadtree.query_knn at hq
  cases hF : knnLoop t.hier ⟨x, y⟩ k (t.root.size + 1)
      [(t.root, dist2Rect ⟨x, y⟩ t.root.bounds)] [] with
  | error msg => rw [hF] at hq; exact absurd hq (by simp [Except.map])
  | ok F =>
    rw [hF] at hq
    simp only [Except.map, Except.ok.injEq] at hq
    subst hq
    obtain ⟨hlen, dropped, heq⟩ := knnLoop_data (qtW_hleaf t) (qtW_hnode t)
      (t.root.size + 1) hF
      (by intro p hp; rcases List.mem_singleton.mp hp with h; exact h ▸ hw)
      (by simp)
    have hS : (t.root.subData t.leaves).length = raw.length := by
      have := congrArg Multiset.card hdat
      simpa [datumize] using this
    have hlen2 : F.length = raw.length := by
      simp only [List.map_cons, List.sum_cons, List.map_nil, List.sum_nil] at hlen
      show F.length = raw.length
      rw [hlen]
      show min k (0 + (t.root.subData t.leaves).length) = raw.length
      rw [hS]
      omega
    have hnpq : npqData (fun n => n.subData t.leaves) ⟨x, y⟩
        [(t.root, dist2Rect ⟨x, y⟩ t.root.bounds)] =
        (((t.root.subData t.leaves).map
          (fun d => (d, dist2 ⟨x, y⟩ d.point)) : List (Datum T × ℚ)) :
          Multiset (Datum T × ℚ)) := by
      rw [npqData_cons, npqData_nil, add_zero]
    rw [hnpq] at heq
    have hcard : Multiset.card ((F : Multiset (Datum T × ℚ)) + dropped) =
        raw.length := by
      rw [heq]
      simp [hS]
    have hdz : dropped = 0 := by
      rw [Multiset.card_add] at hcard
      have : Multiset.card (F : Multiset (Datum T × ℚ)) = F.length := by simp
      rw [this, hlen2] at hcard
      have : Multiset.card dropped = 0 := by omega
      exact Multiset.card_eq_zero.mp this
    rw [hdz, add_zero] at heq
    have hcoe : (((drain F).map (fun p => p.1.data) : List T) : Multiset T) =
        Multiset.map (fun p => p.1.data) (F : Multiset (Datum T × ℚ)) := by
      have hperm : ((drain F : List (Datum T × ℚ)) : Multiset (Datum T × ℚ)) =
          (F : Multiset (Datum T × ℚ)) := Multiset.coe_eq_coe.mpr (drain_perm F)
      rw [← hperm]
      simp
    have hproj : (((t.root.subData t.leaves).map (fun d => d.data) : List T) :
        Multiset T) = (raw : Multiset T) := by
      have h2 := congrArg (Multiset.map (fun d : Datum T => d.data)) hdat
      rw [Multiset.map_coe, Multiset.map_coe] at h2
      rw [h2]
      have : (datumize f raw).map (fun d => d.data) = raw := by
        simp only [datumize, List.map_map]
        exact List.map_id' raw
      rw [this]
    rw [hcoe, heq]
    have hz : ((([] : List (Datum T × ℚ))) : Multiset (Datum T × ℚ)) = 0 := rfl
    rw [hz, zero_add, Multiset.map_coe, List.map_map]
    have hcomp : ((fun p : Datum T × ℚ => p.1.data) ∘
        (fun d : Datum T => (d, dist2 ⟨x, y⟩ d.point))) =
        (fun d : Datum T => d.data) := rfl
    rw [hcomp]
    exact hproj

/-- Results come out of the drain phase ordered farthest first. -/
theorem quadtree_knn_sorted {T : Type} {x0 x1 y0 y1 : ℚ} {f : T → Point}
    {raw : List T} {fuel : ℕ} {t : Quadtree T}
    (hb : Quadtree.build x0 x1 y0 y1 f raw fuel = some t)
    {k : ℕ} {x y : ℚ} {res : List T}
    (hq : t.query_knn k x y = .ok res) :
    res.Pairwise (fun a b =>
      Real.sqrt ((dist2 ⟨x, y⟩ (f b) : ℚ) : ℝ) ≤
      Real.sqrt ((dist2 ⟨x, y⟩ (f a) : ℚ) : ℝ)) := by
  unfold Quadtree.query_knn at hq
  cases hF : knnLoop t.hier ⟨x, y⟩ k (t.root.size + 1)
      [(t.root, dist2Rect ⟨x, y⟩ t.root.bounds)] [] with
  | error msg => rw [hF] at hq; exact absurd hq (by simp [Except.map])
  | ok F =>
    rw [hF] at hq
    simp only [Except.map, Except.ok.injEq] at hq
    subst hq
    have hφ : ∀ p ∈ F, p.2 = dist2 ⟨x, y⟩ p.1.point ∧ p.1.point = f p.1.data := by
      refine knnLoop_pres _ ?_ (t.root.size + 1) hF (by simp)
      intro e ds hds d hd
      refine ⟨rfl, ?_⟩
      have hmem : ds ∈ t.leaves := by
        have : t.leaves[e.leaf_range.start]? = some ds := hds
        exact List.getElem?_mem this
      exact build_buckets hb ds hmem d hd
    rw [List.pairwise_map]
    have hsorted := drain_sorted F
    refine hsorted.imp_of_mem ?_
    intro a b ha hb2 hle
    have hfa := hφ a ((drain_perm F).subset ha)
    have hfb := hφ b ((drain_perm F).subset hb2)
    apply sqrt_le_sqrt_of_le
    rw [← hfb.2, ← hfb.1, ← hfa.2, ← hfa.1]
    exact hle

/-- Exactness of the quadtree k-NN query: the result is `min k n`
records drawn from the stored records, and every returned record is at
least as close to the query point as every record left out. -/
theorem quadtree_knn_exact {T : Type} {x0 x1 y0 y1 : ℚ} {f : T → Point}
    {raw : List T} {fuel : ℕ} {t : Quadtree T}
    (hb : Quadtree.build x0 x1 y0 y1 f raw fuel = some t)
    (hx : x0 ≤ x1) (hy : y0 ≤ y1)
    (hin : ∀ r ∈ raw, contains ⟨x0, x1, y0, y1⟩ (f r))
    {k : ℕ} {x y : ℚ} {res : List T}
    (hq : t.query_knn k x y = .ok res) :
    res.length = min k raw.length ∧
    ∃ rest : Multiset T,
      (raw : Multiset T) = (res : Multiset T) + rest ∧
      ∀ a ∈ res, ∀ b ∈ rest,
        Real.sqrt ((dist2 ⟨x, y⟩ (f a) : ℚ) : ℝ) ≤
        Real.sqrt ((dist2 ⟨x, y⟩ (f b) : ℚ) : ℝ) := by
  obtain ⟨hw, hdat, _⟩ := build_spec hb
  have hcov := build_covers hb hx hy hin
  have hg0 : QGood t t.root := ⟨hw, hcov⟩
  unfold Quadtree.query_knn at hq
  cases hF : knnLoop t.hier ⟨x, y⟩ k (t.root.size + 1)
      [(t.root, dist2Rect ⟨x, y⟩ t.root.bounds)] [] with
  | error msg => rw [hF] at hq; exact absurd hq (by simp [Except.map])
  | ok F =>
    rw [hF] at hq
    simp only [Except.map, Except.ok.injEq] at hq
    subst hq
    obtain ⟨hlen, dropped, heq⟩ := knnLoop_data (qt_hleaf t) (qt_hnode t)
      (t.root.size + 1) hF
      (by intro p hp; rcases List.mem_singleton.mp hp with h; exact h ▸ hg0)
      (by simp)
    have hdom := knnLoop_exact (qt_hleaf t) (qt_hnode t) (qt_hlow t ⟨x, y⟩)
      (t.root.size + 1) hF
      (by intro p hp; rcases List.mem_singleton.mp hp with h; exact h ▸ hg0)
      (by intro p hp; rcases List.mem_singleton.mp hp with h; subst h; rfl)
      (by simp) dropped heq
    have hnpq : npqData (fun n => n.subData t.leaves) ⟨x, y⟩
        [(t.root, dist2Rect ⟨x, y⟩ t.root.bounds)] =
        (((t.root.subData t.leaves).map
          (fun d => (d, dist2 ⟨x, y⟩ d.point)) : List (Datum T × ℚ)) :
          Multiset (Datum T × ℚ)) := by
      rw [npqData_cons, npqData_nil, add_zero]
    rw [hnpq] at heq
    rw [show ((([] : List (Datum T × ℚ))) : Multiset (Datum T × ℚ)) = 0
      from rfl, zero_add] at heq
    have hpairs : ∀ p : Datum T × ℚ,
        p ∈ (F : Multiset (Datum T × ℚ)) + dropped →
        p.1 ∈ t.root.subData t.leaves ∧
        p.2 = dist2 ⟨x, y⟩ p.1.point := by
      intro p hp
      rw [heq, Multiset.mem_coe, List.mem_map] at hp
      obtain ⟨d, hd, hpd⟩ := hp
      subst hpd
      exact ⟨hd, rfl⟩
    have hpt : ∀ d ∈ t.root.subData t.leaves, d.point = f d.data := by
      intro d hd
      have hmem : d ∈ ((datumize f raw : List (Datum T)) :
          Multiset (Datum T)) := by
        rw [← hdat]
        exact Multiset.mem_coe.mpr hd
      rw [Multiset.mem_coe] at hmem
      unfold datumize at hmem
      rw [List.mem_map] at hmem
      obtain ⟨r, _, hdr⟩ := hmem
      rw [← hdr]
    have hS : (t.root.subData t.leaves).length = raw.length := by
      have := congrArg Multiset.card hdat
      simpa [datumize] using this
    have hcomp : ((fun p : Datum T × ℚ => p.1.data) ∘
        (fun d : Datum T => (d, dist2 ⟨x, y⟩ d.point))) =
        (fun d : Datum T => d.data) := rfl
    constructor
    · rw [List.length_map, (drain_perm F).length_eq, hlen]
      simp only [List.length_nil, List.map_cons, List.map_nil,
        List.sum_cons, List.sum_nil, zero_add, add_zero]
      rw [hS]
    refine ⟨Multiset.map (fun p : Datum T × ℚ => p.1.data) dropped, ?_, ?_⟩
    · have hcoe : (((drain F).map (fun p => p.1.data) : List T) :
          Multiset T) =
          Multiset.map (fun p => p.1.data) (F : Multiset (Datum T × ℚ)) := by
        have hperm : ((drain F : List (Datum T × ℚ)) :
            Multiset (Datum T × ℚ)) = (F : Multiset (Datum T × ℚ)) :=
          Multiset.coe_eq_coe.mpr (drain_perm F)
        rw [← hperm]
        simp
      have hproj : (((t.root.subData t.leaves).map (fun d => d.data) :
          List T) : Multiset T) = (raw : Multiset T) := by
        have h2 := congrArg (Multiset.map (fun d : Datum T => d.data)) hdat
        rw [Multiset.map_coe, Multiset.map_coe] at h2
        rw [h2]
        have hid : (datumize f raw).map (fun d => d.data) = raw := by
          simp only [datumize, List.map_map]
          exact List.map_id' raw
        rw [hid]
      have hR : Multiset.map (fun p : Datum T × ℚ => p.1.data)
          (((t.root.subData t.leaves).map
            (fun d => (d, dist2 ⟨x, y⟩ d.point)) : List (Datum T × ℚ)) :
            Multiset (Datum T × ℚ)) = (raw : Multiset T) := by
        rw [Multiset.map_coe, List.map_map, hcomp]
        exact hproj
      have h3 := congrArg
        (Multiset.map (fun p : Datum T × ℚ => p.1.data)) heq
      rw [Multiset.map_add, hR] at h3
      rw [hcoe]
      exact h3.symm
    · intro a ha b hbm
      rw [List.mem_map] at ha
      obtain ⟨p, hpF, hpa⟩ := ha
      have hpF2 : p ∈ F := (drain_perm F).subset hpF
      rw [Multiset.mem_map] at hbm
      obtain ⟨pd, hpd, hpb⟩ := hbm
      have hord : p.2 ≤ pd.2 := hdom pd hpd p hpF2
      obtain ⟨hp1, hp2⟩ := hpairs p
        (Multiset.mem_add.mpr (Or.inl (Multiset.mem_coe.mpr hpF2)))
      obtain ⟨hd1, hd2⟩ := hpairs pd (Multiset.mem_add.mpr (Or.inr hpd))
      have ha2 : dist2 ⟨x, y⟩ (f a) = p.2 := by
        rw [← hpa, ← hpt p.1 hp1]
        exact hp2.symm
      have hb2 : dist2 ⟨x, y⟩ (f b) = pd.2 := by
        rw [← hpb, ← hpt pd.1 hd1]
        exact hd2.symm
      rw [ha2, hb2]
      exact sqrt_le_sqrt_of_le hord

/-- The `Quadtree` constructor performs no validation: for every domain
bounds, inverted or not, construction and build succeed (one level
suffices for at most `LEAF_CAPACITY` records) and the stored root
bounds are the nudged input bounds. -/
theorem quadtree_accepts_any_bounds {T : Type} (x0 x1 y0 y1 : ℚ)
    (f : T → Point) (raw : List T) (h : raw.length ≤ LEAF_CAPACITY) :
    ∃ t : Quadtree T, Quadtree.build x0 x1 y0 y1 f raw 1 = some t ∧
      t.root.bounds = ctorBounds x0 x1 y0 y1 := by
  have hl : (datumize f raw).length ≤ LEAF_CAPACITY := by
    simpa [datumize] using h
  refine ⟨⟨QNode.leaf 0 0 (ctorBounds x0 x1 y0 y1)
      (midpoint (ctorBounds x0 x1 y0 y1)) ⟨0, 0⟩, [datumize f raw]⟩, ?_, rfl⟩
  unfold Quadtree.build
  rw [insert, if_pos hl]
  rfl

/-- Inverted bounds (`x0 > x1` and `y0 > y1`) are accepted rather than
rejected: the build succeeds and the resulting index answers queries. -/
theorem quadtree_inverted_bounds_usable :
    (Quadtree.build (1 : ℚ) 0 1 0 (fun _ => Point.mk 0 0) [()] 1).map
      (fun t => (t.query_knn 1 0 0).toOption) = some (some [()]) := by decide!

/-- If more than `LEAF_CAPACITY` data all project to one and the same
point, the insertion recursion never reaches a leaf: every quadrant
split sends the whole bucket into a single child, so `insert` fails for
every fuel (the C++ recursion does not terminate). -/
theorem insert_allsame_none {T : Type} {p : Point} :
    ∀ (fuel depth code : ℕ) (b : Rectangle)
      (lv : List (List (Datum T))) (data : List (Datum T)),
    (∀ d ∈ data, d.point = p) → LEAF_CAPACITY < data.length →
    insert fuel depth code b lv data = none := by
  intro fuel
  induction fuel with
  | zero => intro depth code b lv data _ _; rfl
  | succ fuel IH =>
    intro depth code b lv data hall hlen
    have hq : ∀ d ∈ data, get_quadrant (midpoint b) d.point =
        get_quadrant (midpoint b) p := by
      intro d hd
      rw [hall d hd]
    have hfull : ∀ j, get_quadrant (midpoint b) p = j →
        data.filter
          (fun d => get_quadrant (midpoint b) d.point == j) = data := by
      intro j hj
      rw [List.filter_eq_self]
      intro d hd
      simp only [beq_iff_eq]
      rw [hq d hd, hj]
    cases hI : insert (fuel + 1) depth code b lv data with
    | none => rfl
    | some r =>
      exfalso
      rw [insert, if_neg (by omega)] at hI
      split at hI
      · exact absurd hI (by simp)
      case _ c0 lv0 hc0 =>
      split at hI
      · exact absurd hI (by simp)
      case _ c1 lv1 hc1 =>
      split at hI
      · exact absurd hI (by simp)
      case _ c2 lv2 hc2 =>
      split at hI
      · exact absurd hI (by simp)
      case _ c3 lv3 hc3 =>
      have h4 := get_quadrant_lt (midpoint b) p
      rcases hgq : get_quadrant (midpoint b) p with _ | _ | _ | _ | i5
      · rw [hfull 0 hgq] at hc0
        rw [IH _ _ _ _ _ hall hlen] at hc0
        exact absurd hc0 (by simp)
      · rw [hfull 1 hgq] at hc1
        rw [IH _ _ _ _ _ hall hlen] at hc1
        exact absurd hc1 (by simp)
      · rw [hfull 2 hgq] at hc2
        rw [IH _ _ _ _ _ hall hlen] at hc2
        exact absurd hc2 (by simp)
      · rw [hfull 3 hgq] at hc3
        rw [IH _ _ _ _ _ hall hlen] at hc3
        exact absurd hc3 (by simp)
      · rw [hgq] at h4
        omega

/-- Seventeen records on one and the same point make `Quadtree::build`
diverge: no recursion budget suffices. -/
theorem quadtree_build_diverges :
    ∀ fuel : ℕ, Quadtree.build (0 : ℚ) 1 0 1 (fun _ => Point.mk 0 0)
      (List.replicate 17 ()) fuel = none := by
  intro fuel
  unfold Quadtree.build
  rw [insert_allsame_none (p := Point.mk 0 0) fuel 0 0 _ _ _ ?_ ?_]
  · rfl
  · intro d hd
    simp only [datumize, List.mem_map] at hd
    obtain ⟨r, _, hdr⟩ := hd
    rw [← hdr]
  · simp [datumize, LEAF_CAPACITY]

/-- Every child rectangle spans exactly half of its parent in each
coordinate. -/
theorem childBounds_span (b : Rectangle) (j : ℕ) :
    (childBounds b (midpoint b) j).xmax - (childBounds b (midpoint b) j).xmin =
      (b.xmax - b.xmin) / 2 ∧
    (childBounds b (midpoint b) j).ymax - (childBounds b (midpoint b) j).ymin =
      (b.ymax - b.ymin) / 2 := by
  match j with
  | 0 => exact ⟨by simp only [childBounds, midpoint]; ring,
      by simp only [childBounds, midpoint]; ring⟩
  | 1 => exact ⟨by simp only [childBounds, midpoint]; ring,
      by simp only [childBounds, midpoint]; ring⟩
  | 2 => exact ⟨by simp only [childBounds, midpoint]; ring,
      by simp only [childBounds, midpoint]; ring⟩
  | (m + 3) => exact ⟨by simp only [childBounds, midpoint]; ring,
      by simp only [childBounds, midpoint]; ring⟩

/-- Amended termination statement: with proper bounds, in-bounds data,
per-point multiplicity at most `LEAF_CAPACITY`, and distinct points
separated by at least `δ` in some coordinate, the insertion recursion
terminates once the recursion budget halves the cell spans below `δ`. -/
theorem insert_terminates {T : Type} {δ : ℚ} :
    ∀ (fuel depth code : ℕ) (b : Rectangle) (lv : List (List (Datum T)))
      (data : List (Datum T)),
    b.xmin ≤ b.xmax → b.ymin ≤ b.ymax →
    (∀ d ∈ data, contains b d.point) →
    (∀ d ∈ data, ∀ e ∈ data, d.point ≠ e.point →
      δ ≤ |d.point.x - e.point.x| ∨ δ ≤ |d.point.y - e.point.y|) →
    (∀ q : Point, data.countP (fun d => decide (d.point = q)) ≤ LEAF_CAPACITY) →
    b.xmax - b.xmin < δ * 2 ^ fuel → b.ymax - b.ymin < δ * 2 ^ fuel →
    (insert (fuel + 1) depth code b lv data).isSome = true := by
  intro fuel
  induction fuel with
  | zero =>
    intro depth code b lv data hbx hby hin hsep hmult hw hh
    simp only [pow_zero, mul_one] at hw hh
    have hlen : data.length ≤ LEAF_CAPACITY := by
      cases hd : data with
      | nil => simp [hd, LEAF_CAPACITY]
      | cons d0 rest =>
        have hd0 : d0 ∈ data := by
          rw [hd]
          exact List.mem_cons_self _ _
        have hall : ∀ e ∈ data, e.point = d0.point := by
          intro e he
          by_contra hne
          rcases hsep e he d0 hd0 hne with h | h
          · obtain ⟨e1, e2, _, _⟩ := hin e he
            obtain ⟨f1, f2, _, _⟩ := hin d0 hd0
            have habs : |e.point.x - d0.point.x| ≤ b.xmax - b.xmin :=
              abs_sub_le_iff.mpr ⟨by linarith, by linarith⟩
            linarith
          · obtain ⟨_, _, e3, e4⟩ := hin e he
            obtain ⟨_, _, f3, f4⟩ := hin d0 hd0
            have habs : |e.point.y - d0.point.y| ≤ b.ymax - b.ymin :=
              abs_sub_le_iff.mpr ⟨by linarith, by linarith⟩
            linarith
        have hcnt : data.countP (fun d => decide (d.point = d0.point)) =
            data.length :=
          List.countP_eq_length.mpr (by
            intro a ha
            simpa using hall a ha)
        have := hmult d0.point
        have hdl : data.length = (d0 :: rest).length := by rw [hd]
        omega
    rw [insert, if_pos hlen]
    rfl
  | succ fuel IH =>
    intro depth code b lv data hbx hby hin hsep hmult hw hh
    by_cases hlen : data.length ≤ LEAF_CAPACITY
    · rw [insert, if_pos hlen]
      rfl
    · have hchild : ∀ (j : ℕ) (lv2 : List (List (Datum T))),
          (insert (fuel + 1) (depth + 1) (4 * code + j)
            (childBounds b (midpoint b) j) lv2
            (data.filter
              (fun d => get_quadrant (midpoint b) d.point == j))).isSome =
          true := by
        intro j lv2
        apply IH
        · exact (childBounds_proper hbx hby j).1
        · exact (childBounds_proper hbx hby j).2
        · intro d hd
          obtain ⟨hdd, hqd⟩ := List.mem_filter.mp hd
          exact quadrant_contains (hin d hdd) (by simpa using hqd)
        · intro d hd e he hne
          exact hsep d (List.mem_of_mem_filter hd) e
            (List.mem_of_mem_filter he) hne
        · intro q
          exact le_trans
            ((List.filter_sublist data).countP_le _) (hmult q)
        · rw [(childBounds_span b j).1]
          rw [pow_succ] at hw
          linarith
        · rw [(childBounds_span b j).2]
          rw [pow_succ] at hh
          linarith
      cases hI : insert (fuel + 1 + 1) depth code b lv data with
      | some r => rfl
      | none =>
        exfalso
        rw [insert, if_neg hlen] at hI
        split at hI
        case _ hc0 =>
          have := hchild 0 lv
          rw [hc0] at this
          exact absurd this (by simp)
        case _ c0 lv0 hc0 =>
        split at hI
        case _ hc1 =>
          have := hchild 1 lv0
          rw [hc1] at this
          exact absurd this (by simp)
        case _ c1 lv1 hc1 =>
        split at hI
        case _ hc2 =>
          have := hchild 2 lv1
          rw [hc2] at this
          exact absurd this (by simp)
        case _ c2 lv2 hc2 =>
        split at hI
        case _ hc3 =>
          have := hchild 3 lv2
          rw [hc3] at this
          exact absurd this (by simp)
        case _ c3 lv3 hc3 =>
        exact absurd hI (by simp)

theorem ZOk_mono : ∀ {n : ZNode} {L L' : ℕ}, L ≤ L' → ZOk L n → ZOk L' n
  | .leaf _ _ _ _, L, L', h, hok => by
    simp only [ZOk] at hok ⊢
    omega
  | .node _ _ _ _ c0 c1 c2 c3, L, L', h, hok => by
    simp only [ZOk] at hok ⊢
    exact ⟨ZOk_mono h hok.1, ZOk_mono h hok.2.1,
      ZOk_mono h hok.2.2.1, ZOk_mono h hok.2.2.2⟩

/-- Leaf codes of `populate r code _ _` lie below `(code + 1) * 4^r`. -/
theorem populate_zok : ∀ (r code depth : ℕ) (b : Rectangle),
    ZOk ((code + 1) * 4 ^ r) (populate r code depth b)
  | 0, code, depth, b => by
    simp only [populate, ZOk, pow_zero, mul_one]
    omega
  | r + 1, code, depth, b => by
    have h4 : ∀ i : ℕ, i ≤ 4 →
        (4 * code + i) * 4 ^ r ≤ (code + 1) * 4 ^ (r + 1) := by
      intro i hi
      rw [pow_succ]
      calc (4 * code + i) * 4 ^ r ≤ (4 * (code + 1)) * 4 ^ r :=
            Nat.mul_le_mul_right _ (by omega)
        _ = (code + 1) * (4 ^ r * 4) := by ring
    simp only [populate, ZOk]
    exact ⟨ZOk_mono (h4 1 (by omega)) (populate_zok r (4 * code) (depth + 1) _),
      ZOk_mono (h4 2 (by omega)) (populate_zok r (4 * code + 1) (depth + 1) _),
      ZOk_mono (h4 3 (by omega)) (populate_zok r (4 * code + 2) (depth + 1) _),
      ZOk_mono (h4 4 (by omega)) (populate_zok r (4 * code + 3) (depth + 1) _)⟩

/-- The subtree of `populate r code _ _` reads exactly the grid slice
of `4^r` buckets starting at `code * 4^r`. -/
theorem populate_subData {T : Type} (grid : List (List (Datum T))) :
    ∀ (r code depth : ℕ) (b : Rectangle),
    (populate r code depth b).subData grid =
      ((grid.drop (code * 4 ^ r)).take (4 ^ r)).flatten := by
  intro r
  induction r with
  | zero =>
    intro code depth b
    simp only [populate, ZNode.subData, pow_zero, mul_one]
    cases hlt : decide (code < grid.length) with
    | true =>
      have hc := of_decide_eq_true hlt
      rw [List.getD_eq_getElem?_getD, List.getElem?_eq_getElem hc]
      rw [List.take_one_drop_eq_of_lt_length hc]
      simp
    | false =>
      have hc := of_decide_eq_false hlt
      rw [List.drop_eq_nil_of_le (by omega)]
      rw [List.getD_eq_getElem?_getD, List.getElem?_eq_none (by omega)]
      simp
  | succ r IH =>
    intro code depth b
    simp only [populate, ZNode.subData]
    rw [IH, IH, IH, IH]
    have hsplit : ∀ (a n m : ℕ),
        ((grid.drop a).take n).flatten ++ ((grid.drop (a + n)).take m).flatten =
          ((grid.drop a).take (n + m)).flatten := by
      intro a n m
      rw [List.take_add, List.flatten_append, List.drop_drop]
    have e0 : 4 * code * 4 ^ r = code * 4 ^ (r + 1) := by ring
    have e1 : (4 * code + 1) * 4 ^ r = code * 4 ^ (r + 1) + 4 ^ r := by ring
    have e2 : (4 * code + 2) * 4 ^ r =
        code * 4 ^ (r + 1) + (4 ^ r + 4 ^ r) := by ring
    have e3 : (4 * code + 3) * 4 ^ r =
        code * 4 ^ (r + 1) + (4 ^ r + 4 ^ r + 4 ^ r) := by ring
    rw [e0, e1, e2, e3]
    rw [hsplit, hsplit, hsplit]
    congr 1
    rw [pow_succ]
    ring_nf

/-- Appending to a bucket in place adds one element to the flattened
grid, as a multiset. -/
theorem flatten_set_append {α : Type} :
    ∀ (grid : List (List α)) (i : ℕ), i < grid.length → ∀ (d : α),
    (((grid.set i (grid.getD i [] ++ [d])).flatten : List α) : Multiset α) =
      ((grid.flatten : List α) : Multiset α) + {d}
  | [], i, h, d => by simp at h
  | g :: gs, 0, h, d => by
    simp only [List.set, List.getD_cons_zero, List.flatten_cons]
    simp only [← Multiset.coe_add]
    rw [Multiset.coe_singleton]
    abel
  | g :: gs, i + 1, h, d => by
    simp only [List.set, List.getD_cons_succ, List.flatten_cons]
    simp only [← Multiset.coe_add]
    rw [flatten_set_append gs i (by simpa using h) d]
    abel

/-- The binning loop preserves the grid's length and adds exactly the
binned data to the flattened grid. -/
theorem zgrid_bin_go_data {T : Type} (b : Rectangle) (r : ℕ) :
    ∀ (data : List (Datum T)) (grid grid' : List (List (Datum T))),
    zgrid_bin_go b r data grid = .ok grid' →
    grid'.length = grid.length ∧
    ((grid'.flatten : List (Datum T)) : Multiset (Datum T)) =
      ((grid.flatten : List (Datum T)) : Multiset (Datum T)) +
        (data : Multiset (Datum T))
  | [], grid, grid', h => by
    simp only [zgrid_bin_go, Except.ok.injEq] at h
    subst h
    simp
  | d :: rest, grid, grid', h => by
    rw [zgrid_bin_go] at h
    split at h
    case _ hc =>
      obtain ⟨hl, hm⟩ := zgrid_bin_go_data b r rest _ _ h
      refine ⟨by rw [hl, List.length_set], ?_⟩
      rw [hm, flatten_set_append grid _ hc d]
      have : ((d :: rest : List (Datum T)) : Multiset (Datum T)) =
          {d} + (rest : Multiset (Datum T)) := by
        simp only [← Multiset.cons_coe, ← Multiset.singleton_add]
      rw [this]
      abel
    case _ hc => exact absurd h (by simp)

/-- Buckets only ever grow during binning. -/
theorem zgrid_bin_go_grows {T : Type} (b : Rectangle) (r : ℕ) :
    ∀ (data : List (Datum T)) (grid grid' : List (List (Datum T))),
    zgrid_bin_go b r data grid = .ok grid' →
    ∀ i : ℕ, ∃ ext, grid'.getD i [] = grid.getD i [] ++ ext
  | [], grid, grid', h => by
    simp only [zgrid_bin_go, Except.ok.injEq] at h
    subst h
    intro i
    exact ⟨[], by simp⟩
  | d :: rest, grid, grid', h => by
    rw [zgrid_bin_go] at h
    split at h
    case _ hc =>
      intro i
      obtain ⟨ext, hext⟩ := zgrid_bin_go_grows b r rest _ _ h i
      by_cases hi : i = zorder_hash b d.point r
      · subst hi
        refine ⟨[d] ++ ext, ?_⟩
        rw [hext, List.getD_eq_getElem?_getD,
          List.getElem?_set_self (by omega), Option.getD_some,
          List.append_assoc]
      · refine ⟨ext, ?_⟩
        rw [hext, List.getD_eq_getElem?_getD,
          List.getElem?_set_ne (by omega), ← List.getD_eq_getElem?_getD]
    case _ hc => exact absurd h (by simp)

/-- Every binned datum's Z-order code is in range, and the datum ends
up in the bucket of that code. -/
theorem zgrid_bin_go_mem {T : Type} (b : Rectangle) (r : ℕ) :
    ∀ (data : List (Datum T)) (grid grid' : List (List (Datum T))),
    zgrid_bin_go b r data grid = .ok grid' →
    ∀ d ∈ data, zorder_hash b d.point r < grid.length ∧
      d ∈ grid'.getD (zorder_hash b d.point r) []
  | [], grid, grid', h => by
    intro d hd
    exact absurd hd (by simp)
  | d :: rest, grid, grid', h => by
    rw [zgrid_bin_go] at h
    split at h
    case _ hc =>
      intro e he
      rcases List.mem_cons.mp he with he | he
      · subst he
        refine ⟨hc, ?_⟩
        obtain ⟨ext, hext⟩ :=
          zgrid_bin_go_grows b r rest _ _ h (zorder_hash b e.point r)
        rw [hext, List.getD_eq_getElem?_getD,
          List.getElem?_set_self (by omega), Option.getD_some]
        simp
      · obtain ⟨h1, h2⟩ := zgrid_bin_go_mem b r rest _ _ h e he
        rw [List.length_set] at h1
        exact ⟨h1, h2⟩
    case _ hc => exact absurd h (by simp)

/-- Hierarchy bridge for the grid: a leaf's bucket is defined exactly
when its code is in range, and is then its `subData`. -/
theorem zg_hleaf {T : Type} (z : Zgrid T) :
    ∀ n, ZOk z.grid.length n → z.hier.isLeaf n = true →
    z.hier.bucket n = some (n.subData z.grid) := by
  intro n hok hl
  cases n with
  | node c d b ctr d0 d1 d2 d3 =>
    exact absurd hl (by simp [Zgrid.hier, ZNode.is_leaf])
  | leaf c d b ctr =>
    simp only [ZOk] at hok
    show z.grid[(ZNode.leaf c d b ctr).code]? = _
    simp only [ZNode.code, ZNode.subData]
    rw [List.getElem?_eq_getElem hok, List.getD_eq_getElem?_getD,
      List.getElem?_eq_getElem hok]
    rfl

theorem zg_hnode {T : Type} (z : Zgrid T) :
    ∀ n, ZOk z.grid.length n → z.hier.isLeaf n = false →
    ∃ c0 c1 c2 c3, z.hier.children n = some (c0, c1, c2, c3) ∧
      ZOk z.grid.length c0 ∧ ZOk z.grid.length c1 ∧
      ZOk z.grid.length c2 ∧ ZOk z.grid.length c3 ∧
      n.subData z.grid =
        c0.subData z.grid ++ c1.subData z.grid ++
        c2.subData z.grid ++ c3.subData z.grid := by
  intro n hok hl
  cases n with
  | leaf c d b ctr => exact absurd hl (by simp [Zgrid.hier, ZNode.is_leaf])
  | node c d b ctr d0 d1 d2 d3 =>
    simp only [ZOk] at hok
    exact ⟨d0, d1, d2, d3, rfl, hok.1, hok.2.1, hok.2.2.1, hok.2.2.2, rfl⟩

/-- Facts about a successfully built `Zgrid`: grid shape, root
well-formedness, root data coverage, and binned buckets. -/
theorem zbuild_spec {T : Type} {x0 x1 y0 y1 : ℚ} {f : T → Point}
    {raw : List T} {r : ℕ} {z : Zgrid T}
    (hb : Zgrid.build x0 x1 y0 y1 f raw r = .ok z) :
    z.grid.length = 4 ^ r ∧
    z.root = populate r 0 0 (ctorBounds x0 x1 y0 y1) ∧
    ZOk z.grid.length z.root ∧
    ((z.root.subData z.grid : List (Datum T)) : Multiset (Datum T)) =
      ((datumize f raw : List (Datum T)) : Multiset (Datum T)) := by
  unfold Zgrid.build at hb
  cases hg : zgrid_bin_go (ctorBounds x0 x1 y0 y1) r (datumize f raw)
      (List.replicate (4 ^ r) []) with
  | error msg => rw [hg] at hb; exact absurd hb (by simp [Except.map])
  | ok grid =>
    rw [hg] at hb
    simp only [Except.map, Except.ok.injEq] at hb
    obtain ⟨hlen, hmul⟩ := zgrid_bin_go_data _ _ _ _ _ hg
    rw [List.length_replicate] at hlen
    subst hb
    refine ⟨hlen, rfl, ?_, ?_⟩
    · show ZOk grid.length (populate r 0 0 (ctorBounds x0 x1 y0 y1))
      rw [hlen]
      have := populate_zok r 0 0 (ctorBounds x0 x1 y0 y1)
      simpa using this
    · show ((ZNode.subData grid (populate r 0 0 _) : List (Datum T)) :
          Multiset (Datum T)) = _
      rw [populate_subData]
      simp only [Nat.zero_mul, List.drop_zero]
      rw [List.take_of_length_le (by omega)]
      rw [hmul]
      simp

/-- `Zgrid::query_knn` succeeds on every built grid when `k ≥ 1`:
every peek and pop in the loop is guarded. -/
theorem zgrid_knn_ok {T : Type} {x0 x1 y0 y1 : ℚ} {f : T → Point}
    {raw : List T} {r : ℕ} {z : Zgrid T}
    (hb : Zgrid.build x0 x1 y0 y1 f raw r = .ok z)
    {k : ℕ} (hk : 1 ≤ k) (x y : ℚ) :
    ∃ res, z.query_knn k x y = .ok res := by
  obtain ⟨_, _, hok, _⟩ := zbuild_spec hb
  obtain ⟨F, hF⟩ := knnLoop_ok (fun n => ZOk z.grid.length n)
    (fun e hg hl => by rw [zg_hleaf z e hg hl]; simp)
    (fun e hg hl => by
      obtain ⟨c0, c1, c2, c3, hcs, g0, g1, g2, g3, _⟩ := zg_hnode z e hg hl
      exact ⟨c0, c1, c2, c3, hcs, g0, g1, g2, g3⟩)
    hk (z.root.size + 1)
    [(z.root, dist2Rect ⟨x, y⟩ z.root.bounds)] []
    (by simp [Zgrid.hier])
    (by intro p hp; rcases List.mem_singleton.mp hp with h; exact h ▸ hok)
  exact ⟨(drain F).map (fun p => p.1.data), by
    unfold Zgrid.query_knn
    rw [hF]
    rfl⟩

/-- The result of `Zgrid::query_knn` never exceeds `k` records. -/
theorem zgrid_knn_le {T : Type} {z : Zgrid T} {k : ℕ} {x y : ℚ}
    {res : List T} (hq : z.query_knn k x y = .ok res) : res.length ≤ k := by
  unfold Zgrid.query_knn at hq
  cases hF : knnLoop z.hier ⟨x, y⟩ k (z.root.size + 1)
      [(z.root, dist2Rect ⟨x, y⟩ z.root.bounds)] [] with
  | error msg => rw [hF] at hq; exact absurd hq (by simp [Except.map])
  | ok F =>
    rw [hF] at hq
    simp only [Except.map, Except.ok.injEq] at hq
    subst hq
    have hlen := knnLoop_le (z.root.size + 1) hF (by simp)
    rw [List.length_map]
    calc (drain F).length = F.length := (drain_perm F).length_eq
      _ ≤ k := hlen

/-- If the grid holds fewer than `k` records, the query returns all of
them. -/
theorem zgrid_knn_all {T : Type} {x0 x1 y0 y1 : ℚ} {f : T → Point}
    {raw : List T} {r : ℕ} {z : Zgrid T}
    (hb : Zgrid.build x0 x1 y0 y1 f raw r = .ok z)
    {k : ℕ} {x y : ℚ} {res : List T}
    (hq : z.query_knn k x y = .ok res) (hn : raw.length < k) :
    (res : Multiset T) = (raw : Multiset T) := by
  obtain ⟨_, _, hok, hdat⟩ := zbuild_spec hb
  unfold Zgrid.query_knn at hq
  cases hF : knnLoop z.hier ⟨x, y⟩ k (z.root.size + 1)
      [(z.root, dist2Rect ⟨x, y⟩ z.root.bounds)] [] with
  | error msg => rw [hF] at hq; exact absurd hq (by simp [Except.map])
  | ok F =>
    rw [hF] at hq
    simp only [Except.map, Except.ok.injEq] at hq
    subst hq
    obtain ⟨hlen, dropped, heq⟩ := knnLoop_data (zg_hleaf z) (zg_hnode z)
      (z.root.size + 1) hF
      (by intro p hp; rcases List.mem_singleton.mp hp with h; exact h ▸ hok)
      (by simp)
    have hS : (z.root.subData z.grid).length = raw.length := by
      have := congrArg Multiset.card hdat
      simpa [datumize] using this
    have hlen2 : F.length = raw.length := by
      simp only [List.map_cons, List.sum_cons, List.map_nil,
        List.sum_nil] at hlen
      show F.length = raw.length
      rw [hlen]
      show min k (0 + (z.root.subData z.grid).length) = raw.length
      rw [hS]
      omega
    have hnpq : npqData (fun n => n.subData z.grid) ⟨x, y⟩
        [(z.root, dist2Rect ⟨x, y⟩ z.root.bounds)] =
        (((z.root.subData z.grid).map
          (fun d => (d, dist2 ⟨x, y⟩ d.point)) : List (Datum T × ℚ)) :
          Multiset (Datum T × ℚ)) := by
      rw [npqData_cons, npqData_nil, add_zero]
    rw [hnpq] at heq
    have hcard : Multiset.card ((F : Multiset (Datum T × ℚ)) + dropped) =
        raw.length := by
      rw [heq]
      simp [hS]
    have hdz : dropped = 0 := by
      rw [Multiset.card_add] at hcard
      have : Multiset.card (F : Multiset (Datum T × ℚ)) = F.length := by simp
      rw [this, hlen2] at hcard
      have : Multiset.card dropped = 0 := by omega
      exact Multiset.card_eq_zero.mp this
    rw [hdz, add_zero] at heq
    have hcoe : (((drain F).map (fun p => p.1.data) : List T) : Multiset T) =
        Multiset.map (fun p => p.1.data) (F : Multiset (Datum T × ℚ)) := by
      have hperm : ((drain F : List (Datum T × ℚ)) : Multiset (Datum T × ℚ)) =
          (F : Multiset (Datum T × ℚ)) := Multiset.coe_eq_coe.mpr (drain_perm F)
      rw [← hperm]
      simp
    have hproj : (((z.root.subData z.grid).map (fun d => d.data) : List T) :
        Multiset T) = (raw : Multiset T) := by
      have h2 := congrArg (Multiset.map (fun d : Datum T => d.data)) hdat
      rw [Multiset.map_coe, Multiset.map_coe] at h2
      rw [h2]
      have : (datumize f raw).map (fun d => d.data) = raw := by
        simp only [datumize, List.map_map]
        exact List.map_id' raw
      rw [this]
    rw [hcoe, heq]
    have hz : ((([] : List (Datum T × ℚ))) : Multiset (Datum T × ℚ)) = 0 := rfl
    rw [hz, zero_add, Multiset.map_coe, List.map_map]
    have hcomp : ((fun p : Datum T × ℚ => p.1.data) ∘
        (fun d : Datum T => (d, dist2 ⟨x, y⟩ d.point))) =
        (fun d : Datum T => d.data) := rfl
    rw [hcomp]
    exact hproj

/-- Every bucket datum of a built grid is a datumized record. -/
theorem zbuild_buckets {T : Type} {x0 x1 y0 y1 : ℚ} {f : T → Point}
    {raw : List T} {r : ℕ} {z : Zgrid T}
    (hb : Zgrid.build x0 x1 y0 y1 f raw r = .ok z) :
    ∀ bk ∈ z.grid, ∀ d ∈ bk, d.point = f d.data := by
  unfold Zgrid.build at hb
  cases hg : zgrid_bin_go (ctorBounds x0 x1 y0 y1) r (datumize f raw)
      (List.replicate (4 ^ r) []) with
  | error msg => rw [hg] at hb; exact absurd hb (by simp [Except.map])
  | ok grid =>
    rw [hg] at hb
    simp only [Except.map, Except.ok.injEq] at hb
    obtain ⟨hlen, hmul⟩ := zgrid_bin_go_data _ _ _ _ _ hg
    subst hb
    intro bk hbk d hd
    have hdj : d ∈ grid.flatten := by
      rw [List.mem_flatten]
      exact ⟨bk, hbk, hd⟩
    have : d ∈ ((grid.flatten : List (Datum T)) : Multiset (Datum T)) :=
      Multiset.mem_coe.mpr hdj
    rw [hmul] at this
    simp only [List.flatten_replicate_nil] at this
    rcases Multiset.mem_add.mp this with h2 | h2
    · exact absurd (Multiset.mem_coe.mp h2) (by simp)
    · have := Multiset.mem_coe.mp h2
      unfold datumize at this
      rw [List.mem_map] at this
      obtain ⟨a, _, ha⟩ := this
      rw [← ha]

/-- The sequence returned by `Zgrid::query_knn` comes out of the drain
phase ordered farthest first. -/
theorem zgrid_knn_sorted {T : Type} {x0 x1 y0 y1 : ℚ} {f : T → Point}
    {raw : List T} {r : ℕ} {z : Zgrid T}
    (hb : Zgrid.build x0 x1 y0 y1 f raw r = .ok z)
    {k : ℕ} {x y : ℚ} {res : List T}
    (hq : z.query_knn k x y = .ok res) :
    res.Pairwise (fun a b =>
      Real.sqrt ((dist2 ⟨x, y⟩ (f b) : ℚ) : ℝ) ≤
      Real.sqrt ((dist2 ⟨x, y⟩ (f a) : ℚ) : ℝ)) := by
  unfold Zgrid.query_knn at hq
  cases hF : knnLoop z.hier ⟨x, y⟩ k (z.root.size + 1)
      [(z.root, dist2Rect ⟨x, y⟩ z.root.bounds)] [] with
  | error msg => rw [hF] at hq; exact absurd hq (by simp [Except.map])
  | ok F =>
    rw [hF] at hq
    simp only [Except.map, Except.ok.injEq] at hq
    subst hq
    have hφ : ∀ p ∈ F, p.2 = dist2 ⟨x, y⟩ p.1.point ∧
        p.1.point = f p.1.data := by
      refine knnLoop_pres _ ?_ (z.root.size + 1) hF (by simp)
      intro e ds hds d hd
      refine ⟨rfl, ?_⟩
      have hmem : ds ∈ z.grid := by
        have : z.grid[e.code]? = some ds := hds
        exact List.getElem?_mem this
      exact zbuild_buckets hb ds hmem d hd
    rw [List.pairwise_map]
    have hsorted := drain_sorted F
    refine hsorted.imp_of_mem ?_
    intro a b ha hb2 hle
    have hfa := hφ a ((drain_perm F).subset ha)
    have hfb := hφ b ((drain_perm F).subset hb2)
    apply sqrt_le_sqrt_of_le
    rw [← hfb.2, ← hfb.1, ← hfa.2, ← hfa.1]
    exact hle

/-- What actually happens to every record of a built grid: its Z-order
code is computed by `zorder_hash` without clamping, the build only
succeeds because every such code happens to lie in `[0, 4^r)`, and the
record is stored in the bucket of exactly that code. -/
theorem zgrid_stores_at_computed_code {T : Type} {x0 x1 y0 y1 : ℚ}
    {f : T → Point} {raw : List T} {r : ℕ} {z : Zgrid T}
    (hb : Zgrid.build x0 x1 y0 y1 f raw r = .ok z) :
    ∀ t ∈ raw, zorder_hash z.bounds (f t) r < 4 ^ r ∧
      (⟨t, f t⟩ : Datum T) ∈
        z.grid.getD (zorder_hash z.bounds (f t) r) [] := by
  unfold Zgrid.build at hb
  cases hg : zgrid_bin_go (ctorBounds x0 x1 y0 y1) r (datumize f raw)
      (List.replicate (4 ^ r) []) with
  | error msg => rw [hg] at hb; exact absurd hb (by simp [Except.map])
  | ok grid =>
    rw [hg] at hb
    simp only [Except.map, Except.ok.injEq] at hb
    subst hb
    intro t ht
    have hd : (⟨t, f t⟩ : Datum T) ∈ datumize f raw := by
      unfold datumize
      rw [List.mem_map]
      exact ⟨t, ht, rfl⟩
    have := zgrid_bin_go_mem _ _ _ _ _ hg _ hd
    rw [List.length_replicate] at this
    exact this

/-- A record outside the configured domain is not clamped: with bounds
`[0,1]²` at resolution 1 the point `(10, 0)` hashes to cell `(19, 0)`,
Z-order code `261`, far outside the 4 available buckets, and the build
fails instead of storing it. -/
theorem zgrid_no_clamping :
    zorder_hash (ctorBounds 0 1 0 1) (Point.mk 10 0) 1 = 261 ∧
    ((Zgrid.build (0 : ℚ) 1 0 1
      (fun _ => Point.mk 10 0) [()] 1).toOption).isNone = true := by decide!

theorem spreadN_zero : ∀ f, spreadN f 0 = 0
  | 0 => rfl
  | f + 1 => by simp [spreadN, spreadN_zero f]

theorem spreadN_split : ∀ (f g x : ℕ),
    spreadN (f + g) x = spreadN f x + 4 ^ f * spreadN g (x / 2 ^ f)
  | 0, g, x => by simp [spreadN, Nat.zero_add]
  | f + 1, g, x => by
    rw [show f + 1 + g = f + g + 1 by omega]
    rw [spreadN, spreadN_split f g (x / 2)]
    rw [show x / 2 / 2 ^ f = x / 2 ^ (f + 1) by
      rw [Nat.div_div_eq_div_mul, pow_succ, mul_comm 2 (2 ^ f)]]
    rw [spreadN]
    ring

theorem bit_eq (m s : ℕ) (hs : s < 2) : Nat.bit (s == 1) m = 2 * m + s := by
  rw [Nat.bit_val]
  interval_cases s <;> rfl

/-- `|||` acts chunkwise: the low `k` bits and the rest combine
independently. -/
theorem lor_chunk : ∀ (k a b c d : ℕ), b < 2 ^ k → d < 2 ^ k →
    (2 ^ k * a + b) ||| (2 ^ k * c + d) = 2 ^ k * (a ||| c) + (b ||| d)
  | 0, a, b, c, d, hb, hd => by
    interval_cases b <;> interval_cases d <;> simp
  | k + 1, a, b, c, d, hb, hd => by
    have hpow : (2 : ℕ) ^ (k + 1) = 2 * 2 ^ k := by ring
    obtain ⟨b', s, hs, rfl⟩ : ∃ b' s, s < 2 ∧ b = 2 * b' + s :=
      ⟨b / 2, b % 2, by omega, by omega⟩
    obtain ⟨d', t, ht, rfl⟩ : ∃ d' t, t < 2 ∧ d = 2 * d' + t :=
      ⟨d / 2, d % 2, by omega, by omega⟩
    have hb' : b' < 2 ^ k := by rw [hpow] at hb; omega
    have hd' : d' < 2 ^ k := by rw [hpow] at hd; omega
    have l1 : 2 ^ (k + 1) * a + (2 * b' + s) = Nat.bit (s == 1) (2 ^ k * a + b') := by
      rw [bit_eq _ s hs, hpow]; ring
    have l2 : 2 ^ (k + 1) * c + (2 * d' + t) = Nat.bit (t == 1) (2 ^ k * c + d') := by
      rw [bit_eq _ t ht, hpow]; ring
    have r1 : (2 * b' + s) ||| (2 * d' + t) = Nat.bit ((s == 1) || (t == 1)) (b' ||| d') := by
      rw [show 2 * b' + s = Nat.bit (s == 1) b' from (bit_eq b' s hs).symm,
          show 2 * d' + t = Nat.bit (t == 1) d' from (bit_eq d' t ht).symm,
          Nat.lor_bit]
    rw [l1, l2, Nat.lor_bit, lor_chunk k a b' c d' hb' hd', r1,
        Nat.bit_val, Nat.bit_val, hpow]
    ring

/-- `&&&` acts chunkwise: the low `k` bits and the rest combine
independently. -/
theorem land_chunk : ∀ (k a b c d : ℕ), b < 2 ^ k → d < 2 ^ k →
    (2 ^ k * a + b) &&& (2 ^ k * c + d) = 2 ^ k * (a &&& c) + (b &&& d)
  | 0, a, b, c, d, hb, hd => by
    interval_cases b <;> interval_cases d <;> simp
  | k + 1, a, b, c, d, hb, hd => by
    have hpow : (2 : ℕ) ^ (k + 1) = 2 * 2 ^ k := by ring
    obtain ⟨b', s, hs, rfl⟩ : ∃ b' s, s < 2 ∧ b = 2 * b' + s :=
      ⟨b / 2, b % 2, by omega, by omega⟩
    obtain ⟨d', t, ht, rfl⟩ : ∃ d' t, t < 2 ∧ d = 2 * d' + t :=
      ⟨d / 2, d % 2, by omega, by omega⟩
    have hb' : b' < 2 ^ k := by rw [hpow] at hb; omega
    have hd' : d' < 2 ^ k := by rw [hpow] at hd; omega
    have l1 : 2 ^ (k + 1) * a + (2 * b' + s) = Nat.bit (s == 1) (2 ^ k * a + b') := by
      rw [bit_eq _ s hs, hpow]; ring
    have l2 : 2 ^ (k + 1) * c + (2 * d' + t) = Nat.bit (t == 1) (2 ^ k * c + d') := by
      rw [bit_eq _ t ht, hpow]; ring
    have r1 : (2 * b' + s) &&& (2 * d' + t) = Nat.bit ((s == 1) && (t == 1)) (b' &&& d') := by
      rw [show 2 * b' + s = Nat.bit (s == 1) b' from (bit_eq b' s hs).symm,
          show 2 * d' + t = Nat.bit (t == 1) d' from (bit_eq d' t ht).symm,
          Nat.land_bit]
    rw [l1, l2, Nat.land_bit, land_chunk k a b' c d' hb' hd', r1,
        Nat.bit_val, Nat.bit_val, hpow]
    ring

theorem lor_lt_two_pow : ∀ (k a b : ℕ), a < 2 ^ k → b < 2 ^ k → a ||| b < 2 ^ k
  | 0, a, b, ha, hb => by
    interval_cases a <;> interval_cases b <;> simp
  | k + 1, a, b, ha, hb => by
    have hpow : (2 : ℕ) ^ (k + 1) = 2 * 2 ^ k := by ring
    obtain ⟨a', s, hs, rfl⟩ : ∃ a' s, s < 2 ∧ a = 2 * a' + s :=
      ⟨a / 2, a % 2, by omega, by omega⟩
    obtain ⟨b', t, ht, rfl⟩ : ∃ b' t, t < 2 ∧ b = 2 * b' + t :=
      ⟨b / 2, b % 2, by omega, by omega⟩
    have ha' : a' < 2 ^ k := by rw [hpow] at ha; omega
    have hb' : b' < 2 ^ k := by rw [hpow] at hb; omega
    have hrec := lor_lt_two_pow k a' b' ha' hb'
    have r1 : (2 * a' + s) ||| (2 * b' + t) = Nat.bit ((s == 1) || (t == 1)) (a' ||| b') := by
      rw [show 2 * a' + s = Nat.bit (s == 1) a' from (bit_eq a' s hs).symm,
          show 2 * b' + t = Nat.bit (t == 1) b' from (bit_eq b' t ht).symm,
          Nat.lor_bit]
    have hto : (((s == 1) || (t == 1)) : Bool).toNat < 2 := Bool.toNat_lt _
    rw [r1, Nat.bit_val, hpow]
    omega

set_option maxRecDepth 100000 in
theorem land255 : ∀ b : ℕ, b < 256 → b &&& 255 = b := by decide

theorem sb_stage_le (s m x : ℕ) : sb_stage s m x ≤ m := by
  unfold sb_stage
  exact Nat.and_le_right

/-- The first (`shift = 8`) stage splits a 16-bit input into its two
bytes, 16 bits apart. -/
theorem sb_stage8_split (hi lo : ℕ) (hhi : hi < 256) (hlo : lo < 256) :
    sb_stage 8 0x00FF00FF (2 ^ 8 * hi + lo) = 2 ^ 16 * hi + lo := by
  have hlo8 : lo < 2 ^ 8 := by norm_num at *; omega
  have hhi8 : hi < 2 ^ 8 := by norm_num at *; omega
  have hX : (2 ^ 8 * hi + lo) <<< 8 = 2 ^ 8 * (2 ^ 8 * hi + lo) + 0 := by
    rw [Nat.shiftLeft_eq]; ring
  unfold sb_stage
  rw [hX, lor_chunk 8 hi lo (2 ^ 8 * hi + lo) 0 hlo8 (by norm_num)]
  have h1 : hi ||| (2 ^ 8 * hi + lo) = 2 ^ 8 * hi + (hi ||| lo) := by
    have h0 := lor_chunk 8 0 hi hi lo hhi8 hlo8
    simpa using h0
  have h2 : lo ||| 0 = lo := by simp
  rw [h1, h2]
  rw [show (0x00FF00FF : ℕ) = 2 ^ 8 * 0x00FF00 + 0xFF by norm_num]
  rw [land_chunk 8 _ lo _ 0xFF hlo8 (by norm_num)]
  rw [show (0x00FF00 : ℕ) = 2 ^ 8 * 0xFF + 0 by norm_num]
  rw [land_chunk 8 hi (hi ||| lo) 0xFF 0 (lor_lt_two_pow 8 hi lo hhi8 hlo8) (by norm_num)]
  rw [land255 hi hhi, land255 lo hlo, Nat.and_zero]
  ring

/-- The later stages (`shift ≤ 4`, masks with equal 16-bit halves) act
on the two 16-bit halves independently. -/
theorem sb_stage_split16 (s m u v : ℕ) (hm : m < 2 ^ 16)
    (hv : v < 2 ^ 16)
    (hus : u * 2 ^ s < 2 ^ 16) (hvs : v * 2 ^ s < 2 ^ 16) :
    sb_stage s (2 ^ 16 * m + m) (2 ^ 16 * u + v) =
      2 ^ 16 * sb_stage s m u + sb_stage s m v := by
  unfold sb_stage
  have hsh : (2 ^ 16 * u + v) <<< s = 2 ^ 16 * (u * 2 ^ s) + v * 2 ^ s := by
    rw [Nat.shiftLeft_eq]; ring
  rw [hsh, lor_chunk 16 u v (u * 2 ^ s) (v * 2 ^ s) hv hvs,
      land_chunk 16 _ _ _ m (lor_lt_two_pow 16 v (v * 2 ^ s) hv hvs) hm,
      Nat.shiftLeft_eq u s, Nat.shiftLeft_eq v s]

set_option maxRecDepth 1000000 in
/-- On one byte the three last stages compute the arithmetic
spreading, by kernel evaluation of all 256 inputs. -/
theorem sb_stages_byte : ∀ u : ℕ, u < 256 →
    sb_stage 1 0x5555 (sb_stage 2 0x3333 (sb_stage 4 0x0F0F u)) = spreadN 8 u := by
  decide

/-- The mask-and-shift spreading processes the two bytes of a 16-bit
input independently. -/
theorem space_bits_split : ∀ hi : ℕ, hi < 256 → ∀ lo : ℕ, lo < 256 →
    space_bits (256 * hi + lo) = spreadN 8 lo + 65536 * spreadN 8 hi := by
  intro hi hhi lo hlo
  have hmod : (256 * hi + lo) % 65536 = 256 * hi + lo := Nat.mod_eq_of_lt (by omega)
  unfold space_bits
  rw [hmod, show 256 * hi + lo = 2 ^ 8 * hi + lo by norm_num,
      sb_stage8_split hi lo hhi hlo]
  rw [show (0x0F0F0F0F : ℕ) = 2 ^ 16 * 0x0F0F + 0x0F0F by norm_num]
  rw [sb_stage_split16 4 0x0F0F hi lo (by norm_num)
      (by norm_num; omega) (by norm_num; omega) (by norm_num; omega)]
  have hA := sb_stage_le 4 0x0F0F hi
  have hB := sb_stage_le 4 0x0F0F lo
  rw [show (0x33333333 : ℕ) = 2 ^ 16 * 0x3333 + 0x3333 by norm_num]
  rw [sb_stage_split16 2 0x3333 _ _ (by norm_num)
      (by norm_num; omega) (by norm_num; omega) (by norm_num; omega)]
  have hC := sb_stage_le 2 0x3333 (sb_stage 4 0x0F0F hi)
  have hD := sb_stage_le 2 0x3333 (sb_stage 4 0x0F0F lo)
  rw [show (0x55555555 : ℕ) = 2 ^ 16 * 0x5555 + 0x5555 by norm_num]
  rw [sb_stage_split16 1 0x5555 _ _ (by norm_num)
      (by norm_num; omega) (by norm_num; omega) (by norm_num; omega)]
  rw [sb_stages_byte hi hhi, sb_stages_byte lo hlo]
  have h16 : (2 : ℕ) ^ 16 = 65536 := by norm_num
  rw [h16]
  omega

theorem spreadN_mod : ∀ (f x : ℕ), spreadN f (x % 2 ^ f) = spreadN f x
  | 0, x => rfl
  | f + 1, x => by
    rw [spreadN, spreadN]
    have h1 : x % 2 ^ (f + 1) % 2 = x % 2 := by
      rw [Nat.mod_mod_of_dvd]
      exact ⟨2 ^ f, by ring⟩
    have h2 : x % 2 ^ (f + 1) / 2 = x / 2 % 2 ^ f := by
      rw [pow_succ, mul_comm (2 ^ f) 2]
      exact Nat.mod_mul_right_div_self x 2 (2 ^ f)
    rw [h1, h2, spreadN_mod f (x / 2)]

theorem space_bits_eq {x : ℕ} (h : x < 65536) :
    space_bits x = spreadN 16 x := by
  have hx : x = 256 * (x / 256) + x % 256 := by omega
  have hhi : x / 256 < 256 := by omega
  have hlo : x % 256 < 256 := by omega
  have hs := space_bits_split _ hhi _ hlo
  rw [← hx] at hs
  rw [hs]
  rw [show (16 : ℕ) = 8 + 8 from rfl, spreadN_split 8 8 x]
  rw [← spreadN_mod 8 x]
  norm_num

theorem toNat_decide_mod_two (n : ℕ) :
    (decide (n % 2 = 1)).toNat = n % 2 := by
  rcases Nat.mod_two_eq_zero_or_one n with h | h <;> rw [h] <;> simp

theorem bit_form (n X : ℕ) :
    n % 2 + 4 * X = Nat.bit (decide (n % 2 = 1)) (Nat.bit false X) := by
  rw [Nat.bit_val, Nat.bit_val, toNat_decide_mod_two]
  simp
  ring

theorem spread_lor : ∀ (f a c : ℕ),
    spreadN f a ||| (2 * spreadN f c) = spreadN f a + 2 * spreadN f c
  | 0, a, c => by simp [spreadN]
  | f + 1, a, c => by
    rw [spreadN, spreadN]
    rw [bit_form a (spreadN f (a / 2))]
    have h2 : 2 * (c % 2 + 4 * spreadN f (c / 2)) =
        Nat.bit false (Nat.bit (decide (c % 2 = 1))
          (Nat.bit false (spreadN f (c / 2)))) := by
      rw [bit_form c (spreadN f (c / 2))]
      rw [Nat.bit_val (b := false)]
      simp
    rw [h2, Nat.lor_bit, Nat.lor_bit]
    have h3 : spreadN f (a / 2) ||| Nat.bit false (spreadN f (c / 2)) =
        spreadN f (a / 2) + 2 * spreadN f (c / 2) := by
      rw [Nat.bit_val]
      simp only [Bool.toNat_false, Nat.add_zero]
      exact spread_lor f (a / 2) (c / 2)
    rw [h3]
    simp only [Nat.bit_val, Bool.or_false, Bool.false_or, toNat_decide_mod_two,
      Bool.toNat_false]
    ring

theorem spreadN_of_lt {r f x : ℕ} (hx : x < 2 ^ r) (hrf : r ≤ f) :
    spreadN f x = spreadN r x := by
  obtain ⟨g, rfl⟩ : ∃ g, f = r + g := ⟨f - r, by omega⟩
  rw [spreadN_split r g x, Nat.div_eq_of_lt hx, spreadN_zero]
  simp

/-- `interleave` on 16-bit inputs is the arithmetic interleaving. -/
theorem interleave_eq {a c : ℕ} (ha : a < 65536) (hc : c < 65536) :
    interleave a c = spreadN 16 a + 2 * spreadN 16 c := by
  unfold interleave
  rw [space_bits_eq ha, space_bits_eq hc, Nat.shiftLeft_eq]
  rw [show spreadN 16 c * 2 ^ 1 = 2 * spreadN 16 c by ring]
  exact spread_lor 16 a c

/-- Interleaved pairs are uniquely decodable. -/
theorem spread_pair_inj : ∀ (f a c a2 c2 : ℕ), a < 2 ^ f → c < 2 ^ f →
    a2 < 2 ^ f → c2 < 2 ^ f →
    spreadN f a + 2 * spreadN f c = spreadN f a2 + 2 * spreadN f c2 →
    a = a2 ∧ c = c2
  | 0, a, c, a2, c2, ha, hc, ha2, hc2, heq => by
    simp only [pow_zero] at ha hc ha2 hc2
    omega
  | f + 1, a, c, a2, c2, ha, hc, ha2, hc2, heq => by
    rw [spreadN, spreadN, spreadN, spreadN] at heq
    have hp : (2 : ℕ) ^ (f + 1) = 2 * 2 ^ f := by rw [pow_succ]; ring
    have hX : spreadN f (a / 2) + 2 * spreadN f (c / 2) =
        spreadN f (a2 / 2) + 2 * spreadN f (c2 / 2) := by omega
    obtain ⟨h1, h2⟩ := spread_pair_inj f (a / 2) (c / 2) (a2 / 2) (c2 / 2)
      (by omega) (by omega) (by omega) (by omega) hX
    omega

theorem spreadN_double (f a s : ℕ) (hs : s < 2) :
    spreadN (f + 1) (2 * a + s) = s + 4 * spreadN f a := by
  rw [spreadN]
  have h1 : (2 * a + s) % 2 = s := by omega
  have h2 : (2 * a + s) / 2 = a := by omega
  rw [h1, h2]

theorem cellRect_zero (B : Rectangle) : cellRect B 0 0 0 = B := by
  obtain ⟨X0, X1, Y0, Y1⟩ := B
  simp only [cellRect, Rectangle.mk.injEq]
  norm_num

theorem cellRect_proper {B : Rectangle} (hx : B.xmin ≤ B.xmax)
    (hy : B.ymin ≤ B.ymax) (d a c : ℕ) :
    (cellRect B d a c).xmin ≤ (cellRect B d a c).xmax ∧
    (cellRect B d a c).ymin ≤ (cellRect B d a c).ymax := by
  have h2 : (0 : ℚ) < 2 ^ d := by positivity
  have hgen : ∀ (m W : ℚ) (a : ℕ), 0 ≤ W →
      m + a * W / 2 ^ d ≤ m + (a + 1) * W / 2 ^ d := by
    intro m W a hW
    have hmul : (a : ℚ) * W ≤ (a + 1) * W := by nlinarith
    have hdiv := (div_le_div_right h2).mpr hmul
    linarith
  exact ⟨hgen B.xmin (B.xmax - B.xmin) a (by linarith),
    hgen B.ymin (B.ymax - B.ymin) c (by linarith)⟩

/-- The four child rectangles of a cell are the four cells of the next
finer subdivision (child index `i = s + 2*t` selects x-half `s` and
y-half `t`). -/
theorem childBounds_cell (B : Rectangle) (d a c : ℕ) (i : ℕ) (hi : i < 4) :
    childBounds (cellRect B d a c) (midpoint (cellRect B d a c)) i =
      cellRect B (d + 1) (2 * a + i % 2) (2 * c + i / 2) := by
  have hne : (2 : ℚ) ^ d ≠ 0 := by positivity
  have hsucc : (2 : ℚ) ^ (d + 1) = 2 ^ d * 2 := by rw [pow_succ]
  rcases (by omega : i = 0 ∨ i = 1 ∨ i = 2 ∨ i = 3) with rfl | rfl | rfl | rfl <;>
  · simp only [childBounds, cellRect, midpoint, Rectangle.mk.injEq]
    norm_num
    refine ⟨?_, ?_, ?_, ?_⟩ <;>
    · rw [hsucc]
      push_cast
      field_simp
      ring

theorem truncQ_of_nonneg {q : ℚ} (h : 0 ≤ q) : truncQ q = ⌊q⌋ := by
  unfold truncQ
  rw [if_pos h]

/-- `grid_index` on an in-range coordinate: the result is the index of
the unique cell of the `2^R`-fold subdivision containing the
coordinate. -/
theorem grid_index_spec {v mn mx : ℚ} (R : ℕ) (h0 : mn ≤ v) (h1 : v < mx) :
    ∃ a : ℕ, grid_index v mn mx (2 ^ R) = (a : ℤ) ∧ a < 2 ^ R ∧
      mn + (a : ℚ) * (mx - mn) / 2 ^ R ≤ v ∧
      v < mn + ((a + 1 : ℕ) : ℚ) * (mx - mn) / 2 ^ R := by
  have hW : 0 < mx - mn := by linarith
  have h2R : (0 : ℚ) < 2 ^ R := by positivity
  have hcast : (((2 : ℤ) ^ R : ℤ) : ℚ) = (2 : ℚ) ^ R := by push_cast; rfl
  have hq0 : 0 ≤ (v - mn) * (((2 : ℤ) ^ R : ℤ) : ℚ) / (mx - mn) := by
    apply div_nonneg _ (le_of_lt hW)
    apply mul_nonneg (by linarith)
    rw [hcast]
    positivity
  have hgi : grid_index v mn mx (2 ^ R) =
      ⌊(v - mn) * (((2 : ℤ) ^ R : ℤ) : ℚ) / (mx - mn)⌋ := by
    unfold grid_index
    exact truncQ_of_nonneg hq0
  have hqlt : (v - mn) * (((2 : ℤ) ^ R : ℤ) : ℚ) / (mx - mn) <
      (((2 : ℤ) ^ R : ℤ) : ℚ) := by
    rw [hcast, div_lt_iff hW]
    nlinarith
  have hfl0 : 0 ≤ ⌊(v - mn) * (((2 : ℤ) ^ R : ℤ) : ℚ) / (mx - mn)⌋ :=
    Int.floor_nonneg.mpr hq0
  have hflt : ⌊(v - mn) * (((2 : ℤ) ^ R : ℤ) : ℚ) / (mx - mn)⌋ <
      (2 : ℤ) ^ R := Int.floor_lt.mpr hqlt
  have hle := Int.floor_le ((v - mn) * (((2 : ℤ) ^ R : ℤ) : ℚ) / (mx - mn))
  have hlt2 := Int.lt_floor_add_one
    ((v - mn) * (((2 : ℤ) ^ R : ℤ) : ℚ) / (mx - mn))
  set F : ℤ := ⌊(v - mn) * (((2 : ℤ) ^ R : ℤ) : ℚ) / (mx - mn)⌋ with hFdef
  have hcast2 : ((F.toNat : ℕ) : ℚ) = ((F : ℤ) : ℚ) := by
    exact_mod_cast Int.toNat_of_nonneg hfl0
  have hpow : ((2 ^ R : ℕ) : ℤ) = (2 : ℤ) ^ R := by push_cast; rfl
  refine ⟨F.toNat, ?_, ?_, ?_, ?_⟩
  · rw [hgi, Int.toNat_of_nonneg hfl0]
  · omega
  · have hstep := (le_div_iff hW).mp hle
    rw [hcast] at hstep
    have hsuff : ((F.toNat : ℕ) : ℚ) * (mx - mn) / 2 ^ R ≤ v - mn := by
      rw [div_le_iff h2R, hcast2]
      linarith
    linarith
  · have hstep := (div_lt_iff hW).mp hlt2
    rw [hcast] at hstep
    have h3 : ((F.toNat + 1 : ℕ) : ℚ) = ((F : ℤ) : ℚ) + 1 := by
      push_cast
      rw [hcast2]
    have hsuff : v - mn < ((F.toNat + 1 : ℕ) : ℚ) * (mx - mn) / 2 ^ R := by
      rw [lt_div_iff h2R, h3]
      linarith
    linarith

/-- `zorder_hash` of an in-range point at resolution at most 16: the
hash is the arithmetic interleaving of the point's cell indexes, and
the point lies in that cell. -/
theorem zorder_hash_spec {B : Rectangle} {p : Point} {R : ℕ} (hR : R ≤ 16)
    (hx0 : B.xmin ≤ p.x) (hx1 : p.x < B.xmax)
    (hy0 : B.ymin ≤ p.y) (hy1 : p.y < B.ymax) :
    ∃ cx cy : ℕ, cx < 2 ^ R ∧ cy < 2 ^ R ∧
      zorder_hash B p R = spreadN R cx + 2 * spreadN R cy ∧
      contains (cellRect B R cx cy) p := by
  obtain ⟨cx, hgx, hcx, hlx, hux⟩ := grid_index_spec R hx0 hx1
  obtain ⟨cy, hgy, hcy, hly, huy⟩ := grid_index_spec R hy0 hy1
  have h16 : (2 : ℕ) ^ R ≤ 65536 := by
    calc (2 : ℕ) ^ R ≤ 2 ^ 16 := Nat.pow_le_pow_right (by omega) hR
      _ = 65536 := by norm_num
  have hmod : ∀ a : ℕ, a < 2 ^ R → (((a : ℤ) % 65536).toNat) = a := by
    intro a ha
    rw [Int.emod_eq_of_lt (by positivity)
      (by exact_mod_cast lt_of_lt_of_le ha h16)]
    exact Int.toNat_natCast a
  refine ⟨cx, cy, hcx, hcy, ?_, ?_⟩
  · unfold zorder_hash
    rw [hgx, hgy, hmod cx hcx, hmod cy hcy]
    rw [interleave_eq (lt_of_lt_of_le hcx h16) (lt_of_lt_of_le hcy h16)]
    rw [spreadN_of_lt hcx hR, spreadN_of_lt hcy hR]
  · simp only [contains, cellRect, ge_iff_le]
    push_cast at hux huy ⊢
    exact ⟨hlx, le_of_lt hux, hly, le_of_lt huy⟩

theorem ZCovers_subData {T : Type} {grid : List (List (Datum T))} :
    ∀ {n : ZNode}, ZCovers grid n →
    ∀ d ∈ n.subData grid, contains n.bounds d.point
  | .leaf _ _ b _, hc, d, hd => hc d hd
  | .node _ _ b _ c0 c1 c2 c3, hc, d, hd => by
    obtain ⟨s0, s1, s2, s3, v0, v1, v2, v3⟩ := hc
    simp only [ZNode.subData, List.mem_append] at hd
    rcases hd with ((h | h) | h) | h
    · exact contains_trans s0 (ZCovers_subData v0 d h)
    · exact contains_trans s1 (ZCovers_subData v1 d h)
    · exact contains_trans s2 (ZCovers_subData v2 d h)
    · exact contains_trans s3 (ZCovers_subData v3 d h)

/-- Conversely to `zgrid_bin_go_mem`: a bucket only receives data
hashing to its own code. -/
theorem zgrid_bin_go_codes {T : Type} (b : Rectangle) (r : ℕ) :
    ∀ (data : List (Datum T)) (grid grid' : List (List (Datum T))),
    zgrid_bin_go b r data grid = .ok grid' →
    ∀ j : ℕ, ∀ d ∈ grid'.getD j [],
      d ∈ grid.getD j [] ∨ zorder_hash b d.point r = j
  | [], grid, grid', h => by
    simp only [zgrid_bin_go, Except.ok.injEq] at h
    subst h
    intro j d hd
    exact Or.inl hd
  | e :: rest, grid, grid', h => by
    rw [zgrid_bin_go] at h
    split at h
    case _ hc =>
      intro j d hd
      rcases zgrid_bin_go_codes b r rest _ _ h j d hd with hin | hin
      · by_cases hj : j = zorder_hash b e.point r
        · subst hj
          rw [List.getD_eq_getElem?_getD, List.getElem?_set_self (by omega),
            Option.getD_some] at hin
          rcases List.mem_append.mp hin with hin | hin
          · exact Or.inl hin
          · rcases List.mem_singleton.mp hin with rfl
            exact Or.inr rfl
        · rw [List.getD_eq_getElem?_getD,
            List.getElem?_set_ne (by omega),
            ← List.getD_eq_getElem?_getD] at hin
          exact Or.inl hin
      · exact Or.inr hin
    case _ hc => exact absurd h (by simp)

theorem populate_bounds : ∀ (r code depth : ℕ) (b : Rectangle),
    (populate r code depth b).bounds = b
  | 0, code, depth, b => rfl
  | r + 1, code, depth, b => rfl

/-- The main geometric induction for the grid: each node of the
implicit tree spanning cell prefix `(a, c)` at the remaining depth `rr`
geometrically covers all the data its subtree can reach. -/
theorem populate_zcovers {T : Type} {grid : List (List (Datum T))}
    {B : Rectangle} {R : ℕ} (hR : R ≤ 16)
    (hWx : B.xmin ≤ B.xmax) (hWy : B.ymin ≤ B.ymax)
    (hg : ∀ j : ℕ, ∀ d ∈ grid.getD j [],
      (B.xmin ≤ d.point.x ∧ d.point.x < B.xmax ∧
       B.ymin ≤ d.point.y ∧ d.point.y < B.ymax) ∧
      zorder_hash B d.point R = j) :
    ∀ (rr : ℕ), ∀ (a c depth : ℕ), rr ≤ R →
    a < 2 ^ (R - rr) → c < 2 ^ (R - rr) →
    ZCovers grid (populate rr
      (spreadN (R - rr) a + 2 * spreadN (R - rr) c) depth
      (cellRect B (R - rr) a c)) := by
  intro rr
  induction rr with
  | zero =>
    intro a c depth hle ha hc
    simp only [Nat.sub_zero] at ha hc ⊢
    simp only [populate, ZCovers]
    intro d hd
    obtain ⟨⟨px0, px1, py0, py1⟩, hhash⟩ :=
      hg (spreadN R a + 2 * spreadN R c) d hd
    obtain ⟨cx, cy, hcx, hcy, hspec, hcont⟩ :=
      zorder_hash_spec hR px0 px1 py0 py1
    rw [hspec] at hhash
    obtain ⟨rfl, rfl⟩ := spread_pair_inj R cx cy a c hcx hcy ha hc hhash
    exact hcont
  | succ rr IH =>
    intro a c depth hle ha hc
    have hd1 : R - rr = (R - (rr + 1)) + 1 := by omega
    have hcp := cellRect_proper hWx hWy (R - (rr + 1)) a c
    simp only [populate, ZCovers]
    have hchildB : ∀ i : ℕ, i < 4 →
        childBounds (cellRect B (R - (rr + 1)) a c)
          (midpoint (cellRect B (R - (rr + 1)) a c)) i =
        cellRect B (R - rr) (2 * a + i % 2) (2 * c + i / 2) := by
      intro i hi
      rw [childBounds_cell B _ a c i hi, ← hd1]
    have hsub : ∀ i : ℕ, i < 4 →
        containsR (cellRect B (R - (rr + 1)) a c)
          (childBounds (cellRect B (R - (rr + 1)) a c)
            (midpoint (cellRect B (R - (rr + 1)) a c)) i) :=
      fun i _ => childBounds_sub hcp.1 hcp.2 i
    have hbnd : ∀ s t : ℕ, s < 2 → t < 2 →
        2 * a + s < 2 ^ (R - rr) ∧ 2 * c + t < 2 ^ (R - rr) := by
      intro s t hs ht
      rw [hd1, pow_succ]
      omega
    have hcode : ∀ s t : ℕ, s < 2 → t < 2 →
        4 * (spreadN (R - (rr + 1)) a + 2 * spreadN (R - (rr + 1)) c) +
          (s + 2 * t) =
        spreadN (R - rr) (2 * a + s) + 2 * spreadN (R - rr) (2 * c + t) := by
      intro s t hs ht
      rw [hd1, spreadN_double _ _ _ hs, spreadN_double _ _ _ ht]
      ring
    have hchildB0 : childBounds (cellRect B (R - (rr + 1)) a c)
        (midpoint (cellRect B (R - (rr + 1)) a c)) 0 =
        cellRect B (R - rr) (2 * a) (2 * c) := by
      rw [hchildB 0 (by omega)]
      norm_num
    have hchildB1 : childBounds (cellRect B (R - (rr + 1)) a c)
        (midpoint (cellRect B (R - (rr + 1)) a c)) 1 =
        cellRect B (R - rr) (2 * a + 1) (2 * c) := by
      rw [hchildB 1 (by omega)]
      norm_num
    have hchildB2 : childBounds (cellRect B (R - (rr + 1)) a c)
        (midpoint (cellRect B (R - (rr + 1)) a c)) 2 =
        cellRect B (R - rr) (2 * a) (2 * c + 1) := by
      rw [hchildB 2 (by omega)]
      norm_num
    have hchildB3 : childBounds (cellRect B (R - (rr + 1)) a c)
        (midpoint (cellRect B (R - (rr + 1)) a c)) 3 =
        cellRect B (R - rr) (2 * a + 1) (2 * c + 1) := by
      rw [hchildB 3 (by omega)]
    have hcode0 : 4 * (spreadN (R - (rr + 1)) a +
        2 * spreadN (R - (rr + 1)) c) =
        spreadN (R - rr) (2 * a) + 2 * spreadN (R - rr) (2 * c) := by
      have h := hcode 0 0 (by omega) (by omega)
      simpa using h
    have hcode1 : 4 * (spreadN (R - (rr + 1)) a +
        2 * spreadN (R - (rr + 1)) c) + 1 =
        spreadN (R - rr) (2 * a + 1) + 2 * spreadN (R - rr) (2 * c) := by
      have h := hcode 1 0 (by omega) (by omega)
      simpa using h
    have hcode2 : 4 * (spreadN (R - (rr + 1)) a +
        2 * spreadN (R - (rr + 1)) c) + 2 =
        spreadN (R - rr) (2 * a) + 2 * spreadN (R - rr) (2 * c + 1) := by
      have h := hcode 0 1 (by omega) (by omega)
      simpa using h
    have hcode3 : 4 * (spreadN (R - (rr + 1)) a +
        2 * spreadN (R - (rr + 1)) c) + 3 =
        spreadN (R - rr) (2 * a + 1) + 2 * spreadN (R - rr) (2 * c + 1) := by
      have h := hcode 1 1 (by omega) (by omega)
      have h34 : (1 : ℕ) + 2 * 1 = 3 := by norm_num
      rw [h34] at h
      exact h
    refine ⟨?_, ?_, ?_, ?_, ?_, ?_, ?_, ?_⟩
    · rw [populate_bounds]
      exact hsub 0 (by omega)
    · rw [populate_bounds]
      exact hsub 1 (by omega)
    · rw [populate_bounds]
      exact hsub 2 (by omega)
    · rw [populate_bounds]
      exact hsub 3 (by omega)
    · rw [hchildB0, hcode0]
      exact IH (2 * a) (2 * c) (depth + 1) (by omega)
        (hbnd 0 0 (by omega) (by omega)).1 (hbnd 0 0 (by omega) (by omega)).2
    · rw [hchildB1, hcode1]
      exact IH (2 * a + 1) (2 * c) (depth + 1) (by omega)
        (hbnd 1 0 (by omega) (by omega)).1 (hbnd 1 0 (by omega) (by omega)).2
    · rw [hchildB2, hcode2]
      exact IH (2 * a) (2 * c + 1) (depth + 1) (by omega)
        (hbnd 0 1 (by omega) (by omega)).1 (hbnd 0 1 (by omega) (by omega)).2
    · rw [hchildB3, hcode3]
      exact IH (2 * a + 1) (2 * c + 1) (depth + 1) (by omega)
        (hbnd 1 1 (by omega) (by omega)).1 (hbnd 1 1 (by omega) (by omega)).2

theorem getD_replicate_nil {α : Type} (n j : ℕ) :
    (List.replicate n ([] : List α)).getD j [] = [] := by
  rw [List.getD_eq_getElem?_getD, List.getElem?_replicate]
  split <;> rfl

/-- On a built grid with in-domain records, the implicit tree is
geometrically well formed. -/
theorem zbuild_covers {T : Type} {x0 x1 y0 y1 : ℚ} {f : T → Point}
    {raw : List T} {r : ℕ} {z : Zgrid T}
    (hb : Zgrid.build x0 x1 y0 y1 f raw r = .ok z)
    (hx : x0 ≤ x1) (hy : y0 ≤ y1) (hr : r ≤ 16)
    (hin : ∀ t ∈ raw, contains ⟨x0, x1, y0, y1⟩ (f t)) :
    ZCovers z.grid z.root := by
  unfold Zgrid.build at hb
  cases hg : zgrid_bin_go (ctorBounds x0 x1 y0 y1) r (datumize f raw)
      (List.replicate (4 ^ r) []) with
  | error msg => rw [hg] at hb; exact absurd hb (by simp [Except.map])
  | ok grid =>
    rw [hg] at hb
    simp only [Except.map, Except.ok.injEq] at hb
    obtain ⟨hlen, hmul⟩ := zgrid_bin_go_data _ _ _ _ _ hg
    subst hb
    show ZCovers grid (populate r 0 0 (ctorBounds x0 x1 y0 y1))
    have hdom : ∀ d ∈ grid.flatten, ∃ t ∈ raw, d = ⟨t, f t⟩ := by
      intro d hd
      have : d ∈ ((grid.flatten : List (Datum T)) : Multiset (Datum T)) :=
        Multiset.mem_coe.mpr hd
      rw [hmul] at this
      simp only [List.flatten_replicate_nil] at this
      rcases Multiset.mem_add.mp this with h2 | h2
      · exact absurd (Multiset.mem_coe.mp h2) (by simp)
      · have h3 := Multiset.mem_coe.mp h2
        unfold datumize at h3
        rw [List.mem_map] at h3
        obtain ⟨t, ht, hdt⟩ := h3
        exact ⟨t, ht, hdt.symm⟩
    have hbk : ∀ j : ℕ, ∀ d ∈ grid.getD j [],
        ((ctorBounds x0 x1 y0 y1).xmin ≤ d.point.x ∧
         d.point.x < (ctorBounds x0 x1 y0 y1).xmax ∧
         (ctorBounds x0 x1 y0 y1).ymin ≤ d.point.y ∧
         d.point.y < (ctorBounds x0 x1 y0 y1).ymax) ∧
        zorder_hash (ctorBounds x0 x1 y0 y1) d.point r = j := by
      intro j d hd
      have hjlt : j < grid.length := by
        by_contra hge
        rw [List.getD_eq_getElem?_getD, List.getElem?_eq_none (by omega)] at hd
        exact absurd hd (by simp)
      have hdf : d ∈ grid.flatten := by
        rw [List.mem_flatten]
        refine ⟨grid[j], List.getElem_mem hjlt, ?_⟩
        rw [List.getD_eq_getElem?_getD, List.getElem?_eq_getElem hjlt] at hd
        exact hd
      obtain ⟨t, ht, rfl⟩ := hdom d hdf
      obtain ⟨d1, d2, d3, d4⟩ := hin t ht
      refine ⟨⟨d1, ?_, d3, ?_⟩, ?_⟩
      · show (f t).x < x1 + 1 / 100
        simp only at d2
        linarith
      · show (f t).y < y1 + 1 / 100
        simp only at d4
        linarith
      · rcases zgrid_bin_go_codes _ _ _ _ _ hg j _ hd with h0 | hh
        · rw [getD_replicate_nil] at h0
          exact absurd h0 (by simp)
        · exact hh
    have := populate_zcovers hr
      (by show x0 ≤ x1 + 1 / 100; linarith)
      (by show y0 ≤ y1 + 1 / 100; linarith)
      hbk r 0 0 0 (le_refl r)
      (by simp) (by simp)
    rw [Nat.sub_self] at this
    simp only [spreadN, Nat.mul_zero, Nat.add_zero] at this
    rw [cellRect_zero] at this
    exact this

theorem zgc_hleaf {T : Type} (z : Zgrid T) :
    ∀ n, ZGood z n → z.hier.isLeaf n = true →
    z.hier.bucket n = some (n.subData z.grid) :=
  fun n hg hl => zg_hleaf z n hg.1 hl

theorem zgc_hnode {T : Type} (z : Zgrid T) :
    ∀ n, ZGood z n → z.hier.isLeaf n = false →
    ∃ c0 c1 c2 c3, z.hier.children n = some (c0, c1, c2, c3) ∧
      ZGood z c0 ∧ ZGood z c1 ∧ ZGood z c2 ∧ ZGood z c3 ∧
      n.subData z.grid =
        c0.subData z.grid ++ c1.subData z.grid ++
        c2.subData z.grid ++ c3.subData z.grid := by
  intro n hg hl
  obtain ⟨hok, hcov⟩ := hg
  cases n with
  | leaf c d b ctr => exact absurd hl (by simp [Zgrid.hier, ZNode.is_leaf])
  | node c d b ctr d0 d1 d2 d3 =>
    simp only [ZOk] at hok
    simp only [ZCovers] at hcov
    exact ⟨d0, d1, d2, d3, rfl,
      ⟨hok.1, hcov.2.2.2.2.1⟩, ⟨hok.2.1, hcov.2.2.2.2.2.1⟩,
      ⟨hok.2.2.1, hcov.2.2.2.2.2.2.1⟩, ⟨hok.2.2.2, hcov.2.2.2.2.2.2.2⟩, rfl⟩

theorem zg_hlow {T : Type} (z : Zgrid T) (q : Point) :
    ∀ n, ZGood z n → ∀ d ∈ n.subData z.grid,
    dist2Rect q (z.hier.bnds n) ≤ dist2 q d.point := by
  intro n hg d hd
  exact dist2Rect_le_dist2 (ZCovers_subData hg.2 d hd) q

/-- Exactness of the grid's k-NN query: the result is `min k n` records
drawn from the stored records, and every returned record is at least as
close to the query point as every record left out. -/
theorem zgrid_knn_exact {T : Type} {x0 x1 y0 y1 : ℚ} {f : T → Point}
    {raw : List T} {r : ℕ} {z : Zgrid T}
    (hb : Zgrid.build x0 x1 y0 y1 f raw r = .ok z)
    (hx : x0 ≤ x1) (hy : y0 ≤ y1) (hr : r ≤ 16)
    (hin : ∀ t ∈ raw, contains ⟨x0, x1, y0, y1⟩ (f t))
    {k : ℕ} {x y : ℚ} {res : List T}
    (hq : z.query_knn k x y = .ok res) :
    res.length = min k raw.length ∧
    ∃ rest : Multiset T,
      (raw : Multiset T) = (res : Multiset T) + rest ∧
      ∀ a ∈ res, ∀ b ∈ rest,
        Real.sqrt ((dist2 ⟨x, y⟩ (f a) : ℚ) : ℝ) ≤
        Real.sqrt ((dist2 ⟨x, y⟩ (f b) : ℚ) : ℝ) := by
  obtain ⟨_, _, hok, hdat⟩ := zbuild_spec hb
  have hcov := zbuild_covers hb hx hy hr hin
  have hg0 : ZGood z z.root := ⟨hok, hcov⟩
  unfold Zgrid.query_knn at hq
  cases hF : knnLoop z.hier ⟨x, y⟩ k (z.root.size + 1)
      [(z.root, dist2Rect ⟨x, y⟩ z.root.bounds)] [] with
  | error msg => rw [hF] at hq; exact absurd hq (by simp [Except.map])
  | ok F =>
    rw [hF] at hq
    simp only [Except.map, Except.ok.injEq] at hq
    subst hq
    obtain ⟨hlen, dropped, heq⟩ := knnLoop_data (zgc_hleaf z) (zgc_hnode z)
      (z.root.size + 1) hF
      (by intro p hp; rcases List.mem_singleton.mp hp with h; exact h ▸ hg0)
      (by simp)
    have hdom := knnLoop_exact (zgc_hleaf z) (zgc_hnode z) (zg_hlow z ⟨x, y⟩)
      (z.root.size + 1) hF
      (by intro p hp; rcases List.mem_singleton.mp hp with h; exact h ▸ hg0)
      (by intro p hp; rcases List.mem_singleton.mp hp with h; subst h; rfl)
      (by simp) dropped heq
    have hnpq : npqData (fun n => n.subData z.grid) ⟨x, y⟩
        [(z.root, dist2Rect ⟨x, y⟩ z.root.bounds)] =
        (((z.root.subData z.grid).map
          (fun d => (d, dist2 ⟨x, y⟩ d.point)) : List (Datum T × ℚ)) :
          Multiset (Datum T × ℚ)) := by
      rw [npqData_cons, npqData_nil, add_zero]
    rw [hnpq] at heq
    rw [show ((([] : List (Datum T × ℚ))) : Multiset (Datum T × ℚ)) = 0
      from rfl, zero_add] at heq
    have hpairs : ∀ p : Datum T × ℚ,
        p ∈ (F : Multiset (Datum T × ℚ)) + dropped →
        p.1 ∈ z.root.subData z.grid ∧
        p.2 = dist2 ⟨x, y⟩ p.1.point := by
      intro p hp
      rw [heq, Multiset.mem_coe, List.mem_map] at hp
      obtain ⟨d, hd, hpd⟩ := hp
      subst hpd
      exact ⟨hd, rfl⟩
    have hpt : ∀ d ∈ z.root.subData z.grid, d.point = f d.data := by
      intro d hd
      have hmem : d ∈ ((datumize f raw : List (Datum T)) :
          Multiset (Datum T)) := by
        rw [← hdat]
        exact Multiset.mem_coe.mpr hd
      rw [Multiset.mem_coe] at hmem
      unfold datumize at hmem
      rw [List.mem_map] at hmem
      obtain ⟨t, _, hdr⟩ := hmem
      rw [← hdr]
    have hS : (z.root.subData z.grid).length = raw.length := by
      have := congrArg Multiset.card hdat
      simpa [datumize] using this
    have hcomp : ((fun p : Datum T × ℚ => p.1.data) ∘
        (fun d : Datum T => (d, dist2 ⟨x, y⟩ d.point))) =
        (fun d : Datum T => d.data) := rfl
    constructor
    · rw [List.length_map, (drain_perm F).length_eq, hlen]
      simp only [List.length_nil, List.map_cons, List.map_nil,
        List.sum_cons, List.sum_nil, zero_add, add_zero]
      rw [hS]
    refine ⟨Multiset.map (fun p : Datum T × ℚ => p.1.data) dropped, ?_, ?_⟩
    · have hcoe : (((drain F).map (fun p => p.1.data) : List T) :
          Multiset T) =
          Multiset.map (fun p => p.1.data) (F : Multiset (Datum T × ℚ)) := by
        have hperm : ((drain F : List (Datum T × ℚ)) :
            Multiset (Datum T × ℚ)) = (F : Multiset (Datum T × ℚ)) :=
          Multiset.coe_eq_coe.mpr (drain_perm F)
        rw [← hperm]
        simp
      have hproj : (((z.root.subData z.grid).map (fun d => d.data) :
          List T) : Multiset T) = (raw : Multiset T) := by
        have h2 := congrArg (Multiset.map (fun d : Datum T => d.data)) hdat
        rw [Multiset.map_coe, Multiset.map_coe] at h2
        rw [h2]
        have hid : (datumize f raw).map (fun d => d.data) = raw := by
          simp only [datumize, List.map_map]
          exact List.map_id' raw
        rw [hid]
      have hR : Multiset.map (fun p : Datum T × ℚ => p.1.data)
          (((z.root.subData z.grid).map
            (fun d => (d, dist2 ⟨x, y⟩ d.point)) : List (Datum T × ℚ)) :
            Multiset (Datum T × ℚ)) = (raw : Multiset T) := by
        rw [Multiset.map_coe, List.map_map, hcomp]
        exact hproj
      have h3 := congrArg
        (Multiset.map (fun p : Datum T × ℚ => p.1.data)) heq
      rw [Multiset.map_add, hR] at h3
      rw [hcoe]
      exact h3.symm
    · intro a ha b hbm
      rw [List.mem_map] at ha
      obtain ⟨p, hpF, hpa⟩ := ha
      have hpF2 : p ∈ F := (drain_perm F).subset hpF
      rw [Multiset.mem_map] at hbm
      obtain ⟨pd, hpd, hpb⟩ := hbm
      have hord : p.2 ≤ pd.2 := hdom pd hpd p hpF2
      obtain ⟨hp1, hp2⟩ := hpairs p
        (Multiset.mem_add.mpr (Or.inl (Multiset.mem_coe.mpr hpF2)))
      obtain ⟨hd1, hd2⟩ := hpairs pd (Multiset.mem_add.mpr (Or.inr hpd))
      have ha2 : dist2 ⟨x, y⟩ (f a) = p.2 := by
        rw [← hpa, ← hpt p.1 hp1]
        exact hp2.symm
      have hb2 : dist2 ⟨x, y⟩ (f b) = pd.2 := by
        rw [← hpb, ← hpt pd.1 hd1]
        exact hd2.symm
      rw [ha2, hb2]
      exact sqrt_le_sqrt_of_le hord

theorem build_go_append {T : Type} (fuel : ℕ) (a b : List (Datum T)) :
    ∀ t : Rtree T, Rtree.build_go fuel t (a ++ b) =
      (Rtree.build_go fuel t a).bind (fun u => Rtree.build_go fuel u b) := by
  induction a with
  | nil => intro t; simp [Rtree.build_go]
  | cons d a ih =>
    intro t
    simp only [List.cons_append, Rtree.build_go]
    cases h : Rtree.insert fuel t d with
    | none => simp
    | some t2 => simpa using ih t2


theorem entries_beq_sound {T : Type} [DecidableEq T] (fuel : ℕ)
    (ih : ∀ n n2 : RNode T, rtree_beq fuel n n2 = true → n = n2) :
    ∀ es es2 : List (REntry T), es.length = es2.length →
      ((es.zip es2).all fun p => rentry_beq (rtree_beq fuel) p.1 p.2) = true →
      es = es2
  | [], [], _, _ => rfl
  | e :: es, e2 :: es2, hlen, hall => by
    simp only [List.zip_cons_cons, List.all_cons, Bool.and_eq_true] at hall
    obtain ⟨hh, ht⟩ := hall
    have hes : es = es2 :=
      entries_beq_sound fuel ih es es2 (by simpa using hlen) ht
    subst hes
    cases e with
    | datumE b d =>
      cases e2 with
      | datumE b2 d2 =>
        simp only [rentry_beq, Bool.and_eq_true, decide_eq_true_eq] at hh
        rw [hh.1, hh.2]
      | nodeE b2 n2 => simp [rentry_beq] at hh
    | nodeE b n =>
      cases e2 with
      | datumE b2 d2 => simp [rentry_beq] at hh
      | nodeE b2 n2 =>
        simp only [rentry_beq, Bool.and_eq_true, decide_eq_true_eq] at hh
        rw [hh.1, ih n n2 hh.2]

theorem rtree_beq_sound {T : Type} [DecidableEq T] :
    ∀ (fuel : ℕ) (n n2 : RNode T), rtree_beq fuel n n2 = true → n = n2
  | 0, n, n2 => by intro h; simp [rtree_beq] at h
  | fuel + 1, .mk l es, .mk l2 es2 => by
    intro h
    simp only [rtree_beq, Bool.and_eq_true, beq_iff_eq, Nat.beq_eq] at h
    obtain ⟨⟨hl, hlen⟩, hall⟩ := h
    rw [hl, entries_beq_sound fuel (rtree_beq_sound fuel) es es2 hlen hall]


theorem build_go_cmp {T : Type} [DecidableEq T] {t2 : Rtree T}
    (t : Rtree T) (ds : List (Datum T))
    (h : (Rtree.build_go 20 t ds).map
      (fun u => decide (u.root_mbb = t2.root_mbb) &&
        rtree_beq 20 u.root t2.root) = some true) :
    Rtree.build_go 20 t ds = some t2 := by
  obtain ⟨u, hu, hueq⟩ := Option.map_eq_some'.mp h
  simp only [Bool.and_eq_true, decide_eq_true_eq] at hueq
  obtain ⟨mbb1, root1⟩ := u
  obtain ⟨h1eq, h2eq⟩ := hueq
  dsimp only at h1eq h2eq
  rw [hu, h1eq, rtree_beq_sound 20 _ _ h2eq]

/-- Ten points break the MBR-containment invariant: the first nine make
the root split into two leaf groups; the tenth, far away at
`(100, 100)`, descends into a branch whose stored box is only expanded
on a copy (`Entry child_entry = entries[branch_idx]`), so the datum
lands in a child whose box the branch entry's stored box does not
contain. -/
theorem rtree_mbbs_violated :
    ((Rtree.build 20 (fun p : Point => p)
      [⟨0, 0⟩, ⟨1, 0⟩, ⟨2, 0⟩, ⟨3, 0⟩, ⟨4, 0⟩, ⟨5, 0⟩, ⟨6, 0⟩, ⟨7, 0⟩,
       ⟨8, 0⟩, ⟨100, 100⟩]).map
      (fun t => check_mbbs 20 (REntry.nodeE t.root_mbb t.root))) =
      some false := by decide!

/-- Thirty points (the 3 x 10 grid `load_pts`) break the load
invariant: the second root split redistributes entries that are whole
leaf subtrees, but `distribute` adds only one to the receiving group's
`load` per entry, so the group loads no longer count the reachable
data.  The build is checked in stages through the intermediate trees
`rt_T10`, `rt_T20`, `rt_T25` and `rt_T29`. -/
theorem rtree_load_violated :
    ((Rtree.build 20 id load_pts).map (fun t => check_load 20 t.root)) =
      some false := by
  have hb : Rtree.build 20 id load_pts =
      Rtree.build_go 20 ⟨⟨0, 0, 0, 0⟩, .mk 0 []⟩ (datumize id load_pts) := rfl
  have hl : datumize id load_pts =
      datumize id (load_pts.take 10) ++
      (datumize id ((load_pts.drop 10).take 10) ++
      (datumize id ((load_pts.drop 20).take 5) ++
      (datumize id ((load_pts.drop 25).take 4) ++
      datumize id (load_pts.drop 29)))) := by decide!
  have s1 : Rtree.build_go 20 (⟨⟨0, 0, 0, 0⟩, .mk 0 []⟩ : Rtree Point)
      (datumize id (load_pts.take 10)) = some rt_T10 :=
    build_go_cmp _ _ (by decide!)
  have s2 : Rtree.build_go 20 rt_T10
      (datumize id ((load_pts.drop 10).take 10)) = some rt_T20 :=
    build_go_cmp _ _ (by decide!)
  have s3 : Rtree.build_go 20 rt_T20
      (datumize id ((load_pts.drop 20).take 5)) = some rt_T25 :=
    build_go_cmp _ _ (by decide!)
  have s4 : Rtree.build_go 20 rt_T25
      (datumize id ((load_pts.drop 25).take 4)) = some rt_T29 :=
    build_go_cmp _ _ (by decide!)
  have s5 : (Rtree.build_go 20 rt_T29 (datumize id (load_pts.drop 29))).map
      (fun t => check_load 20 t.root) = some false := by decide!
  rw [hb, hl, build_go_append 20 _ _ _, s1, Option.some_bind,
      build_go_append 20 _ _ _, s2, Option.some_bind,
      build_go_append 20 _ _ _, s3, Option.some_bind,
      build_go_append 20 _ _ _, s4, Option.some_bind]
  exact s5

/-! ## The claims -/
/-- C1: for both array-backed indexes (quadtree and Z-grid) built over
in-domain records with proper bounds, `query_knn(k, x, y)` returns
exactly the `min k n` closest stored records: every returned record is
at least as close to `(x, y)` as every stored record left out, so no
record outside the result is strictly closer than the farthest
returned. -/
theorem claim_C1 :
    (∀ (T : Type) (x0 x1 y0 y1 : ℚ) (f : T → Point) (raw : List T)
      (fuel : ℕ) (t : Quadtree T),
      Quadtree.build x0 x1 y0 y1 f raw fuel = some t →
      x0 ≤ x1 → y0 ≤ y1 →
      (∀ r ∈ raw, contains ⟨x0, x1, y0, y1⟩ (f r)) →
      ∀ (k : ℕ) (x y : ℚ) (res : List T),
      t.query_knn k x y = .ok res →
      res.length = min k raw.length ∧
      ∃ rest : Multiset T,
        (raw : Multiset T) = (res : Multiset T) + rest ∧
        ∀ a ∈ res, ∀ b ∈ rest,
          Real.sqrt ((dist2 ⟨x, y⟩ (f a) : ℚ) : ℝ) ≤
          Real.sqrt ((dist2 ⟨x, y⟩ (f b) : ℚ) : ℝ)) ∧
    (∀ (T : Type) (x0 x1 y0 y1 : ℚ) (f : T → Point) (raw : List T)
      (r : ℕ) (z : Zgrid T),
      Zgrid.build x0 x1 y0 y1 f raw r = .ok z →
      x0 ≤ x1 → y0 ≤ y1 → r ≤ 16 →
      (∀ u ∈ raw, contains ⟨x0, x1, y0, y1⟩ (f u)) →
      ∀ (k : ℕ) (x y : ℚ) (res : List T),
      z.query_knn k x y = .ok res →
      res.length = min k raw.length ∧
      ∃ rest : Multiset T,
        (raw : Multiset T) = (res : Multiset T) + rest ∧
        ∀ a ∈ res, ∀ b ∈ rest,
          Real.sqrt ((dist2 ⟨x, y⟩ (f a) : ℚ) : ℝ) ≤
          Real.sqrt ((dist2 ⟨x, y⟩ (f b) : ℚ) : ℝ)) := by
  constructor
  · intro T x0 x1 y0 y1 f raw fuel t hb hx hy hin k x y res hq
    exact quadtree_knn_exact hb hx hy hin hq
  · intro T x0 x1 y0 y1 f raw r z hb hx hy hr hin k x y res hq
    exact zgrid_knn_exact hb hx hy hr hin hq

/-- Concrete instantiation of C1 on a three-point quadtree: the query
succeeds and the theorem's exactness conclusion holds at it. -/
theorem claim_C1_witness :
    ∃ (t : Quadtree Point) (res : List Point),
      Quadtree.build 0 1 0 1 (fun p : Point => p)
        [⟨0, 0⟩, ⟨1, 1⟩, ⟨1/2, 1/2⟩] 2 = some t ∧
      t.query_knn 2 0 0 = .ok res ∧
      res.length = min 2 3 ∧
      ∃ rest : Multiset Point,
        (([⟨0, 0⟩, ⟨1, 1⟩, ⟨1/2, 1/2⟩] : List Point) : Multiset Point) =
          (res : Multiset Point) + rest ∧
        ∀ a ∈ res, ∀ b ∈ rest,
          Real.sqrt ((dist2 ⟨0, 0⟩ a : ℚ) : ℝ) ≤
          Real.sqrt ((dist2 ⟨0, 0⟩ b : ℚ) : ℝ) := by
  have hs : (Quadtree.build 0 1 0 1 (fun p : Point => p)
      [⟨0, 0⟩, ⟨1, 1⟩, ⟨1/2, 1/2⟩] 2).isSome = true := by decide!
  obtain ⟨t, hb⟩ := Option.isSome_iff_exists.mp hs
  obtain ⟨res, hq⟩ := quadtree_knn_ok hb (show (1:ℕ) ≤ 2 by omega) 0 0
  have h := claim_C1.1 Point 0 1 0 1 (fun p : Point => p)
    [⟨0, 0⟩, ⟨1, 1⟩, ⟨1/2, 1/2⟩] 2 t hb (by norm_num) (by norm_num)
    (by decide!) 2 0 0 res hq
  exact ⟨t, res, hb, hq, h.1, h.2⟩

/-- C4: the sequence returned by either index's `query_knn` is ordered
farthest first — the distances to the query point are monotonically
non-increasing along the result. -/
theorem claim_C4 :
    (∀ (T : Type) (x0 x1 y0 y1 : ℚ) (f : T → Point) (raw : List T)
      (fuel : ℕ) (t : Quadtree T),
      Quadtree.build x0 x1 y0 y1 f raw fuel = some t →
      ∀ (k : ℕ) (x y : ℚ) (res : List T),
      t.query_knn k x y = .ok res →
      res.Pairwise (fun a b =>
        Real.sqrt ((dist2 ⟨x, y⟩ (f b) : ℚ) : ℝ) ≤
        Real.sqrt ((dist2 ⟨x, y⟩ (f a) : ℚ) : ℝ))) ∧
    (∀ (T : Type) (x0 x1 y0 y1 : ℚ) (f : T → Point) (raw : List T)
      (r : ℕ) (z : Zgrid T),
      Zgrid.build x0 x1 y0 y1 f raw r = .ok z →
      ∀ (k : ℕ) (x y : ℚ) (res : List T),
      z.query_knn k x y = .ok res →
      res.Pairwise (fun a b =>
        Real.sqrt ((dist2 ⟨x, y⟩ (f b) : ℚ) : ℝ) ≤
        Real.sqrt ((dist2 ⟨x, y⟩ (f a) : ℚ) : ℝ))) := by
  constructor
  · intro T x0 x1 y0 y1 f raw fuel t hb k x y res hq
    exact quadtree_knn_sorted hb hq
  · intro T x0 x1 y0 y1 f raw r z hb k x y res hq
    exact zgrid_knn_sorted hb hq

/-- Concrete instantiation of C4 on a three-point quadtree. -/
theorem claim_C4_witness :
    ∃ (t : Quadtree Point) (res : List Point),
      Quadtree.build 0 1 0 1 (fun p : Point => p)
        [⟨0, 0⟩, ⟨1, 1⟩, ⟨1/2, 1/2⟩] 2 = some t ∧
      t.query_knn 2 0 0 = .ok res ∧
      res.Pairwise (fun a b =>
        Real.sqrt ((dist2 ⟨0, 0⟩ b : ℚ) : ℝ) ≤
        Real.sqrt ((dist2 ⟨0, 0⟩ a : ℚ) : ℝ)) := by
  have hs : (Quadtree.build 0 1 0 1 (fun p : Point => p)
      [⟨0, 0⟩, ⟨1, 1⟩, ⟨1/2, 1/2⟩] 2).isSome = true := by decide!
  obtain ⟨t, hb⟩ := Option.isSome_iff_exists.mp hs
  obtain ⟨res, hq⟩ := quadtree_knn_ok hb (show (1:ℕ) ≤ 2 by omega) 0 0
  exact ⟨t, res, hb, hq, claim_C4.1 Point 0 1 0 1 (fun p : Point => p)
    [⟨0, 0⟩, ⟨1, 1⟩, ⟨1/2, 1/2⟩] 2 t hb 2 0 0 res hq⟩

/-- C5: either index returns at most `k` records, and when it holds
fewer than `k` records the query returns all of them. -/
theorem claim_C5 :
    (∀ (T : Type) (x0 x1 y0 y1 : ℚ) (f : T → Point) (raw : List T)
      (fuel : ℕ) (t : Quadtree T),
      Quadtree.build x0 x1 y0 y1 f raw fuel = some t →
      ∀ (k : ℕ) (x y : ℚ) (res : List T),
      t.query_knn k x y = .ok res →
      res.length ≤ k ∧
      (raw.length < k → (res : Multiset T) = (raw : Multiset T))) ∧
    (∀ (T : Type) (x0 x1 y0 y1 : ℚ) (f : T → Point) (raw : List T)
      (r : ℕ) (z : Zgrid T),
      Zgrid.build x0 x1 y0 y1 f raw r = .ok z →
      ∀ (k : ℕ) (x y : ℚ) (res : List T),
      z.query_knn k x y = .ok res →
      res.length ≤ k ∧
      (raw.length < k → (res : Multiset T) = (raw : Multiset T))) := by
  constructor
  · intro T x0 x1 y0 y1 f raw fuel t hb k x y res hq
    exact ⟨quadtree_knn_le hq, fun hn => quadtree_knn_all hb hq hn⟩
  · intro T x0 x1 y0 y1 f raw r z hb k x y res hq
    exact ⟨zgrid_knn_le hq, fun hn => zgrid_knn_all hb hq hn⟩

/-- Concrete instantiation of C5: a three-point quadtree queried with
`k = 5` returns all three records. -/
theorem claim_C5_witness :
    ∃ (t : Quadtree Point) (res : List Point),
      Quadtree.build 0 1 0 1 (fun p : Point => p)
        [⟨0, 0⟩, ⟨1, 1⟩, ⟨1/2, 1/2⟩] 2 = some t ∧
      t.query_knn 5 0 0 = .ok res ∧
      res.length ≤ 5 ∧
      (res : Multiset Point) =
        (([⟨0, 0⟩, ⟨1, 1⟩, ⟨1/2, 1/2⟩] : List Point) : Multiset Point) := by
  have hs : (Quadtree.build 0 1 0 1 (fun p : Point => p)
      [⟨0, 0⟩, ⟨1, 1⟩, ⟨1/2, 1/2⟩] 2).isSome = true := by decide!
  obtain ⟨t, hb⟩ := Option.isSome_iff_exists.mp hs
  obtain ⟨res, hq⟩ := quadtree_knn_ok hb (show (1:ℕ) ≤ 5 by omega) 0 0
  have h := claim_C5.1 Point 0 1 0 1 (fun p : Point => p)
    [⟨0, 0⟩, ⟨1, 1⟩, ⟨1/2, 1/2⟩] 2 t hb 5 0 0 res hq
  exact ⟨t, res, hb, hq, h.1, h.2 (by simp)⟩

/-- C6: in every built quadtree, every internal node's leaf range
starts at its first child's start, stops at its last child's stop, and
consecutive children cover adjacent index ranges, so each subtree reads
a contiguous slice of the leaf array. -/
theorem claim_C6 {T : Type} {x0 x1 y0 y1 : ℚ} {f : T → Point}
    {raw : List T} {fuel : ℕ} {t : Quadtree T}
    (hb : Quadtree.build x0 x1 y0 y1 f raw fuel = some t) :
    ∀ n ∈ t.root.descendants, ∀ c0 c1 c2 c3,
      n.children = some (c0, c1, c2, c3) →
      n.leaf_range.start = c0.leaf_range.start ∧
      c0.leaf_range.stop + 1 = c1.leaf_range.start ∧
      c1.leaf_range.stop + 1 = c2.leaf_range.start ∧
      c2.leaf_range.stop + 1 = c3.leaf_range.start ∧
      n.leaf_range.stop = c3.leaf_range.stop :=
  quadtree_contiguity hb

/-- Concrete instantiation of C6 on a quadtree of 17 diagonal points
(one split, so the root is internal). -/
theorem claim_C6_witness :
    ∃ t : Quadtree Point,
      Quadtree.build 0 1 0 1 (fun p : Point => p)
        ((List.range 17).map (fun i : ℕ => Point.mk ((i : ℚ) / 20) ((i : ℚ) / 20))) 2 =
        some t ∧
      t.root.is_leaf = false ∧
      ∀ n ∈ t.root.descendants, ∀ c0 c1 c2 c3,
        n.children = some (c0, c1, c2, c3) →
        n.leaf_range.start = c0.leaf_range.start ∧
        c0.leaf_range.stop + 1 = c1.leaf_range.start ∧
        c1.leaf_range.stop + 1 = c2.leaf_range.start ∧
        c2.leaf_range.stop + 1 = c3.leaf_range.start ∧
        n.leaf_range.stop = c3.leaf_range.stop := by
  have hs : (Quadtree.build 0 1 0 1 (fun p : Point => p)
      ((List.range 17).map (fun i : ℕ => Point.mk ((i : ℚ) / 20) ((i : ℚ) / 20))) 2).isSome =
      true := by decide!
  obtain ⟨t, hb⟩ := Option.isSome_iff_exists.mp hs
  refine ⟨t, hb, ?_, claim_C6 hb⟩
  have hleaf : (Quadtree.build 0 1 0 1 (fun p : Point => p)
      ((List.range 17).map
        (fun i : ℕ => Point.mk ((i : ℚ) / 20) ((i : ℚ) / 20))) 2).map
      (fun u => u.root.is_leaf) = some false := by decide!
  rw [hb] at hleaf
  simp only [Option.map_some', Option.some.injEq] at hleaf
  exact hleaf

/-- C7 (amended): the constructors validate nothing.  The quadtree
accepts any domain bounds, inverted included, stores them nudged by
`0.01` and yields a working index; the Z-grid likewise accepts inverted
bounds and can build and answer queries with them. -/
theorem claim_C7 :
    (∀ (T : Type) (x0 x1 y0 y1 : ℚ) (f : T → Point) (raw : List T),
      raw.length ≤ LEAF_CAPACITY →
      ∃ t : Quadtree T, Quadtree.build x0 x1 y0 y1 f raw 1 = some t ∧
        t.root.bounds = ctorBounds x0 x1 y0 y1) ∧
    ((Zgrid.build (1 : ℚ) 0 1 0 (fun _ => Point.mk (1/2) (1/2))
      [()] 0).toOption.map (fun z => (z.query_knn 1 0 0).toOption) =
      some (some [()])) := by
  constructor
  · intro T x0 x1 y0 y1 f raw h
    exact quadtree_accepts_any_bounds x0 x1 y0 y1 f raw h
  · decide!

/-- Concrete instantiation of C7's quadtree part at inverted bounds. -/
theorem claim_C7_witness :
    ∃ t : Quadtree Unit,
      Quadtree.build (1 : ℚ) 0 1 0 (fun _ => Point.mk 0 0) [()] 1 = some t ∧
      t.root.bounds = ctorBounds 1 0 1 0 :=
  claim_C7.1 Unit 1 0 1 0 (fun _ => Point.mk 0 0) [()] (by decide)

/-- C8 (amended): no clamping happens.  Every record of a successfully
built grid sits in the bucket of its unclamped `zorder_hash` code, and
the build only succeeded because those codes happened to fall in
`[0, 4^r)`; an out-of-domain record can produce an out-of-range code,
in which case the grid is indexed out of bounds instead of clamping. -/
theorem claim_C8 {T : Type} {x0 x1 y0 y1 : ℚ} {f : T → Point}
    {raw : List T} {r : ℕ} {z : Zgrid T}
    (hb : Zgrid.build x0 x1 y0 y1 f raw r = .ok z) :
    ∀ t ∈ raw, zorder_hash z.bounds (f t) r < 4 ^ r ∧
      (⟨t, f t⟩ : Datum T) ∈
        z.grid.getD (zorder_hash z.bounds (f t) r) [] :=
  zgrid_stores_at_computed_code hb

/-- Concrete instantiation of C8 on a one-record grid. -/
theorem claim_C8_witness :
    ∃ z : Zgrid Unit,
      Zgrid.build (0 : ℚ) 1 0 1 (fun _ => Point.mk (1/2) (1/2)) [()] 1 =
        .ok z ∧
      zorder_hash z.bounds (Point.mk (1/2) (1/2)) 1 < 4 ^ 1 ∧
      (⟨(), Point.mk (1/2) (1/2)⟩ : Datum Unit) ∈
        z.grid.getD (zorder_hash z.bounds (Point.mk (1/2) (1/2)) 1) [] := by
  have hs : (Zgrid.build (0 : ℚ) 1 0 1 (fun _ => Point.mk (1/2) (1/2))
      [()] 1).toOption.isSome = true := by decide!
  obtain ⟨z, hz⟩ := Option.isSome_iff_exists.mp hs
  have hb := except_eq_ok_of_toOption hz
  exact ⟨z, hb, claim_C8 hb () (by decide)⟩

/-- C9 (amended): `Quadtree::build` terminates exactly when the
recursion can separate the buckets: with proper bounds, in-domain
records, at most `LEAF_CAPACITY` records per point, and distinct
points at least `δ` apart in some coordinate, a recursion budget that
shrinks cells below `δ` suffices.  (More than `LEAF_CAPACITY` records
on one point make the recursion diverge — the counterexample.) -/
theorem claim_C9 {T : Type} (x0 x1 y0 y1 : ℚ) (f : T → Point)
    (raw : List T) (δ : ℚ) (fuel : ℕ)
    (hx : x0 ≤ x1) (hy : y0 ≤ y1)
    (hin : ∀ t ∈ raw, contains ⟨x0, x1, y0, y1⟩ (f t))
    (hsep : ∀ t ∈ raw, ∀ u ∈ raw, f t ≠ f u →
      δ ≤ |(f t).x - (f u).x| ∨ δ ≤ |(f t).y - (f u).y|)
    (hmult : ∀ q : Point,
      raw.countP (fun t => decide (f t = q)) ≤ LEAF_CAPACITY)
    (hw : x1 + 1/100 - x0 < δ * 2 ^ fuel)
    (hh : y1 + 1/100 - y0 < δ * 2 ^ fuel) :
    (Quadtree.build x0 x1 y0 y1 f raw (fuel + 1)).isSome = true := by
  unfold Quadtree.build
  rw [Option.isSome_map']
  apply insert_terminates fuel 0 0 (ctorBounds x0 x1 y0 y1) [] (datumize f raw)
  · show x0 ≤ x1 + 1/100
    linarith
  · show y0 ≤ y1 + 1/100
    linarith
  · intro d hd
    unfold datumize at hd
    rw [List.mem_map] at hd
    obtain ⟨t, ht, hdt⟩ := hd
    obtain ⟨a1, a2, a3, a4⟩ := hin t ht
    subst hdt
    exact ⟨a1, by show (f t).x ≤ x1 + 1/100; linarith,
      a3, by show (f t).y ≤ y1 + 1/100; linarith⟩
  · intro d hd e he hne
    unfold datumize at hd he
    rw [List.mem_map] at hd he
    obtain ⟨t, ht, hdt⟩ := hd
    obtain ⟨u, hu, heu⟩ := he
    subst hdt
    subst heu
    exact hsep t ht u hu hne
  · intro q
    unfold datumize
    rw [List.countP_map]
    exact hmult q
  · show (ctorBounds x0 x1 y0 y1).xmax - (ctorBounds x0 x1 y0 y1).xmin <
      δ * 2 ^ fuel
    show x1 + 1/100 - x0 < δ * 2 ^ fuel
    exact hw
  · show y1 + 1/100 - y0 < δ * 2 ^ fuel
    exact hh

/-- Concrete instantiation of C9: 17 distinct diagonal points,
separation `1/20`, build succeeds with budget 6. -/
theorem claim_C9_witness :
    (Quadtree.build 0 1 0 1 (fun p : Point => p)
      ((List.range 17).map (fun i : ℕ => Point.mk ((i : ℚ) / 20) ((i : ℚ) / 20)))
      6).isSome = true := by
  apply claim_C9 0 1 0 1 (fun p : Point => p) _ (1/20) 5
  · norm_num
  · norm_num
  · decide!
  · decide!
  · intro q
    have hnd : ((List.range 17).map
        (fun i : ℕ => Point.mk ((i : ℚ) / 20) ((i : ℚ) / 20))).Nodup := by
      decide!
    have hc := List.nodup_iff_count_le_one.mp hnd q
    calc ((List.range 17).map
        (fun i : ℕ => Point.mk ((i : ℚ) / 20) ((i : ℚ) / 20))).countP
          (fun t => decide (t = q)) =
        ((List.range 17).map
          (fun i : ℕ => Point.mk ((i : ℚ) / 20) ((i : ℚ) / 20))).count q := by
          rfl
      _ ≤ 1 := hc
      _ ≤ LEAF_CAPACITY := by norm_num [LEAF_CAPACITY]
  · norm_num
  · norm_num

/-- Seventeen records on one and the same point defeat every recursion
budget: even 100 levels do not reach the leaf case (and by
`quadtree_build_diverges`, no budget does). -/
theorem claim_C9_counterexample :
    Quadtree.build (0 : ℚ) 1 0 1 (fun _ => Point.mk 0 0)
      (List.replicate 17 ()) 100 = none :=
  quadtree_build_diverges 100

/-- C10: with `k ≥ 1`, the query loop of either index never peeks or
pops an empty priority queue — every run of `query_knn` on a built
index returns a result rather than hitting a guarded-access error. -/
theorem claim_C10 :
    (∀ (T : Type) (x0 x1 y0 y1 : ℚ) (f : T → Point) (raw : List T)
      (fuel : ℕ) (t : Quadtree T),
      Quadtree.build x0 x1 y0 y1 f raw fuel = some t →
      ∀ k : ℕ, 1 ≤ k → ∀ x y : ℚ,
      ∃ res, t.query_knn k x y = .ok res) ∧
    (∀ (T : Type) (x0 x1 y0 y1 : ℚ) (f : T → Point) (raw : List T)
      (r : ℕ) (z : Zgrid T),
      Zgrid.build x0 x1 y0 y1 f raw r = .ok z →
      ∀ k : ℕ, 1 ≤ k → ∀ x y : ℚ,
      ∃ res, z.query_knn k x y = .ok res) := by
  constructor
  · intro T x0 x1 y0 y1 f raw fuel t hb k hk x y
    exact quadtree_knn_ok hb hk x y
  · intro T x0 x1 y0 y1 f raw r z hb k hk x y
    exact zgrid_knn_ok hb hk x y

/-- Concrete instantiation of C10 on both indexes. -/
theorem claim_C10_witness :
    (∃ t : Quadtree Point, Quadtree.build 0 1 0 1 (fun p : Point => p)
      [⟨0, 0⟩, ⟨1, 1⟩, ⟨1/2, 1/2⟩] 2 = some t ∧
      ∃ res, t.query_knn 1 (1/4) (1/4) = .ok res) ∧
    (∃ z : Zgrid Point, Zgrid.build 0 1 0 1 (fun p : Point => p)
      [⟨0, 0⟩, ⟨1, 1⟩, ⟨1/2, 1/2⟩] 1 = .ok z ∧
      ∃ res, z.query_knn 1 (1/4) (1/4) = .ok res) := by
  constructor
  · have hs : (Quadtree.build 0 1 0 1 (fun p : Point => p)
        [⟨0, 0⟩, ⟨1, 1⟩, ⟨1/2, 1/2⟩] 2).isSome = true := by decide!
    obtain ⟨t, hb⟩ := Option.isSome_iff_exists.mp hs
    exact ⟨t, hb, claim_C10.1 Point 0 1 0 1 (fun p : Point => p)
      [⟨0, 0⟩, ⟨1, 1⟩, ⟨1/2, 1/2⟩] 2 t hb 1 (by omega) (1/4) (1/4)⟩
  · have hs : (Zgrid.build 0 1 0 1 (fun p : Point => p)
        [⟨0, 0⟩, ⟨1, 1⟩, ⟨1/2, 1/2⟩] 1).toOption.isSome = true := by decide!
    obtain ⟨z, hz⟩ := Option.isSome_iff_exists.mp hs
    have hb := except_eq_ok_of_toOption hz
    exact ⟨z, hb, claim_C10.2 Point 0 1 0 1 (fun p : Point => p)
      [⟨0, 0⟩, ⟨1, 1⟩, ⟨1/2, 1/2⟩] 1 z hb 1 (by omega) (1/4) (1/4)⟩

end Spatial
